import Mathlib

/-!
# Constant folding pass of `optimizer.cpp`

A shallow embedding of `canFoldBinOp`, `foldBinOp`, `canFoldComp`, `foldComp` and
`OptimizerPass::runOnFunction`, together with the part of the LLVM API they call
(`ConstantInt::getSExtValue`, `ConstantInt::getSigned`, `ConstantInt::getTrue`,
`ConstantInt::getFalse`, `Value::replaceAllUsesWith`, `ReplaceInstWithValue`).

The function being optimised is threaded explicitly: every operation that mutates
the IR in C++ takes the `Function` and returns the new one.
-/

namespace Optimizer

/-! ## IR model -/

/-- An `llvm::ConstantInt`: an integer type of `width` bits and the stored bit
pattern read as an unsigned number (`bits < 2 ^ width` for every constant built
by `getSigned`). -/
structure ConstantInt where
  width : Nat
  bits : Nat
deriving DecidableEq

/-- An `llvm::Value` as it appears in an operand slot.  `instruction id` is the
result of the instruction with identity `id`; `basicBlock` is a branch target;
`other` is any other value (argument, global, non-integer constant). -/
inductive Value where
  | constantInt (c : ConstantInt)
  | instruction (id : Nat)
  | basicBlock (label : Nat)
  | other (tag : Nat)
deriving DecidableEq

/-- The opcodes of `llvm::BinaryOperator`. -/
inductive BinaryOps where
  | Add | FAdd | Sub | FSub | Mul | FMul | UDiv | SDiv | FDiv
  | URem | SRem | FRem | Shl | LShr | AShr | And | Or | Xor
deriving DecidableEq

/-- The predicates of `llvm::ICmpInst`. -/
inductive Predicate where
  | ICMP_EQ | ICMP_NE | ICMP_UGT | ICMP_UGE | ICMP_ULT | ICMP_ULE
  | ICMP_SGT | ICMP_SGE | ICMP_SLT | ICMP_SLE
deriving DecidableEq

/-- The class of an instruction as seen by `llvm::isa`. -/
inductive InstKind where
  | binaryOperator (opcode : BinaryOps)
  | iCmpInst (predicate : Predicate)
  | other (opcode : Nat)
deriving DecidableEq

/-- An `llvm::Instruction`: its identity (the address of the object in C++),
its class and its operand list. -/
structure Instruction where
  id : Nat
  kind : InstKind
  operands : List Value
deriving DecidableEq

/-- An `llvm::BasicBlock`: its instruction list. -/
abbrev BasicBlock := List Instruction

/-- An `llvm::Function`: its basic block list. -/
abbrev Function := List BasicBlock

/-- An `llvm::BasicBlock::iterator`, given by the index of the block in the
function and the position in the block's instruction list. -/
structure Iterator where
  block : Nat
  pos : Nat
deriving DecidableEq

/-- Result of running a loop of the pass.  `abort` stands for an LLVM assertion
failure or C++ undefined behaviour met on the way; `outOfFuel` says that the
restart budget given to the loop was used up before the loop ended. -/
inductive Outcome (α : Type) where
  | ok (a : α)
  | abort
  | outOfFuel
deriving DecidableEq

/-- What one execution of the body of the instruction loop does: `next` falls
through to `iter++`, `restart` takes the `goto LOOP`, `abort` is an assertion
failure or undefined behaviour. -/
inductive BodyResult where
  | next (F : Function)
  | restart (F : Function)
  | abort
deriving DecidableEq

/-- How one traversal of a block by the instruction loop ends: the cursor reached
`block.end()`, or a fold succeeded and the loop is restarted, or the run aborted. -/
inductive ScanResult where
  | finished (F : Function)
  | restart (F : Function)
  | abort
deriving DecidableEq

/-! ## 64-bit signed arithmetic and `ConstantInt` -/

/-- Two to the power 63, as an integer. -/
def two63 : Int := ((2 ^ 63 : Nat) : Int)

/-- Two to the power 64, as an integer. -/
def two64 : Int := ((2 ^ 64 : Nat) : Int)

/-- Two's-complement wrap of an integer into the range of `int64_t`. -/
def wrap64 (x : Int) : Int := (x + two63) % two64 - two63

/-- The value `x` fits in an `int64_t`. -/
def fitsInt64 (x : Int) : Prop := -two63 ≤ x ∧ x < two63

instance (x : Int) : Decidable (fitsInt64 x) := by
  unfold fitsInt64; infer_instance

/-- The bit pattern of a constant read as a signed `width`-bit number. -/
def ConstantInt.signedValue (c : ConstantInt) : Int :=
  if c.bits < 2 ^ (c.width - 1) then (c.bits : Int) else (c.bits : Int) - ((2 ^ c.width : Nat) : Int)

/-- The method `ConstantInt::getSExtValue`: the value sign-extended to `int64_t`.
LLVM requires the bit width to be at most 64 or the value to fit an `int64_t`,
and asserts otherwise (`none`). -/
def ConstantInt.getSExtValue (c : ConstantInt) : Option Int :=
  if c.width ≤ 64 ∨ fitsInt64 c.signedValue then some c.signedValue else none

/-- The factory `ConstantInt::getSigned(Ty, V)` for the integer type of `width` bits:
the `int64_t` value `v` sign-extended or truncated to `width` bits. -/
def ConstantInt.getSigned (width : Nat) (v : Int) : ConstantInt :=
  { width := width, bits := (v % ((2 ^ width : Nat) : Int)).toNat }

/-- The factory `ConstantInt::getTrue(Ty)`: the `i1` constant 1. -/
def ConstantInt.getTrue : ConstantInt := { width := 1, bits := 1 }

/-- The factory `ConstantInt::getFalse(Ty)`: the `i1` constant 0. -/
def ConstantInt.getFalse : ConstantInt := { width := 1, bits := 0 }

/-- The C++ expression `a / b` on `int64_t`: quotient rounded toward zero.
Division by zero and `INT64_MIN / -1` are undefined behaviour (`none`). -/
def sdiv64 (a b : Int) : Option Int :=
  if b = 0 then none
  else if a = -two63 ∧ b = -1 then none
  else some (Int.tdiv a b)

/-! ## IR access and mutation -/

/-- Dereferencing an iterator, `*it`; `none` when it does not point at an instruction. -/
def deref (F : Function) (it : Iterator) : Option Instruction :=
  match F[it.block]? with
  | none => none
  | some B => B[it.pos]?

/-- The method `User::getOperand(i)`; `none` when `i` is out of range (an assertion in LLVM). -/
def Instruction.getOperand (I : Instruction) (i : Nat) : Option Value :=
  I.operands[i]?

/-- The test `llvm::isa<llvm::ConstantInt>(v)`. -/
def isaConstantInt : Value → Bool
  | .constantInt _ => true
  | _ => false

/-- The test `llvm::isa<llvm::BinaryOperator>(I)`. -/
def isaBinaryOperator (I : Instruction) : Bool :=
  match I.kind with
  | .binaryOperator _ => true
  | _ => false

/-- The test `llvm::isa<llvm::ICmpInst>(I)`. -/
def isaICmpInst (I : Instruction) : Bool :=
  match I.kind with
  | .iCmpInst _ => true
  | _ => false

/-- The method `User::replaceUsesOfWith`: every operand slot of `J` that holds the
result of instruction `id` is made to hold `v`. -/
def Instruction.replaceUsesOfWith (J : Instruction) (id : Nat) (v : Value) : Instruction :=
  { J with operands := J.operands.map (fun u => if u = Value.instruction id then v else u) }

/-- The method `Value::replaceAllUsesWith` called on the instruction `id`: every use
of its result, in any block of the function, is retargeted to `v`. -/
def replaceAllUsesWith (id : Nat) (v : Value) (F : Function) : Function :=
  F.map (fun B => B.map (fun J => J.replaceUsesOfWith id v))

/-- The call `BIL.erase(BI)`: unlink the instruction under the iterator from its block. -/
def eraseInst (F : Function) (it : Iterator) : Function :=
  match F[it.block]? with
  | none => F
  | some B => F.set it.block (B.eraseIdx it.pos)

/-- The LLVM utility `ReplaceInstWithValue(BIL, BI, V)`: replace all uses of the
instruction under the iterator by `V`, then erase the instruction. -/
def ReplaceInstWithValue (F : Function) (it : Iterator) (v : Value) : Function :=
  match deref F it with
  | none => F
  | some I => eraseInst (replaceAllUsesWith I.id v F) it

/-! ## The pass -/

/-- The function `canFoldBinOp`: is the instruction a binary operator whose two
operands are `ConstantInt`s?  `&&` short-circuits, so operands are read only of a
binary operator; `none` is an invalid iterator or an out-of-range operand access. -/
def canFoldBinOp (F : Function) (it : Iterator) : Option Bool :=
  match deref F it with
  | none => none
  | some I =>
    if isaBinaryOperator I then
      match I.getOperand 0 with
      | none => none
      | some v0 =>
        if isaConstantInt v0 then
          match I.getOperand 1 with
          | none => none
          | some v1 => some (isaConstantInt v1)
        else some false
    else some false

/-- The `switch` of `foldBinOp`: the constant computed for a supported opcode
(`some value`), or `some none` for the `default:` branch.  The arithmetic is done on
the `int64_t` values of `getSExtValue` and the result is built by `getSigned` in the
type of the left operand.  The outer `none` is an assertion failure of
`getSExtValue` or an undefined division. -/
def foldBinOpValue (opcode : BinaryOps) (lhs rhs : ConstantInt) : Option (Option ConstantInt) :=
  match opcode with
  | .Add =>
    match lhs.getSExtValue, rhs.getSExtValue with
    | some a, some b => some (some (ConstantInt.getSigned lhs.width (wrap64 (a + b))))
    | _, _ => none
  | .Sub =>
    match lhs.getSExtValue, rhs.getSExtValue with
    | some a, some b => some (some (ConstantInt.getSigned lhs.width (wrap64 (a - b))))
    | _, _ => none
  | .Mul =>
    match lhs.getSExtValue, rhs.getSExtValue with
    | some a, some b => some (some (ConstantInt.getSigned lhs.width (wrap64 (a * b))))
    | _, _ => none
  | .SDiv =>
    match lhs.getSExtValue, rhs.getSExtValue with
    | some a, some b =>
      match sdiv64 a b with
      | some q => some (some (ConstantInt.getSigned lhs.width q))
      | none => none
    | _, _ => none
  | _ => some none

/-- The function `foldBinOp`.  Returns the boolean result and the function after
the call; `none` is a failed `llvm::cast`, a failed assertion or undefined behaviour. -/
def foldBinOp (F : Function) (it : Iterator) : Option (Bool × Function) :=
  match deref F it with
  | none => none
  | some I =>
    match I.kind with
    | .binaryOperator opcode =>
      match I.getOperand 0, I.getOperand 1 with
      | some (.constantInt lhs), some (.constantInt rhs) =>
        match foldBinOpValue opcode lhs rhs with
        | none => none
        | some none => some (false, F)
        | some (some value) => some (true, ReplaceInstWithValue F it (.constantInt value))
      | _, _ => none
    | _ => none

/-- The function `canFoldComp`: is the instruction an integer comparison whose two
operands are `ConstantInt`s? -/
def canFoldComp (F : Function) (it : Iterator) : Option Bool :=
  match deref F it with
  | none => none
  | some I =>
    if isaICmpInst I then
      match I.getOperand 0 with
      | none => none
      | some v0 =>
        if isaConstantInt v0 then
          match I.getOperand 1 with
          | none => none
          | some v1 => some (isaConstantInt v1)
        else some false
    else some false

/-- The `switch` of `foldComp`: `bool_value` for a supported predicate (`some b`), or
`some none` for the `default:` branch; the outer `none` is an assertion failure of
`getSExtValue`. -/
def foldCompValue (predicate : Predicate) (lhs rhs : ConstantInt) : Option (Option Bool) :=
  match predicate with
  | .ICMP_EQ =>
    match lhs.getSExtValue, rhs.getSExtValue with
    | some a, some b => some (some (decide (a = b)))
    | _, _ => none
  | .ICMP_NE =>
    match lhs.getSExtValue, rhs.getSExtValue with
    | some a, some b => some (some (decide (a ≠ b)))
    | _, _ => none
  | .ICMP_SGT =>
    match lhs.getSExtValue, rhs.getSExtValue with
    | some a, some b => some (some (decide (a > b)))
    | _, _ => none
  | .ICMP_SGE =>
    match lhs.getSExtValue, rhs.getSExtValue with
    | some a, some b => some (some (decide (a ≥ b)))
    | _, _ => none
  | .ICMP_SLT =>
    match lhs.getSExtValue, rhs.getSExtValue with
    | some a, some b => some (some (decide (a < b)))
    | _, _ => none
  | .ICMP_SLE =>
    match lhs.getSExtValue, rhs.getSExtValue with
    | some a, some b => some (some (decide (a ≤ b)))
    | _, _ => none
  | _ => some none

/-- The function `foldComp`.  Returns the boolean result and the function after the
call; `none` is a failed `llvm::cast` or a failed assertion. -/
def foldComp (F : Function) (it : Iterator) : Option (Bool × Function) :=
  match deref F it with
  | none => none
  | some I =>
    match I.kind with
    | .iCmpInst predicate =>
      match I.getOperand 0, I.getOperand 1 with
      | some (.constantInt lhs), some (.constantInt rhs) =>
        match foldCompValue predicate lhs rhs with
        | none => none
        | some none => some (false, F)
        | some (some bool_value) =>
          some (true, ReplaceInstWithValue F it
            (.constantInt (if bool_value then ConstantInt.getTrue else ConstantInt.getFalse)))
      | _, _ => none
    | _ => none

/-- The body of the instruction loop of `runOnFunction`, for the cursor `it`. -/
def loopBody (F : Function) (it : Iterator) : BodyResult :=
  match canFoldBinOp F it with
  | none => .abort
  | some true =>
    match foldBinOp F it with
    | none => .abort
    | some (true, F1) => .restart F1
    | some (false, F1) => .next F1
  | some false =>
    match canFoldComp F it with
    | none => .abort
    | some true =>
      match foldComp F it with
      | none => .abort
      | some (true, F1) => .restart F1
      | some (false, F1) => .next F1
    | some false => .next F

/-- One traversal `for (iter = ...; iter != block.end(); iter++)` from the cursor
`it`, where `n` is the number of instructions from the cursor to `block.end()`.
It stops at the first successful fold. -/
def scanFrom : Nat → Function → Iterator → ScanResult
  | 0, F, _ => .finished F
  | n + 1, F, it =>
    match loopBody F it with
    | .abort => .abort
    | .restart F1 => .restart F1
    | .next F1 => scanFrom n F1 { block := it.block, pos := it.pos + 1 }

/-- The number of instructions of block `b` of `F`. -/
def blockSize (F : Function) (b : Nat) : Nat :=
  match F[b]? with
  | none => 0
  | some B => B.length

/-- The instruction loop with its `goto LOOP`: traverse block `b` from
`block.begin()`; after a successful fold start again from `block.begin()`.
`fuel` is the number of restarts allowed. -/
def scanLoop : Nat → Function → Nat → Outcome Function
  | fuel, F, b =>
    match scanFrom (blockSize F b) F { block := b, pos := 0 } with
    | .abort => .abort
    | .finished F1 => .ok F1
    | .restart F1 =>
      match fuel with
      | 0 => .outOfFuel
      | fuel1 + 1 => scanLoop fuel1 F1 b

/-- The instruction loop on block `b`, with one restart allowed per instruction of the block. -/
def runOnBlock (F : Function) (b : Nat) : Outcome Function :=
  scanLoop (blockSize F b) F b

/-- The loop `for (llvm::BasicBlock &block : function)` from block `b` on, where `k`
is the number of blocks left. -/
def runOnBlocks : Nat → Nat → Function → Outcome Function
  | 0, _, F => .ok F
  | k + 1, b, F =>
    match runOnBlock F b with
    | .ok F1 => runOnBlocks k (b + 1) F1
    | .abort => .abort
    | .outOfFuel => .outOfFuel

/-- The method `OptimizerPass::runOnFunction`: the returned boolean and the function
after the pass. -/
def runOnFunction (F : Function) : Outcome (Bool × Function) :=
  match runOnBlocks F.length 0 F with
  | .ok F1 => .ok (false, F1)
  | .abort => .abort
  | .outOfFuel => .outOfFuel

/-- The integer `a` is representable as a signed `w`-bit number. -/
def representable (w : Nat) (a : Int) : Prop :=
  -((2 ^ (w - 1) : Nat) : Int) ≤ a ∧ a < ((2 ^ (w - 1) : Nat) : Int)

instance (w : Nat) (a : Int) : Decidable (representable w a) := by
  unfold representable; infer_instance

/-- The integer `x` reduced modulo `2 ^ w` and read as a signed `w`-bit number. -/
def truncToWidth (w : Nat) (x : Int) : Int :=
  if x % ((2 ^ w : Nat) : Int) < ((2 ^ (w - 1) : Nat) : Int) then x % ((2 ^ w : Nat) : Int)
  else x % ((2 ^ w : Nat) : Int) - ((2 ^ w : Nat) : Int)

/-- Block `k` of the function (empty when `k` is not a block index). -/
def getBlock (F : Function) (k : Nat) : BasicBlock := (F[k]?).getD []

/-- One successful fold in block `b`: some instruction of the block that is a binary
operator or a comparison is replaced everywhere by a constant and erased. -/
def FoldStep (F : Function) (b : Nat) (F1 : Function) : Prop :=
  ∃ pos I c, deref F { block := b, pos := pos } = some I ∧
    (isaBinaryOperator I = true ∨ isaICmpInst I = true) ∧
    F1 = ReplaceInstWithValue F { block := b, pos := pos } (.constantInt c)

/-- A finite sequence of successful folds leads from the first function to the second. -/
inductive Folds : Function → Function → Prop where
  | refl (F : Function) : Folds F F
  | step {F F1 F2 : Function} (b : Nat) : FoldStep F b F1 → Folds F1 F2 → Folds F F2

/-- The opcodes that `foldBinOp` evaluates. -/
def supportedOpcode : BinaryOps → Bool
  | .Add | .Sub | .Mul | .SDiv => true
  | _ => false

/-- The predicates that `foldComp` evaluates. -/
def supportedPredicate : Predicate → Bool
  | .ICMP_EQ | .ICMP_NE | .ICMP_SGT | .ICMP_SGE | .ICMP_SLT | .ICMP_SLE => true
  | _ => false

/-- A foldable instruction: a binary operator with a supported opcode, or a comparison
with a supported predicate, whose two operands are both integer constants. -/
def isFoldable (I : Instruction) : Bool :=
  match I.kind, I.getOperand 0, I.getOperand 1 with
  | .binaryOperator opcode, some (.constantInt _), some (.constantInt _) => supportedOpcode opcode
  | .iCmpInst predicate, some (.constantInt _), some (.constantInt _) => supportedPredicate predicate
  | _, _, _ => false

/-- What the loop body does with the instruction `I`, as a function of `I` alone:
`none` when it aborts, `some none` when it falls through to `iter++`, `some (some c)`
when it folds `I` to the constant `c`. -/
def classify (I : Instruction) : Option (Option ConstantInt) :=
  match I.kind, I.getOperand 0, I.getOperand 1 with
  | .binaryOperator _, none, _ => none
  | .binaryOperator _, some (.constantInt _), none => none
  | .binaryOperator opcode, some (.constantInt lhs), some (.constantInt rhs) =>
    foldBinOpValue opcode lhs rhs
  | .binaryOperator _, some _, _ => some none
  | .iCmpInst _, none, _ => none
  | .iCmpInst _, some (.constantInt _), none => none
  | .iCmpInst predicate, some (.constantInt lhs), some (.constantInt rhs) =>
    match foldCompValue predicate lhs rhs with
    | none => none
    | some none => some none
    | some (some r) => some (some (if r then ConstantInt.getTrue else ConstantInt.getFalse))
  | .iCmpInst _, some _, _ => some none
  | .other _, _, _ => some none

/-- An operand slot before and after the pass, given the identities `D` of the folded
instructions: the slot is unchanged, or it held the result of a folded instruction and
now holds an integer constant. -/
def slotRel (D : List Nat) (v v1 : Value) : Prop :=
  v1 = v ∨ ∃ j c, j ∈ D ∧ v = Value.instruction j ∧ v1 = Value.constantInt c

/-- An instruction before and after the pass: same identity, same class, and operand
slots related one by one by `slotRel`. -/
def InstRel (D : List Nat) (I I1 : Instruction) : Prop :=
  I1.id = I.id ∧ I1.kind = I.kind ∧ List.Forall₂ (slotRel D) I.operands I1.operands

/-- A block before and after the pass: the instructions are kept in order, except that
binary operators and comparisons whose identity is in `D` may have been deleted. -/
inductive BlockRel (D : List Nat) : BasicBlock → BasicBlock → Prop where
  | nil : BlockRel D [] []
  | keep {I I1 : Instruction} {B B1 : BasicBlock} :
      InstRel D I I1 → BlockRel D B B1 → BlockRel D (I :: B) (I1 :: B1)
  | drop {I : Instruction} {B B1 : BasicBlock} :
      (isaBinaryOperator I = true ∨ isaICmpInst I = true) → I.id ∈ D →
      BlockRel D B B1 → BlockRel D (I :: B) B1

/-- A 32-bit integer constant operand. -/
def i32 (v : Int) : Value := .constantInt (ConstantInt.getSigned 32 v)

/-- The single-block function `t1 = add i32 2, 3; t2 = mul i32 t1, 4; ret i32 t2`. -/
def chainExample : Function :=
  [[{ id := 1, kind := .binaryOperator .Add, operands := [i32 2, i32 3] },
    { id := 2, kind := .binaryOperator .Mul, operands := [.instruction 1, i32 4] },
    { id := 3, kind := .other 1, operands := [.instruction 2] }]]

/-- No binary operator or comparison of `B` uses the result of a binary operator or
comparison of `B2`. -/
def usesNoFoldableOf (B B2 : BasicBlock) : Bool :=
  B.all (fun I => B2.all (fun J =>
    !((isaBinaryOperator I || isaICmpInst I) && (isaBinaryOperator J || isaICmpInst J) &&
      I.operands.contains (Value.instruction J.id))))

/-- No binary operator or comparison uses the result of a binary operator or comparison
of a block that comes later in the block list of the function. -/
def usesNoLaterFoldable : Function → Bool
  | [] => true
  | B :: rest => rest.all (fun B2 => usesNoFoldableOf B B2) && usesNoLaterFoldable rest

/-- The index form of `usesNoLaterFoldable`: no binary operator or comparison of block `i`
has an operand that is the result of a binary operator or comparison of a block `j` with
`i < j`. -/
def NoLaterFoldableUse (F : Function) : Prop :=
  ∀ i j, i < j → ∀ I ∈ getBlock F i, ∀ J ∈ getBlock F j,
    (isaBinaryOperator I = true ∨ isaICmpInst I = true) →
    (isaBinaryOperator J = true ∨ isaICmpInst J = true) →
    Value.instruction J.id ∉ I.operands

/-- The function `chainExample` after the fold of `t1`. -/
def chainAfterFirstFold : Function :=
  [[{ id := 2, kind := .binaryOperator .Mul, operands := [i32 5, i32 4] },
    { id := 3, kind := .other 1, operands := [.instruction 2] }]]

/-- The function `chainExample` after the pass. -/
def chainAfterPass : Function :=
  [[{ id := 3, kind := .other 1, operands := [i32 20] }]]

/-- The single-block function `q = sdiv i32 -7, 2; ret i32 q`. -/
def sdivExample : Function :=
  [[{ id := 1, kind := .binaryOperator .SDiv, operands := [i32 (-7), i32 2] },
    { id := 2, kind := .other 1, operands := [.instruction 1] }]]

/-- The single-block function `c = icmp slt i32 3, 7; br i1 c, label 1, label 2`. -/
def compareExample : Function :=
  [[{ id := 1, kind := .iCmpInst .ICMP_SLT, operands := [i32 3, i32 7] },
    { id := 2, kind := .other 2,
      operands := [.instruction 1, .basicBlock 1, .basicBlock 2] }]]

/-- The function `compareExample` after the pass. -/
def compareAfterPass : Function :=
  [[{ id := 2, kind := .other 2,
      operands := [.constantInt ConstantInt.getTrue, .basicBlock 1, .basicBlock 2] }]]

/-- The single-block function `s = add i65 9223372036854775807, 1; ret i65 s`. -/
def wideAddExample : Function :=
  [[{ id := 1, kind := .binaryOperator .Add,
      operands := [.constantInt (ConstantInt.getSigned 65 (2 ^ 63 - 1)),
                   .constantInt (ConstantInt.getSigned 65 1)] },
    { id := 2, kind := .other 1, operands := [.instruction 1] }]]

/-- The single-block function `q = sdiv iW -9223372036854775808, -1; ret iW q` for the
integer type of `w` bits. -/
def minDivExample (w : Nat) : Function :=
  [[{ id := 1, kind := .binaryOperator .SDiv,
      operands := [.constantInt (ConstantInt.getSigned w (-(2 ^ 63))),
                   .constantInt (ConstantInt.getSigned w (-1))] },
    { id := 2, kind := .other 1, operands := [.instruction 1] }]]

/-- The single-block function `c = icmp eq i128 18446744073709551616, 0; ret i1 c`. -/
def wideCompareExample : Function :=
  [[{ id := 1, kind := .iCmpInst .ICMP_EQ,
      operands := [.constantInt (ConstantInt.getSigned 128 (2 ^ 64)),
                   .constantInt (ConstantInt.getSigned 128 0)] },
    { id := 2, kind := .other 1, operands := [.instruction 1] }]]

/-- Two blocks, the second using a result of the first:
`t1 = add i32 2, 3; br label 1` and `t2 = mul i32 t1, 4; ret i32 t2`. -/
def twoBlockExample : Function :=
  [[{ id := 1, kind := .binaryOperator .Add, operands := [i32 2, i32 3] },
    { id := 2, kind := .other 2, operands := [.basicBlock 1] }],
   [{ id := 3, kind := .binaryOperator .Mul, operands := [.instruction 1, i32 4] },
    { id := 4, kind := .other 1, operands := [.instruction 3] }]]

/-- The function `twoBlockExample` after the pass. -/
def twoBlockAfterPass : Function :=
  [[{ id := 2, kind := .other 2, operands := [.basicBlock 1] }],
   [{ id := 4, kind := .other 1, operands := [i32 20] }]]

/-- Three blocks in the list order entry, A, B, where control flows entry, B, A and
block A uses a result of block B:
`br label 2`; `y = add i32 x, 1; ret i32 y`; `x = add i32 1, 2; br label 1`. -/
def laterUseExample : Function :=
  [[{ id := 1, kind := .other 2, operands := [.basicBlock 2] }],
   [{ id := 2, kind := .binaryOperator .Add, operands := [.instruction 4, i32 1] },
    { id := 3, kind := .other 1, operands := [.instruction 2] }],
   [{ id := 4, kind := .binaryOperator .Add, operands := [i32 1, i32 2] },
    { id := 5, kind := .other 2, operands := [.basicBlock 1] }]]

/-- The function `laterUseExample` after one run of the pass. -/
def laterUseAfterPass : Function :=
  [[{ id := 1, kind := .other 2, operands := [.basicBlock 2] }],
   [{ id := 2, kind := .binaryOperator .Add, operands := [i32 3, i32 1] },
    { id := 3, kind := .other 1, operands := [.instruction 2] }],
   [{ id := 5, kind := .other 2, operands := [.basicBlock 1] }]]

/-- The function `laterUseExample` after two runs of the pass. -/
def laterUseAfterSecondPass : Function :=
  [[{ id := 1, kind := .other 2, operands := [.basicBlock 2] }],
   [{ id := 3, kind := .other 1, operands := [i32 4] }],
   [{ id := 5, kind := .other 2, operands := [.basicBlock 1] }]]

/-- A loop whose header uses a result of the latch, which comes later in the block list:
`p = phi i32 [0, entry], [x, latch]; br label 1` and `x = add i32 1, 2; br label 0`. -/
def backEdgeExample : Function :=
  [[{ id := 1, kind := .other 3, operands := [i32 0, .instruction 3] },
    { id := 2, kind := .other 2, operands := [.basicBlock 1] }],
   [{ id := 3, kind := .binaryOperator .Add, operands := [i32 1, i32 2] },
    { id := 4, kind := .other 2, operands := [.basicBlock 0] }]]

/-- The function `backEdgeExample` after the pass. -/
def backEdgeAfterPass : Function :=
  [[{ id := 1, kind := .other 3, operands := [i32 0, i32 3] },
    { id := 2, kind := .other 2, operands := [.basicBlock 1] }],
   [{ id := 4, kind := .other 2, operands := [.basicBlock 0] }]]

/-- The single-block function `d = sdiv i32 10, 0; ret i32 d`. -/
def divByZeroExample : Function :=
  [[{ id := 1, kind := .binaryOperator .SDiv, operands := [i32 10, i32 0] },
    { id := 2, kind := .other 1, operands := [.instruction 1] }]]

/-- One successful fold in block `b`, with the reason why the loop body folds: the
instruction under the cursor is classified as foldable to the constant `c`. -/
def ClassifiedStep (F : Function) (b : Nat) (F1 : Function) : Prop :=
  ∃ pos I c, deref F { block := b, pos := pos } = some I ∧ classify I = some (some c) ∧
    F1 = ReplaceInstWithValue F { block := b, pos := pos } (.constantInt c)

/-- A finite sequence of classified folds leads from the first function to the second. -/
inductive FoldSeq : Function → Function → Prop where
  | refl (F : Function) : FoldSeq F F
  | step {F F1 F2 : Function} (b : Nat) : ClassifiedStep F b F1 → FoldSeq F1 F2 → FoldSeq F F2

/-- Instruction identities are unique in the function (in C++ the identity of an
instruction is the address of its object). -/
def uniqueIds (F : Function) : Prop := (F.flatten.map Instruction.id).Nodup

instance (F : Function) : Decidable (uniqueIds F) := by
  unfold uniqueIds; infer_instance

/-- A binary operator with an opcode that `foldBinOp` does not evaluate, or a comparison
with a predicate that `foldComp` does not evaluate, whose two operands are integer
constants. -/
def isUnsupportedConstOp (I : Instruction) : Bool :=
  match I.kind, I.operands with
  | .binaryOperator opcode, [.constantInt _, .constantInt _] => !supportedOpcode opcode
  | .iCmpInst predicate, [.constantInt _, .constantInt _] => !supportedPredicate predicate
  | _, _ => false

/-- The single-block function `m = and i32 6, 3; u = icmp ult i32 1, 2; r = or i32 m, 8;
br i1 u, label 1, label 2`. -/
def unsupportedExample : Function :=
  [[{ id := 1, kind := .binaryOperator .And, operands := [i32 6, i32 3] },
    { id := 2, kind := .iCmpInst .ICMP_ULT, operands := [i32 1, i32 2] },
    { id := 3, kind := .binaryOperator .Or, operands := [.instruction 1, i32 8] },
    { id := 4, kind := .other 2,
      operands := [.instruction 2, .basicBlock 1, .basicBlock 2] }]]

/-- The identity `j` belongs to an instruction of `F` and to no instruction of `F1`: on
the way from `F` to `F1` the instruction was folded. -/
def foldedAway (F F1 : Function) (j : Nat) : Prop :=
  (∃ J ∈ F.flatten, J.id = j) ∧ ∀ J1 ∈ F1.flatten, J1.id ≠ j

/-- The single-block function `t1 = add i32 2, 3; t2 = add i32 t1, x; ret i32 t2`, where
`x` is a function argument. -/
def partialExample : Function :=
  [[{ id := 1, kind := .binaryOperator .Add, operands := [i32 2, i32 3] },
    { id := 2, kind := .binaryOperator .Add, operands := [.instruction 1, .other 7] },
    { id := 3, kind := .other 1, operands := [.instruction 2] }]]

/-- The function `partialExample` after the pass. -/
def partialAfterPass : Function :=
  [[{ id := 2, kind := .binaryOperator .Add, operands := [i32 5, .other 7] },
    { id := 3, kind := .other 1, operands := [.instruction 2] }]]

/-- A single forward sweep over a block, without restart: the loop body of
`runOnFunction` is run at the cursor; after a successful fold the sweep continues with
the instruction that follows the erased one (it now stands under the cursor), otherwise
with the next position.  `n` is the number of instructions from the cursor to the end. -/
def sweepFrom : Nat → Function → Iterator → Outcome Function
  | 0, F, _ => .ok F
  | n + 1, F, it =>
    match loopBody F it with
    | .abort => .abort
    | .restart F1 => sweepFrom n F1 it
    | .next F1 => sweepFrom n F1 { block := it.block, pos := it.pos + 1 }

/-- The single forward sweep over block `b` from its first instruction. -/
def forwardSweep (F : Function) (b : Nat) : Outcome Function :=
  sweepFrom (blockSize F b) F { block := b, pos := 0 }

/-- Every operand of `I` that is the result of an instruction is the result of one of
the instructions `seen`. -/
def usesOnly (seen : List Nat) (I : Instruction) : Bool :=
  I.operands.all (fun v =>
    match v with
    | .instruction j => seen.contains j
    | _ => true)

/-- Definition before use in a block, given the identities `seen` of the instructions
before it: every operand is a constant, an opaque value, or the result of an earlier
instruction. -/
def definedBeforeUseFrom : List Nat → BasicBlock → Bool
  | _, [] => true
  | seen, I :: rest => usesOnly seen I && definedBeforeUseFrom (I.id :: seen) rest

/-- Definition before use in a block: every operand of an instruction of the block is a
constant, an opaque value, or the result of an instruction earlier in the block. -/
def definedBeforeUse (B : BasicBlock) : Bool := definedBeforeUseFrom [] B

/-- Every use of the result of an instruction of the block, by an instruction of the
block, comes after that instruction. -/
def UsesFollowDefs (B : BasicBlock) : Prop :=
  ∀ (n m : Nat) (J I : Instruction), B[n]? = some J → B[m]? = some I →
    Value.instruction J.id ∈ I.operands → n < m

/-! ## Reference semantics -/

/-- What is not fixed by the instructions themselves: the values of the opaque inputs
(arguments and other non-instruction values, results of opaque instructions) and the
meaning of the opcodes and predicates that the pass does not evaluate. -/
structure Interp where
  arg : Nat → ConstantInt
  inst : Nat → Option ConstantInt
  binop : BinaryOps → ConstantInt → ConstantInt → Option ConstantInt
  icmp : Predicate → ConstantInt → ConstantInt → Option ConstantInt

/-- The values computed so far, by instruction identity. -/
abbrev Env := Nat → Option ConstantInt

/-- The value of an operand. -/
def evalOperand (σ : Interp) (env : Env) : Value → Option ConstantInt
  | .constantInt c => some c
  | .instruction j => env j
  | .other t => some (σ.arg t)
  | .basicBlock _ => none

/-- Two's-complement meaning of a binary operator in the bit width of its left operand:
Add, Sub, Mul wrap, SDiv rounds toward zero and is undefined for divisor zero. -/
def semBinOp (σ : Interp) (opcode : BinaryOps) (l r : ConstantInt) : Option ConstantInt :=
  match opcode with
  | .Add => some (ConstantInt.getSigned l.width (l.signedValue + r.signedValue))
  | .Sub => some (ConstantInt.getSigned l.width (l.signedValue - r.signedValue))
  | .Mul => some (ConstantInt.getSigned l.width (l.signedValue * r.signedValue))
  | .SDiv =>
    if r.signedValue = 0 then none
    else some (ConstantInt.getSigned l.width (Int.tdiv l.signedValue r.signedValue))
  | other => σ.binop other l r

/-- Meaning of a comparison: the signed and equality predicates compare the signed
values and yield a 1-bit boolean. -/
def semICmp (σ : Interp) (predicate : Predicate) (l r : ConstantInt) : Option ConstantInt :=
  match predicate with
  | .ICMP_EQ => some (if l.signedValue = r.signedValue then ConstantInt.getTrue else ConstantInt.getFalse)
  | .ICMP_NE => some (if l.signedValue ≠ r.signedValue then ConstantInt.getTrue else ConstantInt.getFalse)
  | .ICMP_SGT => some (if l.signedValue > r.signedValue then ConstantInt.getTrue else ConstantInt.getFalse)
  | .ICMP_SGE => some (if l.signedValue ≥ r.signedValue then ConstantInt.getTrue else ConstantInt.getFalse)
  | .ICMP_SLT => some (if l.signedValue < r.signedValue then ConstantInt.getTrue else ConstantInt.getFalse)
  | .ICMP_SLE => some (if l.signedValue ≤ r.signedValue then ConstantInt.getTrue else ConstantInt.getFalse)
  | other => σ.icmp other l r

/-- The value of operand `s` of an instruction (`none` when there is no such operand or
it has no value). -/
def operandValue (σ : Interp) (env : Env) (I : Instruction) (s : Nat) : Option ConstantInt :=
  match I.getOperand s with
  | none => none
  | some v => evalOperand σ env v

/-- The value an instruction computes from the values of its operands. -/
def semInst (σ : Interp) (env : Env) (I : Instruction) : Option ConstantInt :=
  match I.kind with
  | .binaryOperator opcode =>
    match operandValue σ env I 0, operandValue σ env I 1 with
    | some l, some r => semBinOp σ opcode l r
    | _, _ => none
  | .iCmpInst predicate =>
    match operandValue σ env I 0, operandValue σ env I 1 with
    | some l, some r => semICmp σ predicate l r
    | _, _ => none
  | .other _ => σ.inst I.id

/-- Evaluate the instructions one after the other, recording each result. -/
def evalInsts (σ : Interp) : Env → List Instruction → Env
  | env, [] => env
  | env, I :: rest =>
    evalInsts σ (fun x => if x = I.id then semInst σ env I else env x) rest

/-- Evaluate the function: its blocks in list order, nothing being known at the start. -/
def evalFunction (σ : Interp) (F : Function) : Env :=
  evalInsts σ (fun _ => none) F.flatten

/-- Every integer constant operand of the function has a bit width of at most 64. -/
def constantsFit64 (F : Function) : Bool :=
  F.all (fun B => B.all (fun I => I.operands.all (fun v =>
    match v with
    | .constantInt c => decide (c.width ≤ 64)
    | _ => true)))

/-- The single-block function `s = add i65 9223372036854775807, 1; t = add i65 s, x`,
where `x` is a function argument. -/
def wideSemanticsExample : Function :=
  [[{ id := 1, kind := .binaryOperator .Add,
      operands := [.constantInt (ConstantInt.getSigned 65 (2 ^ 63 - 1)),
                   .constantInt (ConstantInt.getSigned 65 1)] },
    { id := 2, kind := .binaryOperator .Add, operands := [.instruction 1, .other 0] }]]

/-- The function `wideSemanticsExample` after the pass. -/
def wideSemanticsAfterPass : Function :=
  [[{ id := 2, kind := .binaryOperator .Add,
      operands := [.constantInt (ConstantInt.getSigned 65 (-(2 ^ 63))), .other 0] }]]

/-- An assignment in which every argument is the 65-bit zero. -/
def zeroInterp65 : Interp :=
  { arg := fun _ => ConstantInt.getSigned 65 0
    inst := fun _ => none
    binop := fun _ _ _ => none
    icmp := fun _ _ _ => none }

/-- An assignment in which every argument is the 32-bit constant 10. -/
def tenInterp32 : Interp :=
  { arg := fun _ => ConstantInt.getSigned 32 10
    inst := fun _ => none
    binop := fun _ _ _ => none
    icmp := fun _ _ _ => none }

/-- The index-free form of `constantsFit64`: every integer constant operand of every
instruction has a bit width of at most 64. -/
def AllFit64 (L : List Instruction) : Prop :=
  ∀ I ∈ L, ∀ c : ConstantInt, Value.constantInt c ∈ I.operands → c.width ≤ 64

/-- Neither block has a binary operator or comparison that uses the result of a binary
operator or comparison of the other. -/
def independentBlocks (B B2 : BasicBlock) : Prop :=
  usesNoFoldableOf B B2 = true ∧ usesNoFoldableOf B2 B = true

instance (B B2 : BasicBlock) : Decidable (independentBlocks B B2) := by
  unfold independentBlocks; infer_instance

/-- No binary operator or comparison of the function uses the result of a binary operator
or comparison that stands in a different block. -/
def blocksIndependent (F : Function) : Prop := F.Pairwise independentBlocks

instance (F : Function) : Decidable (blocksIndependent F) := by
  unfold blocksIndependent; infer_instance

/-- Two blocks that are independent and share no instruction identity. -/
def SeparateBlocks (B B2 : BasicBlock) : Prop :=
  independentBlocks B B2 ∧ ∀ I ∈ B, ∀ J ∈ B2, I.id ≠ J.id

/-- What one traversal of the block `B` from position `p` finds, as a function of the block
alone: `none` when the loop body aborts, `some none` when the cursor reaches the end of the
block, `some (some (q, j, c))` when the first fold is that of the instruction with
identity `j` at position `q`, to the constant `c`.  `n` is the number of instructions from
the cursor to the end of the block. -/
def findFold : Nat → BasicBlock → Nat → Option (Option (Nat × Nat × ConstantInt))
  | 0, _, _ => some none
  | n + 1, B, p =>
    match B[p]? with
    | none => none
    | some J =>
      match classify J with
      | none => none
      | some none => findFold n B (p + 1)
      | some (some c) => some (some (p, J.id, c))

/-- The instruction after the folds `σ` (identity of the folded instruction and constant,
in the order of the folds): each `replaceAllUsesWith` of the sequence applied to it. -/
def substFolds (σ : List (Nat × ConstantInt)) (I : Instruction) : Instruction :=
  σ.foldl (fun X e => X.replaceUsesOfWith e.1 (.constantInt e.2)) I

/-- The instruction loop as a function of the block alone: the folds it performs, in
order, and the block it leaves.  `fuel` is the number of restarts allowed. -/
def foldLoop : Nat → BasicBlock → Outcome (List (Nat × ConstantInt) × BasicBlock)
  | fuel, B =>
    match findFold B.length B 0 with
    | none => .abort
    | some none => .ok ([], B)
    | some (some (p, j, c)) =>
      match fuel with
      | 0 => .outOfFuel
      | fuel1 + 1 =>
        match foldLoop fuel1
            ((B.eraseIdx p).map (fun X => X.replaceUsesOfWith j (.constantInt c))) with
        | .ok (σ, B1) => .ok ((j, c) :: σ, B1)
        | .abort => .abort
        | .outOfFuel => .outOfFuel

/-- The folds `τ` leave the binary operators and comparisons of the block alone: none of
them is one of the folded instructions, and none of them uses the result of one. -/
def FoldsAvoid (τ : List (Nat × ConstantInt)) (B : BasicBlock) : Prop :=
  ∀ I ∈ B, (isaBinaryOperator I = true ∨ isaICmpInst I = true) →
    ∀ e ∈ τ, e.1 ≠ I.id ∧ Value.instruction e.1 ∉ I.operands

/-- The folds that the instruction loop performs on the block. -/
def blockFolds (B : BasicBlock) : List (Nat × ConstantInt) :=
  match foldLoop B.length B with
  | .ok (σ, _) => σ
  | _ => []

/-- What the instruction loop leaves of the block. -/
def blockResult (B : BasicBlock) : BasicBlock :=
  match foldLoop B.length B with
  | .ok (_, B1) => B1
  | _ => B

/-- The instruction loop returns on the block. -/
def blockReturns (B : BasicBlock) : Bool :=
  match foldLoop B.length B with
  | .ok _ => true
  | _ => false

/-- The blocks of `laterUseExample` in the list order entry, B, A. -/
def laterUsePermuted : Function :=
  [[{ id := 1, kind := .other 2, operands := [.basicBlock 2] }],
   [{ id := 4, kind := .binaryOperator .Add, operands := [i32 1, i32 2] },
    { id := 5, kind := .other 2, operands := [.basicBlock 1] }],
   [{ id := 2, kind := .binaryOperator .Add, operands := [.instruction 4, i32 1] },
    { id := 3, kind := .other 1, operands := [.instruction 2] }]]

/-- The function `laterUsePermuted` after the pass. -/
def laterUsePermutedAfterPass : Function :=
  [[{ id := 1, kind := .other 2, operands := [.basicBlock 2] }],
   [{ id := 5, kind := .other 2, operands := [.basicBlock 1] }],
   [{ id := 3, kind := .other 1, operands := [i32 4] }]]

/-- Two blocks that use each other's results only in instructions that are neither
binary operators nor comparisons:
`a = add i32 2, 3; store i32 m, ptr; br label 1` and `m = mul i32 4, 5; r = call (a, m); ret`. -/
def crossUseExample : Function :=
  [[{ id := 1, kind := .binaryOperator .Add, operands := [i32 2, i32 3] },
    { id := 2, kind := .other 4, operands := [.instruction 4, .other 0] },
    { id := 3, kind := .other 2, operands := [.basicBlock 1] }],
   [{ id := 4, kind := .binaryOperator .Mul, operands := [i32 4, i32 5] },
    { id := 5, kind := .other 5, operands := [.instruction 1, .instruction 4] },
    { id := 6, kind := .other 1, operands := [] }]]

/-- The first block of `crossUseExample` after the pass. -/
def crossUseFirstAfterPass : BasicBlock :=
  [{ id := 2, kind := .other 4, operands := [i32 20, .other 0] },
   { id := 3, kind := .other 2, operands := [.basicBlock 1] }]

/-- The second block of `crossUseExample` after the pass. -/
def crossUseSecondAfterPass : BasicBlock :=
  [{ id := 5, kind := .other 5, operands := [i32 5, i32 20] },
   { id := 6, kind := .other 1, operands := [] }]

/-! ## Theorems -/

open ConstantInt

theorem pow_pos_cast (w : Nat) : (0 : Int) < ((2 ^ w : Nat) : Int) := by
  have : 0 < 2 ^ w := Nat.pos_pow_of_pos w (by decide)
  exact_mod_cast this

theorem pow_succ_cast (w : Nat) (hw : 1 ≤ w) :
    ((2 ^ w : Nat) : Int) = 2 * ((2 ^ (w - 1) : Nat) : Int) := by
  obtain ⟨k, rfl⟩ : ∃ k, w = k + 1 := ⟨w - 1, by omega⟩
  simp [pow_succ]; ring

theorem signedValue_getSigned (w : Nat) (x : Int) :
    (ConstantInt.getSigned w x).signedValue = truncToWidth w x := by
  have hpos := pow_pos_cast w
  have hnn : 0 ≤ x % ((2 ^ w : Nat) : Int) := Int.emod_nonneg _ (ne_of_gt hpos)
  unfold ConstantInt.signedValue ConstantInt.getSigned truncToWidth
  simp only
  have hc : (((x % ((2 ^ w : Nat) : Int)).toNat : Nat) : Int) = x % ((2 ^ w : Nat) : Int) :=
    Int.toNat_of_nonneg hnn
  by_cases h : x % ((2 ^ w : Nat) : Int) < ((2 ^ (w - 1) : Nat) : Int)
  · have h2 : (x % ((2 ^ w : Nat) : Int)).toNat < 2 ^ (w - 1) := by
      have : (((x % ((2 ^ w : Nat) : Int)).toNat : Nat) : Int) < ((2 ^ (w - 1) : Nat) : Int) := by
        rw [hc]; exact h
      exact_mod_cast this
    rw [if_pos h2, if_pos h, hc]
  · have h2 : ¬ (x % ((2 ^ w : Nat) : Int)).toNat < 2 ^ (w - 1) := by
      intro h3
      apply h
      have : (((x % ((2 ^ w : Nat) : Int)).toNat : Nat) : Int) < ((2 ^ (w - 1) : Nat) : Int) := by
        exact_mod_cast h3
      rwa [hc] at this
    rw [if_neg h2, if_neg h, hc]

theorem bits_getSigned_lt (w : Nat) (x : Int) : (ConstantInt.getSigned w x).bits < 2 ^ w := by
  have hpos := pow_pos_cast w
  have hnn : 0 ≤ x % ((2 ^ w : Nat) : Int) := Int.emod_nonneg _ (ne_of_gt hpos)
  have hlt : x % ((2 ^ w : Nat) : Int) < ((2 ^ w : Nat) : Int) := Int.emod_lt_of_pos _ hpos
  unfold ConstantInt.getSigned
  simp only
  have : (((x % ((2 ^ w : Nat) : Int)).toNat : Nat) : Int) < ((2 ^ w : Nat) : Int) := by
    rw [Int.toNat_of_nonneg hnn]; exact hlt
  exact_mod_cast this

theorem truncToWidth_of_representable (w : Nat) (hw : 1 ≤ w) (a : Int) (ha : representable w a) :
    truncToWidth w a = a := by
  have h2 := pow_succ_cast w hw
  have hpos := pow_pos_cast (w - 1)
  unfold representable at ha
  unfold truncToWidth
  rw [h2]
  generalize ((2 ^ (w - 1) : Nat) : Int) = h at *
  by_cases hs : 0 ≤ a
  · have : a % (2 * h) = a := Int.emod_eq_of_lt hs (by omega)
    rw [this, if_pos ha.2]
  · have h3 : a % (2 * h) = a + 2 * h := by
      rw [← Int.add_emod_self]
      exact Int.emod_eq_of_lt (by omega) (by omega)
    rw [h3, if_neg (by omega)]
    omega

theorem emod_wrap64 (w : Nat) (hw : w ≤ 64) (x : Int) :
    wrap64 x % ((2 ^ w : Nat) : Int) = x % ((2 ^ w : Nat) : Int) := by
  have hd : (((2 ^ w : Nat) : Int)) ∣ two64 := by
    unfold two64
    have : (2 ^ w : Nat) ∣ 2 ^ 64 := Nat.pow_dvd_pow 2 hw
    exact_mod_cast this
  unfold wrap64
  rw [Int.sub_emod, Int.emod_emod_of_dvd _ hd, ← Int.sub_emod]
  simp

theorem truncToWidth_wrap64 (w : Nat) (hw : w ≤ 64) (x : Int) :
    truncToWidth w (wrap64 x) = truncToWidth w x := by
  unfold truncToWidth
  rw [emod_wrap64 w hw x]

theorem wrap64_of_fits (x : Int) (h : fitsInt64 x) : wrap64 x = x := by
  unfold fitsInt64 two63 at h; unfold wrap64 two63 two64; omega

theorem representable_fits (w : Nat) (hw : w ≤ 64) (a : Int) (ha : representable w a) :
    fitsInt64 a := by
  unfold representable at ha
  have : (2 ^ (w - 1) : Nat) ≤ 2 ^ 63 := Nat.pow_le_pow_right (by decide) (by omega)
  have h2 : ((2 ^ (w - 1) : Nat) : Int) ≤ ((2 ^ 63 : Nat) : Int) := by exact_mod_cast this
  unfold fitsInt64 two63
  omega

theorem getSExtValue_getSigned (w : Nat) (hw : 1 ≤ w) (a : Int) (ha : representable w a)
    (h64 : w ≤ 64 ∨ fitsInt64 a) :
    (ConstantInt.getSigned w a).getSExtValue = some a := by
  have hv : (ConstantInt.getSigned w a).signedValue = a := by
    rw [signedValue_getSigned, truncToWidth_of_representable w hw a ha]
  unfold ConstantInt.getSExtValue
  rw [hv]
  have : (ConstantInt.getSigned w a).width = w := rfl
  rw [this, if_pos h64]

theorem foldBinOp_of_value (F : Function) (it : Iterator) (I : Instruction) (opcode : BinaryOps)
    (lhs rhs value : ConstantInt) (hd : deref F it = some I)
    (hk : I.kind = .binaryOperator opcode)
    (hops : I.operands = [.constantInt lhs, .constantInt rhs])
    (hv : foldBinOpValue opcode lhs rhs = some (some value)) :
    foldBinOp F it = some (true, ReplaceInstWithValue F it (.constantInt value)) := by
  unfold foldBinOp
  simp [hd, hk, Instruction.getOperand, hops, hv]

theorem foldBinOp_of_abort (F : Function) (it : Iterator) (I : Instruction) (opcode : BinaryOps)
    (lhs rhs : ConstantInt) (hd : deref F it = some I)
    (hk : I.kind = .binaryOperator opcode)
    (hops : I.operands = [.constantInt lhs, .constantInt rhs])
    (hv : foldBinOpValue opcode lhs rhs = none) :
    foldBinOp F it = none := by
  unfold foldBinOp
  simp [hd, hk, Instruction.getOperand, hops, hv]

/-- The constant built from a 64-bit intermediate `wrap64 x` has the claimed width and value. -/
theorem getSigned_wrap64_spec (w : Nat) (x : Int) (h64 : w ≤ 64 ∨ fitsInt64 x) :
    (getSigned w (wrap64 x)).width = w ∧
    (getSigned w (wrap64 x)).bits < 2 ^ (getSigned w (wrap64 x)).width ∧
    (getSigned w (wrap64 x)).signedValue = truncToWidth w x := by
  refine ⟨rfl, bits_getSigned_lt w _, ?_⟩
  rw [signedValue_getSigned]
  rcases h64 with h | h
  · exact truncToWidth_wrap64 w h x
  · rw [wrap64_of_fits x h]

/-- C1 (as amended). For every bit width `w` from 1 to 64 (and for a wider `w` when `a`, `b`
and the exact result all fit a signed 64-bit integer) and all `a`, `b` representable in `w`
bits, `foldBinOp` on `Add`, `Sub` or `Mul` of the constants `a` and `b` replaces the
instruction by a constant of the bit width of the left operand whose value is the exact
`a + b`, `a - b`, `a * b` reduced modulo `2 ^ w` and read as a signed `w`-bit integer. -/
theorem foldBinOp_arith_truncates (w : Nat) (hw : 1 ≤ w) (a b : Int)
    (ha : representable w a) (hb : representable w b)
    (F : Function) (it : Iterator) (I : Instruction) (hd : deref F it = some I)
    (hops : I.operands = [.constantInt (getSigned w a), .constantInt (getSigned w b)]) :
    (I.kind = .binaryOperator .Add →
      (w ≤ 64 ∨ (fitsInt64 a ∧ fitsInt64 b ∧ fitsInt64 (a + b))) →
      ∃ c, foldBinOp F it = some (true, ReplaceInstWithValue F it (.constantInt c)) ∧
        c.width = (getSigned w a).width ∧ c.bits < 2 ^ c.width ∧
        c.signedValue = truncToWidth w (a + b)) ∧
    (I.kind = .binaryOperator .Sub →
      (w ≤ 64 ∨ (fitsInt64 a ∧ fitsInt64 b ∧ fitsInt64 (a - b))) →
      ∃ c, foldBinOp F it = some (true, ReplaceInstWithValue F it (.constantInt c)) ∧
        c.width = (getSigned w a).width ∧ c.bits < 2 ^ c.width ∧
        c.signedValue = truncToWidth w (a - b)) ∧
    (I.kind = .binaryOperator .Mul →
      (w ≤ 64 ∨ (fitsInt64 a ∧ fitsInt64 b ∧ fitsInt64 (a * b))) →
      ∃ c, foldBinOp F it = some (true, ReplaceInstWithValue F it (.constantInt c)) ∧
        c.width = (getSigned w a).width ∧ c.bits < 2 ^ c.width ∧
        c.signedValue = truncToWidth w (a * b)) := by
  have key : ∀ x : Int, (w ≤ 64 ∨ (fitsInt64 a ∧ fitsInt64 b ∧ fitsInt64 x)) →
      (getSigned w a).getSExtValue = some a ∧ (getSigned w b).getSExtValue = some b ∧
      (w ≤ 64 ∨ fitsInt64 x) := by
    intro x h
    rcases h with h | ⟨h1, h2, h3⟩
    · exact ⟨getSExtValue_getSigned w hw a ha (Or.inl h),
        getSExtValue_getSigned w hw b hb (Or.inl h), Or.inl h⟩
    · exact ⟨getSExtValue_getSigned w hw a ha (Or.inr h1),
        getSExtValue_getSigned w hw b hb (Or.inr h2), Or.inr h3⟩
  refine ⟨?_, ?_, ?_⟩
  · intro hk h
    obtain ⟨h1, h2, h3⟩ := key _ h
    refine ⟨getSigned w (wrap64 (a + b)), ?_, getSigned_wrap64_spec w _ h3⟩
    apply foldBinOp_of_value F it I .Add _ _ _ hd hk hops
    simp [foldBinOpValue, h1, h2]
    rfl
  · intro hk h
    obtain ⟨h1, h2, h3⟩ := key _ h
    refine ⟨getSigned w (wrap64 (a - b)), ?_, getSigned_wrap64_spec w _ h3⟩
    apply foldBinOp_of_value F it I .Sub _ _ _ hd hk hops
    simp [foldBinOpValue, h1, h2]
    rfl
  · intro hk h
    obtain ⟨h1, h2, h3⟩ := key _ h
    refine ⟨getSigned w (wrap64 (a * b)), ?_, getSigned_wrap64_spec w _ h3⟩
    apply foldBinOp_of_value F it I .Mul _ _ _ hd hk hops
    simp [foldBinOpValue, h1, h2]
    rfl

theorem foldComp_of_value (F : Function) (it : Iterator) (I : Instruction) (predicate : Predicate)
    (lhs rhs : ConstantInt) (r : Bool) (hd : deref F it = some I)
    (hk : I.kind = .iCmpInst predicate)
    (hops : I.operands = [.constantInt lhs, .constantInt rhs])
    (hv : foldCompValue predicate lhs rhs = some (some r)) :
    foldComp F it = some (true, ReplaceInstWithValue F it
      (.constantInt (if r then ConstantInt.getTrue else ConstantInt.getFalse))) := by
  unfold foldComp
  simp [hd, hk, Instruction.getOperand, hops, hv]

/-- C2 (as amended). For every bit width `w` from 1 to 64 (and for a wider `w` when `a` and
`b` fit a signed 64-bit integer), all `a`, `b` representable in `w` bits with `b ≠ 0`,
the pair `a = -2 ^ 63`, `b = -1` excepted, `foldBinOp` on `SDiv` of the constants `a` and
`b` replaces the instruction by a constant of the bit width of the left operand whose value
is the quotient rounded toward zero (its magnitude is `|a| / |b|` rounded down) truncated to
`w` bits; for `a = -2 ^ (w - 1)`, `b = -1` this is the `w`-bit truncation of `2 ^ (w - 1)`. -/
theorem foldBinOp_sdiv_truncates (w : Nat) (hw : 1 ≤ w) (a b : Int)
    (ha : representable w a) (hb : representable w b) (hb0 : b ≠ 0)
    (h64 : w ≤ 64 ∨ (fitsInt64 a ∧ fitsInt64 b)) (hov : ¬ (a = -two63 ∧ b = -1))
    (F : Function) (it : Iterator) (I : Instruction) (hd : deref F it = some I)
    (hk : I.kind = .binaryOperator .SDiv)
    (hops : I.operands = [.constantInt (getSigned w a), .constantInt (getSigned w b)]) :
    ∃ c, foldBinOp F it = some (true, ReplaceInstWithValue F it (.constantInt c)) ∧
      c.width = (getSigned w a).width ∧ c.bits < 2 ^ c.width ∧
      c.signedValue = truncToWidth w (Int.tdiv a b) ∧
      (Int.tdiv a b).natAbs = a.natAbs / b.natAbs ∧
      (a = -((2 ^ (w - 1) : Nat) : Int) → b = -1 →
        c.signedValue = truncToWidth w ((2 ^ (w - 1) : Nat) : Int)) := by
  have h1 : (getSigned w a).getSExtValue = some a :=
    getSExtValue_getSigned w hw a ha (h64.imp id (fun h => h.1))
  have h2 : (getSigned w b).getSExtValue = some b :=
    getSExtValue_getSigned w hw b hb (h64.imp id (fun h => h.2))
  have h3 : sdiv64 a b = some (Int.tdiv a b) := by
    unfold sdiv64
    rw [if_neg hb0, if_neg hov]
  refine ⟨getSigned w (Int.tdiv a b), ?_, rfl, bits_getSigned_lt w _, signedValue_getSigned w _,
    Int.natAbs_tdiv a b, ?_⟩
  · apply foldBinOp_of_value F it I .SDiv _ _ _ hd hk hops
    simp [foldBinOpValue, h1, h2, h3]
    rfl
  · intro ea eb
    rw [signedValue_getSigned, ea, eb, Int.tdiv_neg, Int.tdiv_one, neg_neg]

/-- C3 (as amended). For all signed integers `a`, `b` held by constants from which
`getSExtValue` can read them (the width is at most 64, or the value fits a signed 64-bit
integer), `foldComp` on the comparison of the constants `a` and `b` with predicate EQ, NE,
SGT, SGE, SLT, SLE replaces the instruction by the 1-bit constant that is true exactly
when `a = b`, `a ≠ b`, `a > b`, `a ≥ b`, `a < b`, `a ≤ b` respectively. -/
theorem foldComp_signed_compare (wa wb : Nat) (hwa : 1 ≤ wa) (hwb : 1 ≤ wb) (a b : Int)
    (ha : representable wa a) (hb : representable wb b)
    (ha64 : wa ≤ 64 ∨ fitsInt64 a) (hb64 : wb ≤ 64 ∨ fitsInt64 b)
    (F : Function) (it : Iterator) (I : Instruction) (hd : deref F it = some I)
    (hops : I.operands = [.constantInt (getSigned wa a), .constantInt (getSigned wb b)]) :
    (ConstantInt.getTrue.width = 1 ∧ ConstantInt.getTrue.bits = 1 ∧
      ConstantInt.getFalse.width = 1 ∧ ConstantInt.getFalse.bits = 0) ∧
    (I.kind = .iCmpInst .ICMP_EQ → foldComp F it = some (true, ReplaceInstWithValue F it
      (.constantInt (if a = b then ConstantInt.getTrue else ConstantInt.getFalse)))) ∧
    (I.kind = .iCmpInst .ICMP_NE → foldComp F it = some (true, ReplaceInstWithValue F it
      (.constantInt (if a ≠ b then ConstantInt.getTrue else ConstantInt.getFalse)))) ∧
    (I.kind = .iCmpInst .ICMP_SGT → foldComp F it = some (true, ReplaceInstWithValue F it
      (.constantInt (if a > b then ConstantInt.getTrue else ConstantInt.getFalse)))) ∧
    (I.kind = .iCmpInst .ICMP_SGE → foldComp F it = some (true, ReplaceInstWithValue F it
      (.constantInt (if a ≥ b then ConstantInt.getTrue else ConstantInt.getFalse)))) ∧
    (I.kind = .iCmpInst .ICMP_SLT → foldComp F it = some (true, ReplaceInstWithValue F it
      (.constantInt (if a < b then ConstantInt.getTrue else ConstantInt.getFalse)))) ∧
    (I.kind = .iCmpInst .ICMP_SLE → foldComp F it = some (true, ReplaceInstWithValue F it
      (.constantInt (if a ≤ b then ConstantInt.getTrue else ConstantInt.getFalse)))) := by
  have h1 : (getSigned wa a).getSExtValue = some a := getSExtValue_getSigned wa hwa a ha ha64
  have h2 : (getSigned wb b).getSExtValue = some b := getSExtValue_getSigned wb hwb b hb hb64
  refine ⟨by decide, ?_, ?_, ?_, ?_, ?_, ?_⟩
  · intro hk
    have := foldComp_of_value F it I .ICMP_EQ _ _ (decide (a = b)) hd hk hops
      (by simp [foldCompValue, h1, h2])
    simpa using this
  · intro hk
    have := foldComp_of_value F it I .ICMP_NE _ _ (decide (a ≠ b)) hd hk hops
      (by simp [foldCompValue, h1, h2])
    simpa using this
  · intro hk
    have := foldComp_of_value F it I .ICMP_SGT _ _ (decide (a > b)) hd hk hops
      (by simp [foldCompValue, h1, h2])
    simpa using this
  · intro hk
    have := foldComp_of_value F it I .ICMP_SGE _ _ (decide (a ≥ b)) hd hk hops
      (by simp [foldCompValue, h1, h2])
    simpa using this
  · intro hk
    have := foldComp_of_value F it I .ICMP_SLT _ _ (decide (a < b)) hd hk hops
      (by simp [foldCompValue, h1, h2])
    simpa using this
  · intro hk
    have := foldComp_of_value F it I .ICMP_SLE _ _ (decide (a ≤ b)) hd hk hops
      (by simp [foldCompValue, h1, h2])
    simpa using this

theorem map_eraseIdx_comm {α β : Type} (f : α → β) (l : List α) (p : Nat) :
    (l.map f).eraseIdx p = (l.eraseIdx p).map f := by
  induction l generalizing p with
  | nil => simp
  | cons x xs ih =>
    cases p with
    | zero => simp
    | succ p => simp [List.eraseIdx_cons_succ, ih]

theorem deref_eq_some {F : Function} {it : Iterator} {I : Instruction}
    (hd : deref F it = some I) :
    ∃ B, F[it.block]? = some B ∧ B[it.pos]? = some I := by
  unfold deref at hd
  cases hB : F[it.block]? with
  | none => simp [hB] at hd
  | some B => exact ⟨B, rfl, by simpa [hB] using hd⟩

theorem deref_getBlock (F : Function) (it : Iterator) :
    deref F it = (getBlock F it.block)[it.pos]? := by
  unfold deref getBlock
  cases F[it.block]? <;> simp

theorem blockSize_eq (F : Function) (b : Nat) : blockSize F b = (getBlock F b).length := by
  unfold blockSize getBlock
  cases F[b]? <;> simp

theorem getBlock_replaceAllUsesWith (id : Nat) (v : Value) (F : Function) (k : Nat) :
    getBlock (replaceAllUsesWith id v F) k
      = (getBlock F k).map (fun J => J.replaceUsesOfWith id v) := by
  unfold getBlock replaceAllUsesWith
  rw [List.getElem?_map]
  cases F[k]? <;> simp

theorem length_ReplaceInstWithValue (F : Function) (it : Iterator) (v : Value) :
    (ReplaceInstWithValue F it v).length = F.length := by
  unfold ReplaceInstWithValue
  cases deref F it with
  | none => rfl
  | some I =>
    simp only
    unfold eraseInst
    cases (replaceAllUsesWith I.id v F)[it.block]? with
    | none => simp [replaceAllUsesWith]
    | some B => simp [replaceAllUsesWith]

theorem getBlock_ReplaceInstWithValue (F : Function) (it : Iterator) (v : Value) (I : Instruction)
    (hd : deref F it = some I) (k : Nat) :
    getBlock (ReplaceInstWithValue F it v) k
      = if k = it.block then
          ((getBlock F k).eraseIdx it.pos).map (fun J => J.replaceUsesOfWith I.id v)
        else (getBlock F k).map (fun J => J.replaceUsesOfWith I.id v) := by
  obtain ⟨B, hB, _⟩ := deref_eq_some hd
  have hlt : it.block < F.length := by
    by_contra hc
    rw [List.getElem?_eq_none (by omega)] at hB
    cases hB
  unfold ReplaceInstWithValue
  rw [hd]
  simp only
  unfold eraseInst
  have hB2 : (replaceAllUsesWith I.id v F)[it.block]?
      = some (B.map (fun J => J.replaceUsesOfWith I.id v)) := by
    unfold replaceAllUsesWith
    rw [List.getElem?_map, hB]; rfl
  rw [hB2]
  simp only
  by_cases hk : k = it.block
  · subst hk
    rw [if_pos rfl]
    unfold getBlock
    rw [List.getElem?_set, if_pos rfl, if_pos (by simpa [replaceAllUsesWith] using hlt), hB]
    simp [map_eraseIdx_comm]
  · rw [if_neg hk]
    have := getBlock_replaceAllUsesWith I.id v F k
    unfold getBlock at this ⊢
    rw [List.getElem?_set_ne (fun h => hk h.symm)]
    exact this

theorem foldBinOp_true {F : Function} {it : Iterator} {F1 : Function}
    (h : foldBinOp F it = some (true, F1)) :
    ∃ I c, deref F it = some I ∧ isaBinaryOperator I = true ∧
      F1 = ReplaceInstWithValue F it (.constantInt c) := by
  unfold foldBinOp at h
  split at h
  · cases h
  · rename_i I hd
    split at h
    · rename_i opcode hk
      split at h
      · split at h
        · cases h
        · cases h
        · rename_i value hv
          refine ⟨I, value, hd, by simp [isaBinaryOperator, hk], ?_⟩
          simp only [Option.some.injEq, Prod.mk.injEq, true_and] at h
          exact h.symm
      · cases h
    · cases h

theorem foldBinOp_false {F : Function} {it : Iterator} {F1 : Function}
    (h : foldBinOp F it = some (false, F1)) : F1 = F := by
  unfold foldBinOp at h
  split at h
  · cases h
  · split at h
    · split at h
      · split at h
        · cases h
        · simp only [Option.some.injEq, Prod.mk.injEq, true_and] at h
          exact h.symm
        · cases h
      · cases h
    · cases h

theorem foldComp_true {F : Function} {it : Iterator} {F1 : Function}
    (h : foldComp F it = some (true, F1)) :
    ∃ I c, deref F it = some I ∧ isaICmpInst I = true ∧
      F1 = ReplaceInstWithValue F it (.constantInt c) := by
  unfold foldComp at h
  split at h
  · cases h
  · rename_i I hd
    split at h
    · rename_i predicate hk
      split at h
      · split at h
        · cases h
        · cases h
        · rename_i bool_value hv
          refine ⟨I, (if bool_value = true then ConstantInt.getTrue else ConstantInt.getFalse), hd,
            by simp [isaICmpInst, hk], ?_⟩
          simp only [Option.some.injEq, Prod.mk.injEq, true_and] at h
          exact h.symm
      · cases h
    · cases h

theorem foldComp_false {F : Function} {it : Iterator} {F1 : Function}
    (h : foldComp F it = some (false, F1)) : F1 = F := by
  unfold foldComp at h
  split at h
  · cases h
  · split at h
    · split at h
      · split at h
        · cases h
        · simp only [Option.some.injEq, Prod.mk.injEq, true_and] at h
          exact h.symm
        · cases h
      · cases h
    · cases h

theorem loopBody_next {F : Function} {it : Iterator} {F1 : Function}
    (h : loopBody F it = .next F1) : F1 = F := by
  unfold loopBody at h
  split at h
  · cases h
  · split at h
    · cases h
    · cases h
    · rename_i hf
      cases h
      exact foldBinOp_false hf
  · split at h
    · cases h
    · split at h
      · cases h
      · cases h
      · rename_i hf
        cases h
        exact foldComp_false hf
    · cases h; rfl

theorem loopBody_restart {F : Function} {it : Iterator} {F1 : Function}
    (h : loopBody F it = .restart F1) :
    ∃ I c, deref F it = some I ∧ (isaBinaryOperator I = true ∨ isaICmpInst I = true) ∧
      F1 = ReplaceInstWithValue F it (.constantInt c) ∧
      (foldBinOp F it = some (true, F1) ∨ foldComp F it = some (true, F1)) := by
  unfold loopBody at h
  split at h
  · cases h
  · split at h
    · cases h
    · rename_i hf
      cases h
      obtain ⟨I, c, h1, h2, h3⟩ := foldBinOp_true hf
      exact ⟨I, c, h1, Or.inl h2, h3, Or.inl hf⟩
    · cases h
  · split at h
    · cases h
    · split at h
      · cases h
      · rename_i hf
        cases h
        obtain ⟨I, c, h1, h2, h3⟩ := foldComp_true hf
        exact ⟨I, c, h1, Or.inr h2, h3, Or.inr hf⟩
      · cases h
    · cases h

theorem scanFrom_finished {n : Nat} {F : Function} {it : Iterator} {F1 : Function}
    (h : scanFrom n F it = .finished F1) : F1 = F := by
  induction n generalizing F it with
  | zero => unfold scanFrom at h; cases h; rfl
  | succ n ih =>
    unfold scanFrom at h
    split at h
    · cases h
    · cases h
    · rename_i F2 hb
      have := loopBody_next hb
      subst this
      exact ih h

theorem scanFrom_restart {n : Nat} {F : Function} {it : Iterator} {F1 : Function}
    (h : scanFrom n F it = .restart F1) : FoldStep F it.block F1 := by
  induction n generalizing F it with
  | zero => unfold scanFrom at h; cases h
  | succ n ih =>
    unfold scanFrom at h
    split at h
    · cases h
    · rename_i F2 hb
      cases h
      obtain ⟨I, c, h1, h2, h3, _⟩ := loopBody_restart hb
      exact ⟨it.pos, I, c, h1, h2, h3⟩
    · rename_i F2 hb
      have := loopBody_next hb
      subst this
      have h4 := ih h
      exact h4

theorem scanLoop_folds {fuel : Nat} {F : Function} {b : Nat} {F1 : Function}
    (h : scanLoop fuel F b = .ok F1) : Folds F F1 := by
  induction fuel generalizing F with
  | zero =>
    unfold scanLoop at h
    split at h
    · cases h
    · rename_i F2 hs
      cases h
      rw [scanFrom_finished hs]
      exact Folds.refl _
    · cases h
  | succ fuel ih =>
    unfold scanLoop at h
    split at h
    · cases h
    · rename_i F2 hs
      cases h
      rw [scanFrom_finished hs]
      exact Folds.refl _
    · rename_i F2 hs
      exact Folds.step b (scanFrom_restart hs) (ih h)

theorem Folds_trans {F F1 F2 : Function} (h1 : Folds F F1) (h2 : Folds F1 F2) : Folds F F2 := by
  induction h1 with
  | refl => exact h2
  | step b hs _ ih => exact Folds.step b hs (ih h2)

theorem runOnBlocks_folds {k b : Nat} {F F1 : Function}
    (h : runOnBlocks k b F = .ok F1) : Folds F F1 := by
  induction k generalizing b F with
  | zero => unfold runOnBlocks at h; cases h; exact Folds.refl _
  | succ k ih =>
    unfold runOnBlocks at h
    split at h
    · rename_i F2 hb
      exact Folds_trans (scanLoop_folds hb) (ih h)
    · cases h
    · cases h

theorem runOnFunction_ok {F : Function} {r : Bool} {F1 : Function}
    (h : runOnFunction F = .ok (r, F1)) :
    r = false ∧ runOnBlocks F.length 0 F = .ok F1 := by
  unfold runOnFunction at h
  split at h
  · rename_i F2 hb
    cases h
    exact ⟨rfl, hb⟩
  · cases h
  · cases h

theorem runOnFunction_folds {F : Function} {r : Bool} {F1 : Function}
    (h : runOnFunction F = .ok (r, F1)) : Folds F F1 :=
  runOnBlocks_folds (runOnFunction_ok h).2

theorem mem_function_getBlock {F : Function} {B : BasicBlock} (h : B ∈ F) :
    ∃ k, getBlock F k = B := by
  obtain ⟨k, hk⟩ := List.mem_iff_getElem?.mp h
  exact ⟨k, by simp [getBlock, hk]⟩

theorem not_mem_operands_replaceUsesOfWith (J : Instruction) (id : Nat) (c : ConstantInt) :
    Value.instruction id ∉ (J.replaceUsesOfWith id (.constantInt c)).operands := by
  intro hm
  simp only [Instruction.replaceUsesOfWith, List.mem_map] at hm
  obtain ⟨u, _, hu⟩ := hm
  by_cases h : u = Value.instruction id
  · rw [if_pos h] at hu; cases hu
  · rw [if_neg h] at hu; exact h hu

theorem fold_true_shape {F : Function} {it : Iterator} {F1 : Function}
    (h : foldBinOp F it = some (true, F1) ∨ foldComp F it = some (true, F1)) :
    ∃ I c, deref F it = some I ∧ (isaBinaryOperator I = true ∨ isaICmpInst I = true) ∧
      F1 = ReplaceInstWithValue F it (.constantInt c) := by
  rcases h with h | h
  · obtain ⟨I, c, h1, h2, h3⟩ := foldBinOp_true h
    exact ⟨I, c, h1, Or.inl h2, h3⟩
  · obtain ⟨I, c, h1, h2, h3⟩ := foldComp_true h
    exact ⟨I, c, h1, Or.inr h2, h3⟩

/-- C4. After a successful fold of the instruction `I` under the iterator to a constant `c`:
the function has the same blocks; no operand of any remaining instruction of any block
references `I`; and the instructions of every block are the ones that were there before,
`I` itself excepted, in the same positions, each with the same identity, class and number
of operands, where every operand slot that held the result of `I` now holds `c` and
every other operand slot holds what it held before. -/
theorem fold_rewrites_every_use (F : Function) (it : Iterator) (F1 : Function)
    (h : foldBinOp F it = some (true, F1) ∨ foldComp F it = some (true, F1)) :
    ∃ I c, deref F it = some I ∧ F1.length = F.length ∧
      (∀ B ∈ F1, ∀ J ∈ B, Value.instruction I.id ∉ J.operands) ∧
      (∀ (k p : Nat) (J : Instruction),
        (if k = it.block then (getBlock F k).eraseIdx it.pos else getBlock F k)[p]? = some J →
        ∃ J1 : Instruction, (getBlock F1 k)[p]? = some J1 ∧ J1.id = J.id ∧ J1.kind = J.kind ∧
          J1.operands.length = J.operands.length ∧
          ∀ (s : Nat) (v : Value), J.operands[s]? = some v →
            J1.operands[s]? = some (if v = Value.instruction I.id then .constantInt c else v)) ∧
      (∀ k, (getBlock F1 k).length =
        (if k = it.block then (getBlock F k).eraseIdx it.pos else getBlock F k).length) := by
  obtain ⟨I, c, hd, _, hF1⟩ := fold_true_shape h
  subst hF1
  have hblk : ∀ k, getBlock (ReplaceInstWithValue F it (.constantInt c)) k
      = (if k = it.block then (getBlock F k).eraseIdx it.pos else getBlock F k).map
          (fun J => J.replaceUsesOfWith I.id (.constantInt c)) := by
    intro k
    rw [getBlock_ReplaceInstWithValue F it _ I hd k]
    split <;> rfl
  refine ⟨I, c, hd, length_ReplaceInstWithValue F it _, ?_, ?_, ?_⟩
  · intro B hB J hJ
    obtain ⟨k, hk⟩ := mem_function_getBlock hB
    rw [← hk, hblk k, List.mem_map] at hJ
    obtain ⟨J0, _, rfl⟩ := hJ
    exact not_mem_operands_replaceUsesOfWith J0 I.id c
  · intro k p J hJ
    refine ⟨J.replaceUsesOfWith I.id (.constantInt c), ?_, rfl, rfl, ?_, ?_⟩
    · rw [hblk k, List.getElem?_map, hJ]; rfl
    · simp [Instruction.replaceUsesOfWith]
    · intro s v hv
      simp [Instruction.replaceUsesOfWith, List.getElem?_map, hv]
  · intro k
    rw [hblk k, List.length_map]

theorem loopBody_eq_classify {F : Function} {it : Iterator} {I : Instruction}
    (hd : deref F it = some I) :
    loopBody F it =
      match classify I with
      | none => .abort
      | some none => .next F
      | some (some c) => .restart (ReplaceInstWithValue F it (.constantInt c)) := by
  unfold loopBody canFoldBinOp canFoldComp foldBinOp foldComp classify
  rw [hd]
  cases hk : I.kind with
  | other o => simp [isaBinaryOperator, isaICmpInst, hk]
  | binaryOperator opcode =>
    cases h0 : I.getOperand 0 with
    | none => simp [isaBinaryOperator, isaICmpInst, hk, h0]
    | some v0 =>
      cases v0 with
      | constantInt lhs =>
        cases h1 : I.getOperand 1 with
        | none => simp [isaBinaryOperator, isaICmpInst, hk, h0, h1, isaConstantInt]
        | some v1 =>
          cases v1 with
          | constantInt rhs =>
            simp only [isaBinaryOperator, isaICmpInst, hk, h0, h1, isaConstantInt]
            rcases hv : foldBinOpValue opcode lhs rhs with _ | _ | c <;> simp [hv]
          | _ => simp [isaBinaryOperator, isaICmpInst, hk, h0, h1, isaConstantInt]
      | _ => simp [isaBinaryOperator, isaICmpInst, hk, h0, isaConstantInt]
  | iCmpInst predicate =>
    cases h0 : I.getOperand 0 with
    | none => simp [isaBinaryOperator, isaICmpInst, hk, h0]
    | some v0 =>
      cases v0 with
      | constantInt lhs =>
        cases h1 : I.getOperand 1 with
        | none => simp [isaBinaryOperator, isaICmpInst, hk, h0, h1, isaConstantInt]
        | some v1 =>
          cases v1 with
          | constantInt rhs =>
            simp only [isaBinaryOperator, isaICmpInst, hk, h0, h1, isaConstantInt]
            rcases hv : foldCompValue predicate lhs rhs with _ | _ | c <;> simp [hv]
          | _ => simp [isaBinaryOperator, isaICmpInst, hk, h0, h1, isaConstantInt]
      | _ => simp [isaBinaryOperator, isaICmpInst, hk, h0, isaConstantInt]

theorem foldBinOpValue_supported {opcode : BinaryOps} (hs : supportedOpcode opcode = true)
    (lhs rhs : ConstantInt) : foldBinOpValue opcode lhs rhs ≠ some none := by
  cases opcode <;> simp [supportedOpcode] at hs <;>
    (unfold foldBinOpValue; simp only; repeat' split) <;> simp

theorem foldCompValue_supported {predicate : Predicate}
    (hs : supportedPredicate predicate = true)
    (lhs rhs : ConstantInt) : foldCompValue predicate lhs rhs ≠ some none := by
  cases predicate <;> simp [supportedPredicate] at hs <;>
    (unfold foldCompValue; simp only; repeat' split) <;> simp

theorem isFoldable_false_of_classify {I : Instruction} (h : classify I = some none) :
    isFoldable I = false := by
  unfold classify at h
  unfold isFoldable
  split at h <;> simp_all
  · rename_i opcode lhs rhs hk h0 h1
    cases hs : supportedOpcode opcode with
    | false => rfl
    | true => exact absurd h (foldBinOpValue_supported hs lhs rhs)
  · rename_i predicate lhs rhs hk h0 h1
    cases hs : supportedPredicate predicate with
    | false => rfl
    | true =>
      exfalso
      have := foldCompValue_supported hs lhs rhs
      split at h <;> simp_all

theorem classify_of_loopBody_next {F : Function} {it : Iterator} {I : Instruction} {F1 : Function}
    (hd : deref F it = some I) (h : loopBody F it = .next F1) : classify I = some none := by
  rw [loopBody_eq_classify hd] at h
  rcases hc : classify I with _ | _ | c
  · rw [hc] at h; cases h
  · rfl
  · rw [hc] at h; cases h

theorem scanFrom_finished_inert {n : Nat} {F : Function} {b pos : Nat} {F1 : Function}
    (h : scanFrom n F { block := b, pos := pos } = .finished F1) :
    ∀ p I, pos ≤ p → p < pos + n → deref F { block := b, pos := p } = some I →
      classify I = some none := by
  induction n generalizing F pos with
  | zero => intro p I h1 h2; omega
  | succ n ih =>
    unfold scanFrom at h
    split at h
    · cases h
    · cases h
    · rename_i F2 hb
      have e := loopBody_next hb
      subst e
      dsimp only at h
      intro p I h1 h2 hd
      by_cases hp : p = pos
      · subst hp
        exact classify_of_loopBody_next hd hb
      · exact ih h p I (by omega) (by omega) hd

theorem scanFrom_of_inert {n : Nat} {F : Function} {b pos : Nat}
    (h : ∀ p, pos ≤ p → p < pos + n →
      ∃ I, deref F { block := b, pos := p } = some I ∧ classify I = some none) :
    scanFrom n F { block := b, pos := pos } = .finished F := by
  induction n generalizing pos with
  | zero => rfl
  | succ n ih =>
    obtain ⟨I, hd, hc⟩ := h pos (le_refl _) (by omega)
    unfold scanFrom
    rw [loopBody_eq_classify hd, hc]
    simp only
    apply ih
    intro p h1 h2
    exact h p (by omega) (by omega)

theorem scan_block_finished_iff (F : Function) (b : Nat) :
    scanFrom (blockSize F b) F { block := b, pos := 0 } = .finished F ↔
      ∀ I ∈ getBlock F b, classify I = some none := by
  constructor
  · intro h I hI
    obtain ⟨p, hp⟩ := List.mem_iff_getElem?.mp hI
    have hlt : p < (getBlock F b).length := by
      by_contra hc
      rw [List.getElem?_eq_none (by omega)] at hp
      cases hp
    apply scanFrom_finished_inert h p I (Nat.zero_le _)
    · rw [blockSize_eq]; omega
    · rw [deref_getBlock]; exact hp
  · intro h
    apply scanFrom_of_inert
    intro p _ h2
    rw [blockSize_eq] at h2
    have hlt : p < (getBlock F b).length := by omega
    refine ⟨(getBlock F b)[p], ?_, h _ (List.getElem_mem _)⟩
    rw [deref_getBlock]
    exact List.getElem?_eq_getElem hlt

theorem scanLoop_ok_finished {fuel : Nat} {F : Function} {b : Nat} {F1 : Function}
    (h : scanLoop fuel F b = .ok F1) :
    scanFrom (blockSize F1 b) F1 { block := b, pos := 0 } = .finished F1 := by
  induction fuel generalizing F with
  | zero =>
    unfold scanLoop at h
    split at h
    · cases h
    · rename_i F2 hs
      cases h
      have e := scanFrom_finished hs
      subst e
      exact hs
    · cases h
  | succ fuel ih =>
    unfold scanLoop at h
    split at h
    · cases h
    · rename_i F2 hs
      cases h
      have e := scanFrom_finished hs
      subst e
      exact hs
    · exact ih h

theorem scanLoop_ok_inert {fuel : Nat} {F : Function} {b : Nat} {F1 : Function}
    (h : scanLoop fuel F b = .ok F1) :
    ∀ I ∈ getBlock F1 b, classify I = some none :=
  (scan_block_finished_iff F1 b).mp (scanLoop_ok_finished h)

theorem scanLoop_of_inert (fuel : Nat) {F : Function} {b : Nat}
    (h : ∀ I ∈ getBlock F b, classify I = some none) :
    scanLoop fuel F b = .ok F := by
  have hs := (scan_block_finished_iff F b).mpr h
  cases fuel <;> (unfold scanLoop; rw [hs])

theorem ReplaceInstWithValue_lengths {F : Function} {it : Iterator} {I : Instruction}
    (hd : deref F it = some I) (v : Value) :
    (getBlock (ReplaceInstWithValue F it v) it.block).length + 1 = (getBlock F it.block).length ∧
    ∀ k, k ≠ it.block →
      (getBlock (ReplaceInstWithValue F it v) k).length = (getBlock F k).length := by
  have hlt : it.pos < (getBlock F it.block).length := by
    rw [deref_getBlock] at hd
    by_contra hc
    rw [List.getElem?_eq_none (by omega)] at hd
    cases hd
  constructor
  · rw [getBlock_ReplaceInstWithValue F it v I hd, if_pos rfl, List.length_map,
      List.length_eraseIdx, if_pos hlt]
    omega
  · intro k hk
    rw [getBlock_ReplaceInstWithValue F it v I hd, if_neg hk, List.length_map]

theorem FoldStep_lengths {F : Function} {b : Nat} {F1 : Function} (h : FoldStep F b F1) :
    F1.length = F.length ∧ (getBlock F1 b).length + 1 = (getBlock F b).length ∧
    ∀ k, k ≠ b → (getBlock F1 k).length = (getBlock F k).length := by
  obtain ⟨pos, I, c, hd, _, rfl⟩ := h
  have := ReplaceInstWithValue_lengths hd (.constantInt c)
  exact ⟨length_ReplaceInstWithValue _ _ _, this.1, this.2⟩

theorem scanLoop_ne_outOfFuel {fuel : Nat} {F : Function} {b : Nat}
    (h : (getBlock F b).length ≤ fuel) : scanLoop fuel F b ≠ .outOfFuel := by
  induction fuel generalizing F with
  | zero =>
    unfold scanLoop
    split
    · simp
    · simp
    · rename_i F2 hs
      have := (FoldStep_lengths (scanFrom_restart hs)).2.1
      dsimp only at this
      omega
  | succ fuel ih =>
    unfold scanLoop
    split
    · simp
    · simp
    · rename_i F2 hs
      have := (FoldStep_lengths (scanFrom_restart hs)).2.1
      dsimp only at this
      exact ih (by omega)

theorem scanLoop_fuel_irrelevant {fuel1 fuel2 : Nat} {F : Function} {b : Nat}
    (h1 : (getBlock F b).length ≤ fuel1) (h2 : (getBlock F b).length ≤ fuel2) :
    scanLoop fuel1 F b = scanLoop fuel2 F b := by
  induction fuel1 generalizing fuel2 F with
  | zero =>
    have h0 : (getBlock F b).length = 0 := by omega
    cases fuel2 with
    | zero => rfl
    | succ fuel2 =>
      unfold scanLoop
      split
      · rfl
      · rfl
      · rename_i F2 hs
        have := (FoldStep_lengths (scanFrom_restart hs)).2.1
        dsimp only at this
        omega
  | succ fuel1 ih =>
    cases fuel2 with
    | zero =>
      unfold scanLoop
      split
      · rfl
      · rfl
      · rename_i F2 hs
        have := (FoldStep_lengths (scanFrom_restart hs)).2.1
        dsimp only at this
        omega
    | succ fuel2 =>
      unfold scanLoop
      split
      · rfl
      · rfl
      · rename_i F2 hs
        have := (FoldStep_lengths (scanFrom_restart hs)).2.1
        dsimp only at this
        exact ih (by omega) (by omega)

theorem runOnBlock_ne_outOfFuel (F : Function) (b : Nat) : runOnBlock F b ≠ .outOfFuel := by
  unfold runOnBlock
  exact scanLoop_ne_outOfFuel (by rw [blockSize_eq])

theorem runOnBlocks_ne_outOfFuel (k b : Nat) (F : Function) :
    runOnBlocks k b F ≠ .outOfFuel := by
  induction k generalizing b F with
  | zero => unfold runOnBlocks; simp
  | succ k ih =>
    unfold runOnBlocks
    split
    · exact ih _ _
    · simp
    · rename_i hb
      exact absurd hb (runOnBlock_ne_outOfFuel F b)

theorem runOnFunction_ne_outOfFuel (F : Function) : runOnFunction F ≠ .outOfFuel := by
  unfold runOnFunction
  split
  · simp
  · simp
  · rename_i hb
    exact absurd hb (runOnBlocks_ne_outOfFuel _ _ _)

/-- C7. Every successful fold removes exactly one instruction from the block under the
iterator and leaves the instruction count of every other block (and the number of blocks)
unchanged; hence the instruction loop on a block of `n` instructions never uses up a budget
of `n` restarts, gives the same result with any larger budget, and `runOnFunction` ends on
every function (it returns or aborts, it never runs out of restarts). -/
theorem runOnFunction_terminates :
    (∀ (F : Function) (it : Iterator) (F1 : Function),
      (foldBinOp F it = some (true, F1) ∨ foldComp F it = some (true, F1)) →
      F1.length = F.length ∧
      (getBlock F1 it.block).length + 1 = (getBlock F it.block).length ∧
      ∀ k, k ≠ it.block → (getBlock F1 k).length = (getBlock F k).length) ∧
    (∀ (F : Function) (b fuel : Nat), (getBlock F b).length ≤ fuel →
      scanLoop fuel F b ≠ .outOfFuel ∧ scanLoop fuel F b = runOnBlock F b) ∧
    (∀ F : Function, runOnFunction F ≠ .outOfFuel) := by
  refine ⟨?_, ?_, runOnFunction_ne_outOfFuel⟩
  · intro F it F1 h
    obtain ⟨I, c, hd, hk, rfl⟩ := fold_true_shape h
    have := ReplaceInstWithValue_lengths hd (.constantInt c)
    exact ⟨length_ReplaceInstWithValue _ _ _, this.1, this.2⟩
  · intro F b fuel h
    refine ⟨scanLoop_ne_outOfFuel h, ?_⟩
    unfold runOnBlock
    exact scanLoop_fuel_irrelevant h (by rw [blockSize_eq])

theorem slotRel_mono {D D1 : List Nat} (hD : D ⊆ D1) {v v1 : Value} (h : slotRel D v v1) :
    slotRel D1 v v1 := by
  rcases h with h | ⟨j, c, hj, h1, h2⟩
  · exact Or.inl h
  · exact Or.inr ⟨j, c, hD hj, h1, h2⟩

theorem slotRel_trans {D : List Nat} {v v1 v2 : Value} (h1 : slotRel D v v1)
    (h2 : slotRel D v1 v2) : slotRel D v v2 := by
  rcases h1 with h1 | ⟨j, c, hj, e1, e2⟩
  · subst h1; exact h2
  · rcases h2 with h2 | ⟨j2, c2, _, e3, _⟩
    · subst h2; exact Or.inr ⟨j, c, hj, e1, e2⟩
    · rw [e2] at e3; cases e3

theorem forall₂_slotRel_refl (D : List Nat) (l : List Value) :
    List.Forall₂ (slotRel D) l l := by
  induction l with
  | nil => exact List.Forall₂.nil
  | cons x xs ih => exact List.Forall₂.cons (Or.inl rfl) ih

theorem forall₂_slotRel_mono {D D1 : List Nat} (hD : D ⊆ D1) {l l1 : List Value}
    (h : List.Forall₂ (slotRel D) l l1) : List.Forall₂ (slotRel D1) l l1 := by
  induction h with
  | nil => exact List.Forall₂.nil
  | cons hx _ ih => exact List.Forall₂.cons (slotRel_mono hD hx) ih

theorem forall₂_slotRel_trans {D : List Nat} {l l1 l2 : List Value}
    (h1 : List.Forall₂ (slotRel D) l l1) (h2 : List.Forall₂ (slotRel D) l1 l2) :
    List.Forall₂ (slotRel D) l l2 := by
  induction h1 generalizing l2 with
  | nil => cases h2; exact List.Forall₂.nil
  | cons hx _ ih =>
    cases h2 with
    | cons hy hys => exact List.Forall₂.cons (slotRel_trans hx hy) (ih hys)

theorem InstRel_refl (D : List Nat) (I : Instruction) : InstRel D I I :=
  ⟨rfl, rfl, forall₂_slotRel_refl D _⟩

theorem InstRel_mono {D D1 : List Nat} (hD : D ⊆ D1) {I I1 : Instruction}
    (h : InstRel D I I1) : InstRel D1 I I1 :=
  ⟨h.1, h.2.1, forall₂_slotRel_mono hD h.2.2⟩

theorem InstRel_trans {D : List Nat} {I I1 I2 : Instruction} (h1 : InstRel D I I1)
    (h2 : InstRel D I1 I2) : InstRel D I I2 :=
  ⟨h2.1.trans h1.1, h2.2.1.trans h1.2.1, forall₂_slotRel_trans h1.2.2 h2.2.2⟩

theorem BlockRel_refl (D : List Nat) (B : BasicBlock) : BlockRel D B B := by
  induction B with
  | nil => exact BlockRel.nil
  | cons x xs ih => exact BlockRel.keep (InstRel_refl D x) ih

theorem BlockRel_mono {D D1 : List Nat} (hD : D ⊆ D1) {B B1 : BasicBlock}
    (h : BlockRel D B B1) : BlockRel D1 B B1 := by
  induction h with
  | nil => exact BlockRel.nil
  | keep hi _ ih => exact BlockRel.keep (InstRel_mono hD hi) ih
  | drop hk hd _ ih => exact BlockRel.drop hk (hD hd) ih

theorem isa_of_InstRel {D : List Nat} {I I1 : Instruction} (h : InstRel D I I1) :
    isaBinaryOperator I1 = isaBinaryOperator I ∧ isaICmpInst I1 = isaICmpInst I := by
  unfold isaBinaryOperator isaICmpInst
  rw [h.2.1]
  exact ⟨rfl, rfl⟩

theorem BlockRel_trans {D : List Nat} {B B1 B2 : BasicBlock} (h1 : BlockRel D B B1)
    (h2 : BlockRel D B1 B2) : BlockRel D B B2 := by
  induction h1 generalizing B2 with
  | nil => exact h2
  | keep hi _ ih =>
    cases h2 with
    | keep hi2 h3 => exact BlockRel.keep (InstRel_trans hi hi2) (ih h3)
    | drop hk hd h3 =>
      have e := isa_of_InstRel hi
      rw [e.1, e.2] at hk
      rw [hi.1] at hd
      exact BlockRel.drop hk hd (ih h3)
  | drop hk hd _ ih => exact BlockRel.drop hk hd (ih h2)

theorem InstRel_replaceUsesOfWith {D : List Nat} {d : Nat} (hd : d ∈ D) (c : ConstantInt)
    (J : Instruction) : InstRel D J (J.replaceUsesOfWith d (.constantInt c)) := by
  refine ⟨rfl, rfl, ?_⟩
  simp only [Instruction.replaceUsesOfWith]
  generalize J.operands = l
  induction l with
  | nil => exact List.Forall₂.nil
  | cons x xs ih =>
    refine List.Forall₂.cons ?_ ih
    show slotRel D x (if x = Value.instruction d then Value.constantInt c else x)
    by_cases hx : x = Value.instruction d
    · rw [if_pos hx]; exact Or.inr ⟨d, c, hd, hx, rfl⟩
    · rw [if_neg hx]; exact Or.inl rfl

theorem BlockRel_map {D : List Nat} {d : Nat} (hd : d ∈ D) (c : ConstantInt) (B : BasicBlock) :
    BlockRel D B (B.map (fun J => J.replaceUsesOfWith d (.constantInt c))) := by
  induction B with
  | nil => exact BlockRel.nil
  | cons x xs ih => exact BlockRel.keep (InstRel_replaceUsesOfWith hd c x) ih

theorem BlockRel_erase_map {D : List Nat} (c : ConstantInt) (B : BasicBlock) (pos : Nat)
    (I : Instruction) (hI : B[pos]? = some I) (hD : I.id ∈ D)
    (hk : isaBinaryOperator I = true ∨ isaICmpInst I = true) :
    BlockRel D B ((B.eraseIdx pos).map (fun J => J.replaceUsesOfWith I.id (.constantInt c))) := by
  induction B generalizing pos with
  | nil => simp at hI
  | cons x xs ih =>
    cases pos with
    | zero =>
      simp only [List.getElem?_cons_zero, Option.some.injEq] at hI
      subst hI
      exact BlockRel.drop hk hD (BlockRel_map hD c xs)
    | succ p =>
      simp only [List.getElem?_cons_succ] at hI
      exact BlockRel.keep (InstRel_replaceUsesOfWith hD c x) (ih p hI)

theorem BlockRel_mem_right {D : List Nat} {B B1 : BasicBlock} (h : BlockRel D B B1)
    {J1 : Instruction} (hJ : J1 ∈ B1) : ∃ J ∈ B, InstRel D J J1 := by
  induction h with
  | nil => cases hJ
  | keep hi _ ih =>
    rcases List.mem_cons.mp hJ with e | hm
    · subst e; exact ⟨_, List.mem_cons_self _ _, hi⟩
    · obtain ⟨J, hJB, hr⟩ := ih hm
      exact ⟨J, List.mem_cons_of_mem _ hJB, hr⟩
  | drop _ _ _ ih =>
    obtain ⟨J, hJB, hr⟩ := ih hJ
    exact ⟨J, List.mem_cons_of_mem _ hJB, hr⟩

theorem BlockRel_mem_left {D : List Nat} {B B1 : BasicBlock} (h : BlockRel D B B1)
    {I : Instruction} (hI : I ∈ B) (h1 : isaBinaryOperator I = false)
    (h2 : isaICmpInst I = false) : ∃ I1 ∈ B1, InstRel D I I1 := by
  induction h with
  | nil => cases hI
  | keep hi _ ih =>
    rcases List.mem_cons.mp hI with e | hm
    · subst e; exact ⟨_, List.mem_cons_self _ _, hi⟩
    · obtain ⟨J, hJB, hr⟩ := ih hm
      exact ⟨J, List.mem_cons_of_mem _ hJB, hr⟩
  | drop hk _ _ ih =>
    rcases List.mem_cons.mp hI with e | hm
    · subst e
      rw [h1, h2] at hk
      simp at hk
    · exact ih hm

theorem BlockRel_sublist {D : List Nat} {B B1 : BasicBlock} (h : BlockRel D B B1) :
    (B1.map (fun I => (I.id, I.kind))).Sublist (B.map (fun I => (I.id, I.kind))) := by
  induction h with
  | nil => exact List.Sublist.slnil
  | keep hi _ ih =>
    simp only [List.map_cons, hi.1, hi.2.1]
    exact List.Sublist.cons₂ _ ih
  | drop _ _ _ ih =>
    simp only [List.map_cons]
    exact List.Sublist.cons _ ih

theorem forall₂_slotRel_mem_inst {D : List Nat} {l l1 : List Value}
    (h : List.Forall₂ (slotRel D) l l1) {d : Nat} (hd : Value.instruction d ∈ l1) :
    Value.instruction d ∈ l := by
  induction h with
  | nil => cases hd
  | cons hx _ ih =>
    rcases List.mem_cons.mp hd with e | hm
    · rcases hx with hx | ⟨j, c, _, _, hx⟩
      · rw [← e] at hx; rw [← hx]; exact List.mem_cons_self _ _
      · rw [← e] at hx; cases hx
    · exact List.mem_cons_of_mem _ (ih hm)

theorem forall₂_slotRel_getElem? {D : List Nat} {l l1 : List Value}
    (h : List.Forall₂ (slotRel D) l l1) (s : Nat) (v : Value) (hv : l[s]? = some v) :
    ∃ v1, l1[s]? = some v1 ∧ slotRel D v v1 := by
  induction h generalizing s with
  | nil => simp at hv
  | cons hx _ ih =>
    cases s with
    | zero =>
      simp only [List.getElem?_cons_zero, Option.some.injEq] at hv
      subst hv
      exact ⟨_, by simp, hx⟩
    | succ s =>
      simp only [List.getElem?_cons_succ] at hv ⊢
      exact ih s hv

theorem FoldStep_rel {F : Function} {b : Nat} {F1 : Function} (h : FoldStep F b F1) :
    ∃ d, (∃ J ∈ getBlock F b, J.id = d ∧ (isaBinaryOperator J = true ∨ isaICmpInst J = true)) ∧
      (∀ k, BlockRel [d] (getBlock F k) (getBlock F1 k)) ∧
      (∀ k, ∀ J ∈ getBlock F1 k, Value.instruction d ∉ J.operands) := by
  obtain ⟨pos, I, c, hd, hk, rfl⟩ := h
  have hmem : (getBlock F b)[pos]? = some I := by
    rw [← deref_getBlock F { block := b, pos := pos }]; exact hd
  refine ⟨I.id, ⟨I, List.mem_iff_getElem?.mpr ⟨pos, hmem⟩, rfl, hk⟩, ?_, ?_⟩
  · intro k
    rw [getBlock_ReplaceInstWithValue F _ _ I hd k]
    by_cases e : k = b
    · subst e
      rw [if_pos rfl]
      exact BlockRel_erase_map c _ pos I hmem (List.mem_singleton.mpr rfl) hk
    · rw [if_neg e]
      exact BlockRel_map (List.mem_singleton.mpr rfl) c _
  · intro k J hJ
    rw [getBlock_ReplaceInstWithValue F _ _ I hd k] at hJ
    split at hJ
    · obtain ⟨J0, _, rfl⟩ := List.mem_map.mp hJ
      exact not_mem_operands_replaceUsesOfWith J0 I.id c
    · obtain ⟨J0, _, rfl⟩ := List.mem_map.mp hJ
      exact not_mem_operands_replaceUsesOfWith J0 I.id c

theorem Folds_length {F F1 : Function} (h : Folds F F1) : F1.length = F.length := by
  induction h with
  | refl => rfl
  | step b hs _ ih => rw [ih, (FoldStep_lengths hs).1]

theorem Folds_rel {F F1 : Function} (h : Folds F F1) :
    ∃ D : List Nat,
      (∀ d ∈ D, ∃ k, ∃ J ∈ getBlock F k, J.id = d ∧
        (isaBinaryOperator J = true ∨ isaICmpInst J = true)) ∧
      (∀ k, BlockRel D (getBlock F k) (getBlock F1 k)) ∧
      (∀ d ∈ D, ∀ k, ∀ J ∈ getBlock F1 k, Value.instruction d ∉ J.operands) := by
  induction h with
  | refl F => exact ⟨[], by simp, fun k => BlockRel_refl _ _, by simp⟩
  | @step F F1 F2 b hs _ ih =>
    obtain ⟨d, ⟨J, hJ, hJd, hJk⟩, hrel, hno⟩ := FoldStep_rel hs
    obtain ⟨D, hD, hrel2, hno2⟩ := ih
    refine ⟨d :: D, ?_, ?_, ?_⟩
    · intro x hx
      rcases List.mem_cons.mp hx with e | hm
      · subst e; exact ⟨b, J, hJ, hJd, hJk⟩
      · obtain ⟨k, J1, hJ1, e1, hk1⟩ := hD x hm
        obtain ⟨J0, hJ0, hr⟩ := BlockRel_mem_right (hrel k) hJ1
        have e := isa_of_InstRel hr
        refine ⟨k, J0, hJ0, by rw [← hr.1, e1], ?_⟩
        rw [← e.1, ← e.2]; exact hk1
    · intro k
      exact BlockRel_trans
        (BlockRel_mono (fun x hx => by
          rw [List.mem_singleton.mp hx]; exact List.mem_cons_self _ _) (hrel k))
        (BlockRel_mono (fun x hx => List.mem_cons_of_mem _ hx) (hrel2 k))
    · intro x hx k J2 hJ2
      rcases List.mem_cons.mp hx with e | hm
      · subst e
        obtain ⟨J1, hJ1, hr⟩ := BlockRel_mem_right (hrel2 k) hJ2
        intro hmem
        exact hno k J1 hJ1 (forall₂_slotRel_mem_inst hr.2.2 hmem)
      · exact hno2 x hm k J2 hJ2

/-- C6. When the instruction loop finishes a block, no instruction of that block is
foldable (a binary operator with opcode Add, Sub, Mul or SDiv, or a comparison with one of
the six signed or equality predicates, with two integer constant operands).  On the
single-block chain `t1 = add 2, 3; t2 = mul t1, 4; ret t2` the first traversal folds `t1`
to 5, and one invocation of the pass folds `t2` to 20 as well and leaves `ret 20`. -/
theorem runOnBlock_leaves_no_foldable :
    (∀ (F : Function) (b : Nat) (F1 : Function), runOnBlock F b = .ok F1 →
      ∀ I ∈ getBlock F1 b, isFoldable I = false) ∧
    scanFrom (blockSize chainExample 0) chainExample { block := 0, pos := 0 } =
      .restart [[{ id := 2, kind := .binaryOperator .Mul, operands := [i32 5, i32 4] },
                 { id := 3, kind := .other 1, operands := [.instruction 2] }]] ∧
    runOnFunction chainExample =
      .ok (false, [[{ id := 3, kind := .other 1, operands := [i32 20] }]]) := by
  refine ⟨?_, by decide, by decide⟩
  intro F b F1 h I hI
  exact isFoldable_false_of_classify (scanLoop_ok_inert h I hI)

/-- C8. A run of the pass that returns keeps the number of basic blocks, and there is a
list `D` of identities of folded instructions (binary operators and comparisons of the
original function, no longer referenced by any operand afterwards) such that every
instruction that is neither a binary operator nor a comparison is still in its block, with
the same identity, class and number of operands; its branch targets are unchanged, and an
operand slot either is unchanged or held the result of an instruction of `D` and now holds
an integer constant. -/
theorem runOnFunction_preserves_cfg (F : Function) (r : Bool) (F1 : Function)
    (h : runOnFunction F = .ok (r, F1)) :
    F1.length = F.length ∧
    ∃ D : List Nat,
      (∀ d ∈ D, ∃ k, ∃ J ∈ getBlock F k, J.id = d ∧
        (isaBinaryOperator J = true ∨ isaICmpInst J = true)) ∧
      (∀ d ∈ D, ∀ k, ∀ J ∈ getBlock F1 k, Value.instruction d ∉ J.operands) ∧
      (∀ k, ∀ I ∈ getBlock F k, isaBinaryOperator I = false → isaICmpInst I = false →
        ∃ I1 ∈ getBlock F1 k, I1.id = I.id ∧ I1.kind = I.kind ∧
          I1.operands.length = I.operands.length ∧
          (∀ (s l : Nat), I.operands[s]? = some (Value.basicBlock l) →
            I1.operands[s]? = some (Value.basicBlock l)) ∧
          (∀ (s : Nat) (v : Value), I.operands[s]? = some v →
            I1.operands[s]? = some v ∨
            ∃ j c, j ∈ D ∧ v = Value.instruction j ∧
              I1.operands[s]? = some (Value.constantInt c))) := by
  have hf := runOnFunction_folds h
  refine ⟨Folds_length hf, ?_⟩
  obtain ⟨D, hD, hrel, hno⟩ := Folds_rel hf
  refine ⟨D, hD, hno, ?_⟩
  intro k I hI h1 h2
  obtain ⟨I1, hI1, hr⟩ := BlockRel_mem_left (hrel k) hI h1 h2
  refine ⟨I1, hI1, hr.1, hr.2.1, (List.Forall₂.length_eq hr.2.2).symm, ?_, ?_⟩
  · intro s l hs
    obtain ⟨v1, hv1, hsl⟩ := forall₂_slotRel_getElem? hr.2.2 s _ hs
    rcases hsl with e | ⟨j, c, _, e, _⟩
    · rw [hv1, e]
    · cases e
  · intro s v hs
    obtain ⟨v1, hv1, hsl⟩ := forall₂_slotRel_getElem? hr.2.2 s _ hs
    rcases hsl with e | ⟨j, c, hj, e1, e2⟩
    · left; rw [hv1, e]
    · right; exact ⟨j, c, hj, e1, by rw [hv1, e2]⟩

/-- C9. A successful fold removes the instruction under the iterator from the sequence of
(identity, class) pairs of its block and leaves the sequence of every other block as it
was; after a run of the pass that returns, the sequence of every block is a subsequence,
in the original order, of the sequence the block had before. -/
theorem fold_and_run_preserve_order :
    (∀ (F : Function) (it : Iterator) (F1 : Function),
      (foldBinOp F it = some (true, F1) ∨ foldComp F it = some (true, F1)) →
      ∀ k, (getBlock F1 k).map (fun I => (I.id, I.kind)) =
        if k = it.block then ((getBlock F k).map (fun I => (I.id, I.kind))).eraseIdx it.pos
        else (getBlock F k).map (fun I => (I.id, I.kind))) ∧
    (∀ (F : Function) (r : Bool) (F1 : Function), runOnFunction F = .ok (r, F1) →
      ∀ k, ((getBlock F1 k).map (fun I => (I.id, I.kind))).Sublist
        ((getBlock F k).map (fun I => (I.id, I.kind)))) := by
  constructor
  · intro F it F1 h k
    obtain ⟨I, c, hd, _, rfl⟩ := fold_true_shape h
    rw [getBlock_ReplaceInstWithValue F it _ I hd k]
    split
    · rw [map_eraseIdx_comm, List.map_map]; rfl
    · rw [List.map_map]; rfl
  · intro F r F1 h k
    obtain ⟨D, _, hrel, _⟩ := Folds_rel (runOnFunction_folds h)
    exact BlockRel_sublist (hrel k)

/-- C10 (as amended). The boolean returned by `runOnFunction` is always `false`, whether
or not instructions were folded. -/
theorem runOnFunction_returns_false (F : Function) (r : Bool) (F1 : Function)
    (h : runOnFunction F = .ok (r, F1)) : r = false :=
  (runOnFunction_ok h).1

theorem getBlock_cons_succ (B : BasicBlock) (F : Function) (k : Nat) :
    getBlock (B :: F) (k + 1) = getBlock F k := by
  simp [getBlock]

theorem getBlock_cons_zero (B : BasicBlock) (F : Function) : getBlock (B :: F) 0 = B := by
  simp [getBlock]

theorem getBlock_mem_or_nil (F : Function) (k : Nat) : getBlock F k ∈ F ∨ getBlock F k = [] := by
  unfold getBlock
  cases h : F[k]? with
  | none => right; rfl
  | some B => left; exact List.mem_iff_getElem?.mpr ⟨k, h⟩

theorem getBlock_of_length_le {F : Function} {k : Nat} (h : F.length ≤ k) :
    getBlock F k = [] := by
  unfold getBlock
  rw [List.getElem?_eq_none h]; rfl

theorem replaceUsesOfWith_eq_self {J : Instruction} {d : Nat} (v : Value)
    (h : Value.instruction d ∉ J.operands) : J.replaceUsesOfWith d v = J := by
  cases J with
  | mk id kind operands =>
    simp only [Instruction.replaceUsesOfWith, Instruction.mk.injEq, true_and]
    simp only at h
    induction operands with
    | nil => rfl
    | cons x xs ih =>
      simp only [List.mem_cons, not_or] at h
      simp only [List.map_cons, List.cons.injEq]
      exact ⟨if_neg (fun e => h.1 e.symm), ih h.2⟩

theorem usesNoFoldableOf_iff (X B : BasicBlock) :
    usesNoFoldableOf X B = true ↔
      ∀ I ∈ X, ∀ J ∈ B, (isaBinaryOperator I = true ∨ isaICmpInst I = true) →
        (isaBinaryOperator J = true ∨ isaICmpInst J = true) →
        Value.instruction J.id ∉ I.operands := by
  unfold usesNoFoldableOf
  simp only [List.all_eq_true, Bool.not_eq_true', Bool.and_eq_false_iff, Bool.or_eq_false_iff,
    List.contains_eq_any_beq, List.any_eq_false, beq_iff_eq]
  constructor
  · intro h I hI J hJ hkI hkJ hmem
    rcases h I hI J hJ with (⟨h1, h2⟩ | ⟨h1, h2⟩) | h3
    · rcases hkI with hk | hk
      · rw [hk] at h1; cases h1
      · rw [hk] at h2; cases h2
    · rcases hkJ with hk | hk
      · rw [hk] at h1; cases h1
      · rw [hk] at h2; cases h2
    · exact h3 _ hmem rfl
  · intro h I hI J hJ
    by_cases hkI : isaBinaryOperator I = true ∨ isaICmpInst I = true
    · by_cases hkJ : isaBinaryOperator J = true ∨ isaICmpInst J = true
      · right
        intro v hv e
        exact h I hI J hJ hkI hkJ (by rw [e]; exact hv)
      · left; right
        push_neg at hkJ
        exact ⟨by simpa using hkJ.1, by simpa using hkJ.2⟩
    · left; left
      push_neg at hkI
      exact ⟨by simpa using hkI.1, by simpa using hkI.2⟩

theorem classify_of_other_class {I : Instruction}
    (h : ¬ (isaBinaryOperator I = true ∨ isaICmpInst I = true)) : classify I = some none := by
  unfold classify
  cases hk : I.kind with
  | binaryOperator opcode => exact absurd (Or.inl (by simp [isaBinaryOperator, hk])) h
  | iCmpInst predicate => exact absurd (Or.inr (by simp [isaICmpInst, hk])) h
  | other opcode => rfl

theorem usesNoLaterFoldable_spec {F : Function} (h : usesNoLaterFoldable F = true) :
    NoLaterFoldableUse F := by
  induction F with
  | nil =>
    intro i j _ I hI
    simp [getBlock] at hI
  | cons B rest ih =>
    simp only [usesNoLaterFoldable, Bool.and_eq_true, List.all_eq_true] at h
    intro i j hij I hI J hJ hkI hkJ
    obtain ⟨j1, rfl⟩ : ∃ j1, j = j1 + 1 := ⟨j - 1, by omega⟩
    rw [getBlock_cons_succ] at hJ
    cases i with
    | zero =>
      rw [getBlock_cons_zero] at hI
      rcases getBlock_mem_or_nil rest j1 with hm | hn
      · exact (usesNoFoldableOf_iff B _).mp (h.1 _ hm) I hI J hJ hkI hkJ
      · rw [hn] at hJ; cases hJ
    | succ i1 =>
      rw [getBlock_cons_succ] at hI
      exact ih h.2 i1 j1 (by omega) I hI J hJ hkI hkJ

theorem NoLaterFoldableUse_of_rel {D : List Nat} {F F1 : Function} (hP : NoLaterFoldableUse F)
    (hrel : ∀ k, BlockRel D (getBlock F k) (getBlock F1 k)) : NoLaterFoldableUse F1 := by
  intro i j hij I1 hI1 J1 hJ1 hkI hkJ hmem
  obtain ⟨I, hI, hrI⟩ := BlockRel_mem_right (hrel i) hI1
  obtain ⟨J, hJ, hrJ⟩ := BlockRel_mem_right (hrel j) hJ1
  have eI := isa_of_InstRel hrI
  have eJ := isa_of_InstRel hrJ
  rw [eI.1, eI.2] at hkI
  rw [eJ.1, eJ.2] at hkJ
  rw [hrJ.1] at hmem
  exact hP i j hij I hI J hJ hkI hkJ (forall₂_slotRel_mem_inst hrI.2.2 hmem)

theorem FoldStep_earlier_inert {F : Function} {b : Nat} {F1 : Function}
    (hP : NoLaterFoldableUse F) (h : FoldStep F b F1)
    (hdone : ∀ i, i < b → ∀ I ∈ getBlock F i, classify I = some none) :
    ∀ i, i < b → ∀ I ∈ getBlock F1 i, classify I = some none := by
  obtain ⟨pos, J, c, hd, hkJ, rfl⟩ := h
  have hmem : J ∈ getBlock F b := by
    rw [deref_getBlock] at hd
    exact List.mem_iff_getElem?.mpr ⟨pos, hd⟩
  intro i hi I1 hI1
  rw [getBlock_ReplaceInstWithValue F _ _ J hd i, if_neg (by simp; omega)] at hI1
  obtain ⟨I, hI, rfl⟩ := List.mem_map.mp hI1
  by_cases hkI : isaBinaryOperator I = true ∨ isaICmpInst I = true
  · rw [replaceUsesOfWith_eq_self _ (hP i b hi I hI J hmem hkI hkJ)]
    exact hdone i hi I hI
  · exact classify_of_other_class hkI

theorem FoldStep_NoLaterFoldableUse {F : Function} {b : Nat} {F1 : Function}
    (hP : NoLaterFoldableUse F) (h : FoldStep F b F1) : NoLaterFoldableUse F1 := by
  obtain ⟨d, _, hrel, _⟩ := FoldStep_rel h
  exact NoLaterFoldableUse_of_rel hP hrel

theorem scanLoop_earlier_inert {fuel : Nat} {F : Function} {b : Nat} {F1 : Function}
    (h : scanLoop fuel F b = .ok F1) (hP : NoLaterFoldableUse F)
    (hdone : ∀ i, i < b → ∀ I ∈ getBlock F i, classify I = some none) :
    NoLaterFoldableUse F1 ∧ ∀ i, i < b → ∀ I ∈ getBlock F1 i, classify I = some none := by
  induction fuel generalizing F with
  | zero =>
    unfold scanLoop at h
    split at h
    · cases h
    · rename_i F2 hs
      cases h
      rw [scanFrom_finished hs]
      exact ⟨hP, hdone⟩
    · cases h
  | succ fuel ih =>
    unfold scanLoop at h
    split at h
    · cases h
    · rename_i F2 hs
      cases h
      rw [scanFrom_finished hs]
      exact ⟨hP, hdone⟩
    · rename_i F2 hs
      have hstep := scanFrom_restart hs
      exact ih h (FoldStep_NoLaterFoldableUse hP hstep) (FoldStep_earlier_inert hP hstep hdone)

theorem runOnBlocks_all_inert {k b : Nat} {F F1 : Function}
    (h : runOnBlocks k b F = .ok F1) (hP : NoLaterFoldableUse F)
    (hdone : ∀ i, i < b → ∀ I ∈ getBlock F i, classify I = some none)
    (hlen : b + k = F.length) :
    ∀ i, ∀ I ∈ getBlock F1 i, classify I = some none := by
  induction k generalizing b F with
  | zero =>
    unfold runOnBlocks at h
    cases h
    intro i I hI
    by_cases hi : i < b
    · exact hdone i hi I hI
    · rw [getBlock_of_length_le (by omega)] at hI
      cases hI
  | succ k ih =>
    unfold runOnBlocks at h
    split at h
    · rename_i F2 hb
      unfold runOnBlock at hb
      obtain ⟨hP2, hE⟩ := scanLoop_earlier_inert hb hP hdone
      have hl : F2.length = F.length := Folds_length (scanLoop_folds hb)
      apply ih h hP2
      · intro i hi I hI
        by_cases e : i = b
        · subst e
          exact scanLoop_ok_inert hb I hI
        · exact hE i (by omega) I hI
      · omega
    · cases h
    · cases h

theorem runOnBlocks_of_inert (k b : Nat) {F : Function}
    (h : ∀ i, ∀ I ∈ getBlock F i, classify I = some none) : runOnBlocks k b F = .ok F := by
  induction k generalizing b with
  | zero => rfl
  | succ k ih =>
    unfold runOnBlocks runOnBlock
    rw [scanLoop_of_inert _ (h b)]
    exact ih (b + 1)

/-- C5 (as amended). If no binary operator or comparison of the function uses the result
of a binary operator or comparison of a later block of the block list, and the pass
returns on the function, then running the pass on the result returns the same function
again (so the second run gives what the first run gave), and every traversal of that
second run reaches the end of its block without a fold. -/
theorem runOnFunction_idempotent (F : Function) (r : Bool) (F1 : Function)
    (hF : usesNoLaterFoldable F = true) (h : runOnFunction F = .ok (r, F1)) :
    runOnFunction F1 = .ok (false, F1) ∧
    runOnFunction F1 = runOnFunction F ∧
    ∀ b, scanFrom (blockSize F1 b) F1 { block := b, pos := 0 } = .finished F1 := by
  have hin := runOnBlocks_all_inert (runOnFunction_ok h).2 (usesNoLaterFoldable_spec hF)
    (fun i hi => absurd hi (Nat.not_lt_zero i)) (by omega)
  have h2 : runOnFunction F1 = .ok (false, F1) := by
    unfold runOnFunction
    rw [runOnBlocks_of_inert _ _ hin]
  refine ⟨h2, ?_, ?_⟩
  · rw [h2, h, (runOnFunction_ok h).1]
  · intro b
    exact (scan_block_finished_iff F1 b).mpr (hin b)

theorem signedValue_getSigned_of_fits (w : Nat) (hw : 65 ≤ w) (v : Int) (hv : fitsInt64 v) :
    (getSigned w v).signedValue = v := by
  rw [signedValue_getSigned]
  apply truncToWidth_of_representable w (by omega)
  have h1 : (2 ^ 63 : Nat) ≤ 2 ^ (w - 1) := Nat.pow_le_pow_right (by decide) (by omega)
  have h2 : ((2 ^ 63 : Nat) : Int) ≤ ((2 ^ (w - 1) : Nat) : Int) := by exact_mod_cast h1
  unfold fitsInt64 two63 at hv
  unfold representable
  omega

/-- C1 fails for widths above 64: on `add i65 9223372036854775807, 1` both operands are
representable in 65 bits and the exact sum `2^63` is its own 65-bit truncation, but
`foldBinOp` replaces the instruction by the 65-bit constant `-2^63`; and whatever the
64-bit intermediate is, the constant built from it is not `2^63`. -/
theorem foldBinOp_add_i65_counterexample :
    representable 65 (2 ^ 63 - 1) ∧ representable 65 1 ∧
    deref wideAddExample { block := 0, pos := 0 } =
      some { id := 1, kind := .binaryOperator .Add,
             operands := [.constantInt (getSigned 65 (2 ^ 63 - 1)),
                          .constantInt (getSigned 65 1)] } ∧
    truncToWidth 65 ((2 ^ 63 - 1) + 1) = 2 ^ 63 ∧
    foldBinOp wideAddExample { block := 0, pos := 0 } =
      some (true, [[{ id := 2, kind := .other 1,
                      operands := [.constantInt (getSigned 65 (-(2 ^ 63)))] }]]) ∧
    (getSigned 65 (-(2 ^ 63))).signedValue = -(2 ^ 63) ∧
    (∀ v : Int, fitsInt64 v → (getSigned 65 v).signedValue ≠ truncToWidth 65 ((2 ^ 63 - 1) + 1)) ∧
    ¬ ∃ c : ConstantInt,
        foldBinOp wideAddExample { block := 0, pos := 0 } =
          some (true, ReplaceInstWithValue wideAddExample { block := 0, pos := 0 }
            (.constantInt c)) ∧
        c.signedValue = truncToWidth 65 ((2 ^ 63 - 1) + 1) := by
  have hact : foldBinOp wideAddExample { block := 0, pos := 0 } =
      some (true, [[{ id := 2, kind := .other 1,
                      operands := [.constantInt (getSigned 65 (-(2 ^ 63)))] }]]) := by decide
  have htr : truncToWidth 65 ((2 ^ 63 - 1) + 1) = 2 ^ 63 := by decide
  refine ⟨by decide, by decide, by decide, htr, hact, by decide, ?_, ?_⟩
  · intro v hv
    rw [signedValue_getSigned_of_fits 65 (le_refl _) v hv, htr]
    unfold fitsInt64 two63 at hv
    intro e
    rw [e] at hv
    exact absurd hv.2 (by decide)
  · rintro ⟨c, h1, h2⟩
    rw [hact] at h1
    have hr : ReplaceInstWithValue wideAddExample { block := 0, pos := 0 } (.constantInt c)
        = [[{ id := 2, kind := .other 1, operands := [.constantInt c] }]] := rfl
    rw [hr] at h1
    simp only [Option.some.injEq, Prod.mk.injEq, true_and, List.cons.injEq, and_true,
      Instruction.mk.injEq, Value.constantInt.injEq] at h1
    rw [← h1, htr] at h2
    revert h2
    decide

/-- C2 fails for widths above 64 and for `INT64_MIN / -1`: on
`sdiv i65 -9223372036854775808, -1` both operands are representable in 65 bits, the
divisor is not zero and the quotient `2^63` is its own 65-bit truncation, but the 64-bit
division is undefined and `foldBinOp` yields no constant (no 64-bit value would give
`2^63` either); the same division is undefined for the 64-bit type. -/
theorem foldBinOp_sdiv_min_counterexample :
    representable 65 (-(2 ^ 63)) ∧ representable 65 (-1) ∧ ((-1 : Int) ≠ 0) ∧
    deref (minDivExample 65) { block := 0, pos := 0 } =
      some { id := 1, kind := .binaryOperator .SDiv,
             operands := [.constantInt (getSigned 65 (-(2 ^ 63))),
                          .constantInt (getSigned 65 (-1))] } ∧
    truncToWidth 65 (Int.tdiv (-(2 ^ 63)) (-1)) = 2 ^ 63 ∧
    foldBinOp (minDivExample 65) { block := 0, pos := 0 } = none ∧
    (∀ q : Int, fitsInt64 q →
      (getSigned 65 q).signedValue ≠ truncToWidth 65 (Int.tdiv (-(2 ^ 63)) (-1))) ∧
    representable 64 (-(2 ^ 63)) ∧ representable 64 (-1) ∧
    foldBinOp (minDivExample 64) { block := 0, pos := 0 } = none := by
  have htr : truncToWidth 65 (Int.tdiv (-(2 ^ 63)) (-1)) = 2 ^ 63 := by decide
  refine ⟨by decide, by decide, by decide, by decide, htr, by decide, ?_, by decide, by decide,
    by decide⟩
  intro q hq
  rw [signedValue_getSigned_of_fits 65 (le_refl _) q hq, htr]
  unfold fitsInt64 two63 at hq
  intro e
  rw [e] at hq
  exact absurd hq.2 (by decide)

/-- C3 fails for constants that do not fit 64 bits: on `icmp eq i128 2^64, 0` both
operands are representable in 128 bits and differ, but `getSExtValue` asserts on the
left operand and `foldComp` does not replace the instruction by the constant false. -/
theorem foldComp_eq_i128_counterexample :
    representable 128 (2 ^ 64) ∧ representable 128 0 ∧ ((2 : Int) ^ 64 ≠ 0) ∧
    deref wideCompareExample { block := 0, pos := 0 } =
      some { id := 1, kind := .iCmpInst .ICMP_EQ,
             operands := [.constantInt (getSigned 128 (2 ^ 64)),
                          .constantInt (getSigned 128 0)] } ∧
    (getSigned 128 (2 ^ 64)).getSExtValue = none ∧
    foldComp wideCompareExample { block := 0, pos := 0 } = none ∧
    foldComp wideCompareExample { block := 0, pos := 0 } ≠
      some (true, ReplaceInstWithValue wideCompareExample { block := 0, pos := 0 }
        (.constantInt (if (2 : Int) ^ 64 = 0 then ConstantInt.getTrue
          else ConstantInt.getFalse))) := by
  decide

/-- C5 fails when a binary operator uses the result of a binary operator of a later block
of the list: on `laterUseExample` the first run folds `x` in the last block, which makes
`y` in the middle block foldable after that block has been scanned; the second run folds
`y`, so it changes the function again. -/
theorem runOnFunction_not_idempotent_counterexample :
    runOnFunction laterUseExample = .ok (false, laterUseAfterPass) ∧
    runOnFunction laterUseAfterPass = .ok (false, laterUseAfterSecondPass) ∧
    laterUseAfterSecondPass ≠ laterUseAfterPass ∧
    runOnFunction laterUseAfterPass ≠ .ok (false, laterUseAfterPass) ∧
    usesNoLaterFoldable laterUseExample = false := by
  decide

/-- C10 fails: on `chainExample` the pass folds two instructions and changes the
function, and returns `false`. -/
theorem runOnFunction_false_on_change_counterexample :
    runOnFunction chainExample = .ok (false, chainAfterPass) ∧
    chainAfterPass ≠ chainExample ∧
    foldBinOp chainExample { block := 0, pos := 0 } = some (true, chainAfterFirstFold) := by
  decide

theorem foldBinOp_arith_truncates_witness :
    (1 ≤ 32 ∧ representable 32 2 ∧ representable 32 3) ∧
    ∃ c, foldBinOp chainExample { block := 0, pos := 0 } =
        some (true, ReplaceInstWithValue chainExample { block := 0, pos := 0 }
          (.constantInt c)) ∧
      c.width = (getSigned 32 2).width ∧ c.bits < 2 ^ c.width ∧
      c.signedValue = truncToWidth 32 (2 + 3) :=
  ⟨by decide,
   (foldBinOp_arith_truncates 32 (by decide) 2 3 (by decide) (by decide) chainExample
      { block := 0, pos := 0 }
      { id := 1, kind := .binaryOperator .Add, operands := [i32 2, i32 3] } rfl rfl).1 rfl
      (Or.inl (by decide))⟩

theorem foldBinOp_sdiv_truncates_witness :
    (representable 32 (-7) ∧ representable 32 2 ∧ (2 : Int) ≠ 0) ∧
    ∃ c, foldBinOp sdivExample { block := 0, pos := 0 } =
        some (true, ReplaceInstWithValue sdivExample { block := 0, pos := 0 }
          (.constantInt c)) ∧
      c.width = 32 ∧ c.signedValue = -3 := by
  refine ⟨by decide, ?_⟩
  obtain ⟨c, h1, h2, _, h4, _, _⟩ :=
    foldBinOp_sdiv_truncates 32 (by decide) (-7) 2 (by decide) (by decide) (by decide)
      (Or.inl (by decide)) (by decide) sdivExample { block := 0, pos := 0 }
      { id := 1, kind := .binaryOperator .SDiv, operands := [i32 (-7), i32 2] } rfl rfl rfl
  refine ⟨c, h1, h2, ?_⟩
  rw [h4]
  decide

theorem foldComp_signed_compare_witness :
    (representable 32 3 ∧ representable 32 7) ∧
    foldComp compareExample { block := 0, pos := 0 } =
      some (true, ReplaceInstWithValue compareExample { block := 0, pos := 0 }
        (.constantInt (if (3 : Int) < 7 then ConstantInt.getTrue else ConstantInt.getFalse))) :=
  ⟨by decide,
   (foldComp_signed_compare 32 32 (by decide) (by decide) 3 7 (by decide) (by decide)
      (Or.inl (by decide)) (Or.inl (by decide)) compareExample { block := 0, pos := 0 }
      { id := 1, kind := .iCmpInst .ICMP_SLT, operands := [i32 3, i32 7] } rfl rfl).2.2.2.2.2.1
      rfl⟩

theorem fold_rewrites_every_use_witness :
    foldBinOp chainExample { block := 0, pos := 0 } = some (true, chainAfterFirstFold) ∧
    ∃ (I : Instruction) (c : ConstantInt),
      deref chainExample { block := 0, pos := 0 } = some I ∧
      chainAfterFirstFold.length = chainExample.length ∧
      (∀ B ∈ chainAfterFirstFold, ∀ J ∈ B, Value.instruction I.id ∉ J.operands) ∧
      (∀ (k p : Nat) (J : Instruction),
        (if k = 0 then (getBlock chainExample k).eraseIdx 0 else getBlock chainExample k)[p]?
          = some J →
        ∃ J1 : Instruction, (getBlock chainAfterFirstFold k)[p]? = some J1 ∧ J1.id = J.id ∧
          J1.kind = J.kind ∧ J1.operands.length = J.operands.length ∧
          ∀ (s : Nat) (v : Value), J.operands[s]? = some v →
            J1.operands[s]? = some (if v = Value.instruction I.id then .constantInt c else v)) ∧
      (∀ k, (getBlock chainAfterFirstFold k).length =
        (if k = 0 then (getBlock chainExample k).eraseIdx 0
          else getBlock chainExample k).length) :=
  ⟨by decide,
   fold_rewrites_every_use chainExample { block := 0, pos := 0 } chainAfterFirstFold
     (Or.inl (by decide))⟩

theorem runOnFunction_idempotent_witness :
    usesNoLaterFoldable backEdgeExample = true ∧
    runOnFunction backEdgeExample = .ok (false, backEdgeAfterPass) ∧
    runOnFunction backEdgeAfterPass = .ok (false, backEdgeAfterPass) ∧
    runOnFunction backEdgeAfterPass = runOnFunction backEdgeExample ∧
    ∀ b, scanFrom (blockSize backEdgeAfterPass b) backEdgeAfterPass { block := b, pos := 0 } =
      .finished backEdgeAfterPass :=
  ⟨by decide, by decide,
   runOnFunction_idempotent backEdgeExample false backEdgeAfterPass (by decide) (by decide)⟩

theorem runOnBlock_leaves_no_foldable_witness :
    runOnBlock chainExample 0 = .ok chainAfterPass ∧
    ∀ I ∈ getBlock chainAfterPass 0, isFoldable I = false :=
  ⟨by decide, runOnBlock_leaves_no_foldable.1 chainExample 0 chainAfterPass (by decide)⟩

theorem runOnFunction_terminates_witness :
    foldBinOp chainExample { block := 0, pos := 0 } = some (true, chainAfterFirstFold) ∧
    (chainAfterFirstFold.length = chainExample.length ∧
      (getBlock chainAfterFirstFold 0).length + 1 = (getBlock chainExample 0).length ∧
      ∀ k, k ≠ 0 → (getBlock chainAfterFirstFold k).length = (getBlock chainExample k).length) ∧
    (getBlock chainExample 0).length ≤ 3 ∧
    (scanLoop 3 chainExample 0 ≠ .outOfFuel ∧ scanLoop 3 chainExample 0 = runOnBlock chainExample 0) ∧
    runOnFunction chainExample ≠ .outOfFuel :=
  ⟨by decide,
   runOnFunction_terminates.1 chainExample { block := 0, pos := 0 } chainAfterFirstFold
     (Or.inl (by decide)),
   by decide,
   runOnFunction_terminates.2.1 chainExample 0 3 (by decide),
   runOnFunction_terminates.2.2 chainExample⟩

theorem runOnFunction_preserves_cfg_witness :
    runOnFunction compareExample = .ok (false, compareAfterPass) ∧
    compareAfterPass.length = compareExample.length ∧
    ∃ I1 ∈ getBlock compareAfterPass 0, I1.id = 2 ∧ I1.kind = .other 2 ∧
      I1.operands[1]? = some (Value.basicBlock 1) ∧
      I1.operands[2]? = some (Value.basicBlock 2) := by
  refine ⟨by decide, ?_⟩
  obtain ⟨h1, D, _, _, h2⟩ :=
    runOnFunction_preserves_cfg compareExample false compareAfterPass (by decide)
  refine ⟨h1, ?_⟩
  obtain ⟨I1, hI1, e1, e2, _, h3, _⟩ := h2 0
    { id := 2, kind := .other 2, operands := [.instruction 1, .basicBlock 1, .basicBlock 2] }
    (by decide) (by decide) (by decide)
  exact ⟨I1, hI1, e1, e2, h3 1 1 (by decide), h3 2 2 (by decide)⟩

theorem fold_and_run_preserve_order_witness :
    runOnFunction twoBlockExample = .ok (false, twoBlockAfterPass) ∧
    ∀ k, ((getBlock twoBlockAfterPass k).map (fun I => (I.id, I.kind))).Sublist
      ((getBlock twoBlockExample k).map (fun I => (I.id, I.kind))) :=
  ⟨by decide, fold_and_run_preserve_order.2 twoBlockExample false twoBlockAfterPass (by decide)⟩

theorem runOnFunction_returns_false_witness :
    runOnFunction chainExample = .ok (false, chainAfterPass) ∧ false = false :=
  ⟨by decide, runOnFunction_returns_false chainExample false chainAfterPass (by decide)⟩

theorem getSExtValue_getSigned_zero (w : Nat) : (getSigned w 0).getSExtValue = some 0 := by
  have hv : (getSigned w 0).signedValue = 0 := by
    rw [signedValue_getSigned]
    unfold truncToWidth
    have hpos := pow_pos_cast (w - 1)
    simp only [Int.zero_emod]
    rw [if_pos hpos]
  unfold ConstantInt.getSExtValue
  rw [hv, if_pos (Or.inr (by decide))]

theorem sdiv64_zero (a : Int) : sdiv64 a 0 = none := by
  unfold sdiv64
  rw [if_pos rfl]

theorem foldBinOpValue_sdiv_zero (w : Nat) (lhs : ConstantInt) :
    foldBinOpValue .SDiv lhs (getSigned w 0) = none := by
  unfold foldBinOpValue
  simp only
  rw [getSExtValue_getSigned_zero]
  cases lhs.getSExtValue with
  | none => rfl
  | some a => simp only [sdiv64_zero]

/-- C11. The code has no division-by-zero policy: for every bit width and every constant
`a`, the `SDiv` case of `foldBinOp` on the constants `a` and `0` evaluates the 64-bit
quotient with divisor zero, which is undefined; on `d = sdiv i32 10, 0; ret i32 d`
`canFoldBinOp` says yes, `foldBinOp` performs the undefined division and the pass
does not return. -/
theorem foldBinOp_sdiv_by_zero_undefined :
    (∀ (w : Nat) (a : Int), foldBinOpValue .SDiv (getSigned w a) (getSigned w 0) = none) ∧
    (∀ a : Int, sdiv64 a 0 = none) ∧
    canFoldBinOp divByZeroExample { block := 0, pos := 0 } = some true ∧
    foldBinOp divByZeroExample { block := 0, pos := 0 } = none ∧
    loopBody divByZeroExample { block := 0, pos := 0 } = .abort ∧
    runOnFunction divByZeroExample = .abort :=
  ⟨fun w a => foldBinOpValue_sdiv_zero w _, sdiv64_zero, by decide, by decide, by decide,
    by decide⟩

theorem canFoldBinOp_true_iff (F : Function) (it : Iterator) :
    canFoldBinOp F it = some true ↔
      ∃ I opcode lhs rhs, deref F it = some I ∧ I.kind = .binaryOperator opcode ∧
        I.getOperand 0 = some (.constantInt lhs) ∧ I.getOperand 1 = some (.constantInt rhs) := by
  unfold canFoldBinOp
  constructor
  · intro h
    cases hd : deref F it with
    | none => simp [hd] at h
    | some I =>
      rw [hd] at h
      simp only at h
      cases hk : I.kind with
      | other o => simp [isaBinaryOperator, hk] at h
      | iCmpInst p => simp [isaBinaryOperator, hk] at h
      | binaryOperator opcode =>
        cases h0 : I.getOperand 0 with
        | none => simp [isaBinaryOperator, hk, h0] at h
        | some v0 =>
          cases v0 with
          | constantInt lhs =>
            cases h1 : I.getOperand 1 with
            | none => simp [isaBinaryOperator, hk, h0, h1, isaConstantInt] at h
            | some v1 =>
              cases v1 with
              | constantInt rhs => exact ⟨I, opcode, lhs, rhs, rfl, hk, h0, h1⟩
              | _ => simp [isaBinaryOperator, hk, h0, h1, isaConstantInt] at h
          | _ => simp [isaBinaryOperator, hk, h0, isaConstantInt] at h
  · rintro ⟨I, opcode, lhs, rhs, hd, hk, h0, h1⟩
    simp [hd, isaBinaryOperator, hk, h0, h1, isaConstantInt]

theorem canFoldComp_true_iff (F : Function) (it : Iterator) :
    canFoldComp F it = some true ↔
      ∃ I predicate lhs rhs, deref F it = some I ∧ I.kind = .iCmpInst predicate ∧
        I.getOperand 0 = some (.constantInt lhs) ∧ I.getOperand 1 = some (.constantInt rhs) := by
  unfold canFoldComp
  constructor
  · intro h
    cases hd : deref F it with
    | none => simp [hd] at h
    | some I =>
      rw [hd] at h
      simp only at h
      cases hk : I.kind with
      | other o => simp [isaICmpInst, hk] at h
      | binaryOperator p => simp [isaICmpInst, hk] at h
      | iCmpInst predicate =>
        cases h0 : I.getOperand 0 with
        | none => simp [isaICmpInst, hk, h0] at h
        | some v0 =>
          cases v0 with
          | constantInt lhs =>
            cases h1 : I.getOperand 1 with
            | none => simp [isaICmpInst, hk, h0, h1, isaConstantInt] at h
            | some v1 =>
              cases v1 with
              | constantInt rhs => exact ⟨I, predicate, lhs, rhs, rfl, hk, h0, h1⟩
              | _ => simp [isaICmpInst, hk, h0, h1, isaConstantInt] at h
          | _ => simp [isaICmpInst, hk, h0, isaConstantInt] at h
  · rintro ⟨I, predicate, lhs, rhs, hd, hk, h0, h1⟩
    simp [hd, isaICmpInst, hk, h0, h1, isaConstantInt]

theorem canFold_defined_of_two_operands {F : Function} {it : Iterator} {I : Instruction}
    (hd : deref F it = some I) (h2 : 2 ≤ I.operands.length) :
    canFoldBinOp F it ≠ none ∧ canFoldComp F it ≠ none := by
  have e0 : ∃ v0, I.getOperand 0 = some v0 :=
    ⟨I.operands[0], by simp [Instruction.getOperand, List.getElem?_eq_getElem (show 0 < I.operands.length by omega)]⟩
  have e1 : ∃ v1, I.getOperand 1 = some v1 :=
    ⟨I.operands[1], by simp [Instruction.getOperand, List.getElem?_eq_getElem (show 1 < I.operands.length by omega)]⟩
  obtain ⟨v0, h0⟩ := e0
  obtain ⟨v1, h1⟩ := e1
  unfold canFoldBinOp canFoldComp
  rw [hd]
  simp only [h0, h1]
  constructor
  · split
    · split <;> simp
    · simp
  · split
    · split <;> simp
    · simp

theorem foldBinOp_eq_of_shape {F : Function} {it : Iterator} {I : Instruction}
    {opcode : BinaryOps} {lhs rhs : ConstantInt} (hd : deref F it = some I)
    (hk : I.kind = .binaryOperator opcode) (h0 : I.getOperand 0 = some (.constantInt lhs))
    (h1 : I.getOperand 1 = some (.constantInt rhs)) :
    foldBinOp F it =
      match foldBinOpValue opcode lhs rhs with
      | none => none
      | some none => some (false, F)
      | some (some value) => some (true, ReplaceInstWithValue F it (.constantInt value)) := by
  unfold foldBinOp
  simp [hd, hk, h0, h1]

theorem foldComp_eq_of_shape {F : Function} {it : Iterator} {I : Instruction}
    {predicate : Predicate} {lhs rhs : ConstantInt} (hd : deref F it = some I)
    (hk : I.kind = .iCmpInst predicate) (h0 : I.getOperand 0 = some (.constantInt lhs))
    (h1 : I.getOperand 1 = some (.constantInt rhs)) :
    foldComp F it =
      match foldCompValue predicate lhs rhs with
      | none => none
      | some none => some (false, F)
      | some (some bool_value) =>
        some (true, ReplaceInstWithValue F it
          (.constantInt (if bool_value then ConstantInt.getTrue else ConstantInt.getFalse))) := by
  unfold foldComp
  simp [hd, hk, h0, h1]

/-- C17. `canFoldBinOp` and `canFoldComp` answer `false`, without reading an operand, on
every instruction that is not a binary operator (resp. not a comparison), whatever its
number of operands, and they read operands 0 and 1 without failure on an instruction with
two operands.  When `canFoldBinOp` (resp. `canFoldComp`) has answered `true`, the
instruction is a binary operator (resp. a comparison) whose operands 0 and 1 are integer
constants, so every cast of `foldBinOp` (resp. `foldComp`) succeeds and the call fails
only if the evaluation of the constant does.  Hence the loop body of `runOnFunction`
aborts only on a failed `canFold` check or a failed evaluation, never on a cast. -/
theorem operand_access_is_safe :
    (∀ (F : Function) (it : Iterator) (I : Instruction), deref F it = some I →
      isaBinaryOperator I = false → canFoldBinOp F it = some false) ∧
    (∀ (F : Function) (it : Iterator) (I : Instruction), deref F it = some I →
      isaICmpInst I = false → canFoldComp F it = some false) ∧
    (∀ (F : Function) (it : Iterator) (I : Instruction), deref F it = some I →
      2 ≤ I.operands.length → canFoldBinOp F it ≠ none ∧ canFoldComp F it ≠ none) ∧
    (∀ (F : Function) (it : Iterator), canFoldBinOp F it = some true →
      ∃ I opcode lhs rhs, deref F it = some I ∧ I.kind = .binaryOperator opcode ∧
        I.getOperand 0 = some (.constantInt lhs) ∧ I.getOperand 1 = some (.constantInt rhs) ∧
        foldBinOp F it =
          match foldBinOpValue opcode lhs rhs with
          | none => none
          | some none => some (false, F)
          | some (some value) =>
            some (true, ReplaceInstWithValue F it (.constantInt value))) ∧
    (∀ (F : Function) (it : Iterator), canFoldComp F it = some true →
      ∃ I predicate lhs rhs, deref F it = some I ∧ I.kind = .iCmpInst predicate ∧
        I.getOperand 0 = some (.constantInt lhs) ∧ I.getOperand 1 = some (.constantInt rhs) ∧
        foldComp F it =
          match foldCompValue predicate lhs rhs with
          | none => none
          | some none => some (false, F)
          | some (some bool_value) =>
            some (true, ReplaceInstWithValue F it
              (.constantInt (if bool_value then ConstantInt.getTrue
                else ConstantInt.getFalse)))) ∧
    (∀ (F : Function) (it : Iterator), loopBody F it = .abort →
      canFoldBinOp F it = none ∨ canFoldComp F it = none ∨
      (∃ I opcode lhs rhs, deref F it = some I ∧ I.kind = .binaryOperator opcode ∧
        I.getOperand 0 = some (.constantInt lhs) ∧ I.getOperand 1 = some (.constantInt rhs) ∧
        foldBinOpValue opcode lhs rhs = none) ∨
      (∃ I predicate lhs rhs, deref F it = some I ∧ I.kind = .iCmpInst predicate ∧
        I.getOperand 0 = some (.constantInt lhs) ∧ I.getOperand 1 = some (.constantInt rhs) ∧
        foldCompValue predicate lhs rhs = none)) := by
  refine ⟨?_, ?_, ?_, ?_, ?_, ?_⟩
  · intro F it I hd hk
    unfold canFoldBinOp
    rw [hd]
    simp [hk]
  · intro F it I hd hk
    unfold canFoldComp
    rw [hd]
    simp [hk]
  · intro F it I hd h2
    exact canFold_defined_of_two_operands hd h2
  · intro F it h
    obtain ⟨I, opcode, lhs, rhs, hd, hk, h0, h1⟩ := (canFoldBinOp_true_iff F it).mp h
    exact ⟨I, opcode, lhs, rhs, hd, hk, h0, h1, foldBinOp_eq_of_shape hd hk h0 h1⟩
  · intro F it h
    obtain ⟨I, predicate, lhs, rhs, hd, hk, h0, h1⟩ := (canFoldComp_true_iff F it).mp h
    exact ⟨I, predicate, lhs, rhs, hd, hk, h0, h1, foldComp_eq_of_shape hd hk h0 h1⟩
  · intro F it h
    unfold loopBody at h
    split at h
    · left; assumption
    · rename_i hc
      obtain ⟨I, opcode, lhs, rhs, hd, hk, h0, h1⟩ := (canFoldBinOp_true_iff F it).mp hc
      right; right; left
      refine ⟨I, opcode, lhs, rhs, hd, hk, h0, h1, ?_⟩
      rw [foldBinOp_eq_of_shape hd hk h0 h1] at h
      rcases hv : foldBinOpValue opcode lhs rhs with _ | _ | c
      · rfl
      · rw [hv] at h; simp at h
      · rw [hv] at h; simp at h
    · split at h
      · right; left; assumption
      · rename_i hc
        obtain ⟨I, predicate, lhs, rhs, hd, hk, h0, h1⟩ := (canFoldComp_true_iff F it).mp hc
        right; right; right
        refine ⟨I, predicate, lhs, rhs, hd, hk, h0, h1, ?_⟩
        rw [foldComp_eq_of_shape hd hk h0 h1] at h
        rcases hv : foldCompValue predicate lhs rhs with _ | _ | c
        · rfl
        · rw [hv] at h; simp at h
        · rw [hv] at h; simp at h
      · cases h

theorem classify_kind {I : Instruction} {c : ConstantInt} (h : classify I = some (some c)) :
    (isaBinaryOperator I = true ∨ isaICmpInst I = true) ∧
    ∃ lhs rhs, I.getOperand 0 = some (.constantInt lhs) ∧
      I.getOperand 1 = some (.constantInt rhs) := by
  unfold classify at h
  split at h
  · cases h
  · cases h
  · rename_i opcode lhs rhs hk h0 h1
    exact ⟨Or.inl (by simp [isaBinaryOperator, hk]), lhs, rhs, h0, h1⟩
  · cases h
  · cases h
  · cases h
  · rename_i predicate lhs rhs hk h0 h1
    exact ⟨Or.inr (by simp [isaICmpInst, hk]), lhs, rhs, h0, h1⟩
  · cases h
  · cases h

theorem ClassifiedStep.toFoldStep {F : Function} {b : Nat} {F1 : Function}
    (h : ClassifiedStep F b F1) : FoldStep F b F1 := by
  obtain ⟨pos, I, c, hd, hc, e⟩ := h
  exact ⟨pos, I, c, hd, (classify_kind hc).1, e⟩

theorem FoldSeq.toFolds {F F1 : Function} (h : FoldSeq F F1) : Folds F F1 := by
  induction h with
  | refl => exact Folds.refl _
  | step b hs _ ih => exact Folds.step b hs.toFoldStep ih

theorem FoldSeq_trans {F F1 F2 : Function} (h1 : FoldSeq F F1) (h2 : FoldSeq F1 F2) :
    FoldSeq F F2 := by
  induction h1 with
  | refl => exact h2
  | step b hs _ ih => exact FoldSeq.step b hs (ih h2)

theorem scanFrom_restart_classified {n : Nat} {F : Function} {it : Iterator} {F1 : Function}
    (h : scanFrom n F it = .restart F1) : ClassifiedStep F it.block F1 := by
  induction n generalizing F it with
  | zero => unfold scanFrom at h; cases h
  | succ n ih =>
    unfold scanFrom at h
    split at h
    · cases h
    · rename_i F2 hb
      cases h
      obtain ⟨I, c0, hd, _, _, _⟩ := loopBody_restart hb
      rw [loopBody_eq_classify hd] at hb
      rcases hc : classify I with _ | _ | c
      · rw [hc] at hb; cases hb
      · rw [hc] at hb; cases hb
      · rw [hc] at hb
        simp only [BodyResult.restart.injEq] at hb
        exact ⟨it.pos, I, c, hd, hc, hb.symm⟩
    · rename_i F2 hb
      have := loopBody_next hb
      subst this
      have h4 := ih h
      exact h4

theorem scanLoop_foldSeq {fuel : Nat} {F : Function} {b : Nat} {F1 : Function}
    (h : scanLoop fuel F b = .ok F1) : FoldSeq F F1 := by
  induction fuel generalizing F with
  | zero =>
    unfold scanLoop at h
    split at h
    · cases h
    · rename_i F2 hs
      cases h
      rw [scanFrom_finished hs]
      exact FoldSeq.refl _
    · cases h
  | succ fuel ih =>
    unfold scanLoop at h
    split at h
    · cases h
    · rename_i F2 hs
      cases h
      rw [scanFrom_finished hs]
      exact FoldSeq.refl _
    · rename_i F2 hs
      exact FoldSeq.step b (scanFrom_restart_classified hs) (ih h)

theorem runOnBlocks_foldSeq {k b : Nat} {F F1 : Function}
    (h : runOnBlocks k b F = .ok F1) : FoldSeq F F1 := by
  induction k generalizing b F with
  | zero => unfold runOnBlocks at h; cases h; exact FoldSeq.refl _
  | succ k ih =>
    unfold runOnBlocks at h
    split at h
    · rename_i F2 hb
      exact FoldSeq_trans (scanLoop_foldSeq hb) (ih h)
    · cases h
    · cases h

theorem runOnFunction_foldSeq {F : Function} {r : Bool} {F1 : Function}
    (h : runOnFunction F = .ok (r, F1)) : FoldSeq F F1 :=
  runOnBlocks_foldSeq (runOnFunction_ok h).2

theorem mem_flatten_iff_getBlock {F : Function} {I : Instruction} :
    I ∈ F.flatten ↔ ∃ k, I ∈ getBlock F k := by
  rw [List.mem_flatten]
  constructor
  · rintro ⟨B, hB, hI⟩
    obtain ⟨k, hk⟩ := mem_function_getBlock hB
    exact ⟨k, by rw [hk]; exact hI⟩
  · rintro ⟨k, hI⟩
    rcases getBlock_mem_or_nil F k with hm | hn
    · exact ⟨_, hm, hI⟩
    · rw [hn] at hI; cases hI

theorem ReplaceInstWithValue_eq_map_set {F : Function} {it : Iterator} {J : Instruction}
    (hd : deref F it = some J) (v : Value) :
    ReplaceInstWithValue F it v =
      (F.set it.block ((getBlock F it.block).eraseIdx it.pos)).map
        (fun B => B.map (fun X => X.replaceUsesOfWith J.id v)) := by
  obtain ⟨B, hB, _⟩ := deref_eq_some hd
  have hg : getBlock F it.block = B := by simp [getBlock, hB]
  unfold ReplaceInstWithValue
  rw [hd]
  simp only
  unfold eraseInst
  have hB2 : (replaceAllUsesWith J.id v F)[it.block]?
      = some (B.map (fun X => X.replaceUsesOfWith J.id v)) := by
    unfold replaceAllUsesWith
    rw [List.getElem?_map, hB]; rfl
  rw [hB2, hg]
  simp only
  unfold replaceAllUsesWith
  rw [List.map_set, map_eraseIdx_comm]

theorem flatten_set_eraseIdx (F : Function) (b pos : Nat) (J : Instruction)
    (hJ : (getBlock F b)[pos]? = some J) :
    ∃ pre post, F.flatten = pre ++ J :: post ∧
      (F.set b ((getBlock F b).eraseIdx pos)).flatten = pre ++ post := by
  induction F generalizing b with
  | nil => simp [getBlock] at hJ
  | cons B rest ih =>
    cases b with
    | zero =>
      rw [getBlock_cons_zero] at hJ ⊢
      refine ⟨B.take pos, B.drop (pos + 1) ++ rest.flatten, ?_, ?_⟩
      · have hlt : pos < B.length := by
          by_contra hc
          rw [List.getElem?_eq_none (by omega)] at hJ
          cases hJ
        have e : B = B.take pos ++ J :: B.drop (pos + 1) := by
          have h1 := List.take_append_drop pos B
          have h2 : B.drop pos = J :: B.drop (pos + 1) := by
            rw [List.drop_eq_getElem_cons hlt]
            congr 1
            rw [List.getElem?_eq_getElem hlt] at hJ
            exact Option.some.inj hJ
          rw [h2] at h1
          exact h1.symm
        rw [List.flatten_cons]
        conv_lhs => rw [e]
        simp
      · simp [List.eraseIdx_eq_take_drop_succ]
    | succ b =>
      rw [getBlock_cons_succ] at hJ ⊢
      obtain ⟨pre, post, h1, h2⟩ := ih b hJ
      refine ⟨B ++ pre, post, ?_, ?_⟩
      · simp [h1]
      · simp [h2]

theorem flatten_ReplaceInstWithValue {F : Function} {b pos : Nat} {J : Instruction}
    (hd : deref F { block := b, pos := pos } = some J) :
    ∃ pre post, F.flatten = pre ++ J :: post ∧
      ∀ v, (ReplaceInstWithValue F { block := b, pos := pos } v).flatten =
        (pre ++ post).map (fun X => X.replaceUsesOfWith J.id v) := by
  have hJ : (getBlock F b)[pos]? = some J := by
    rw [← deref_getBlock F { block := b, pos := pos }]; exact hd
  obtain ⟨pre, post, h1, h2⟩ := flatten_set_eraseIdx F b pos J hJ
  refine ⟨pre, post, h1, fun v => ?_⟩
  rw [ReplaceInstWithValue_eq_map_set hd v, ← List.map_flatten]
  simp only
  rw [h2]

theorem map_id_map_replaceUsesOfWith (l : List Instruction) (d : Nat) (v : Value) :
    (l.map (fun X => X.replaceUsesOfWith d v)).map Instruction.id = l.map Instruction.id := by
  rw [List.map_map]
  rfl

theorem step_ids {F : Function} {b pos : Nat} {J : Instruction}
    (hd : deref F { block := b, pos := pos } = some J) (hu : uniqueIds F) (v : Value) :
    uniqueIds (ReplaceInstWithValue F { block := b, pos := pos } v) ∧
    (∀ X ∈ (ReplaceInstWithValue F { block := b, pos := pos } v).flatten, X.id ≠ J.id) ∧
    (∀ X ∈ (ReplaceInstWithValue F { block := b, pos := pos } v).flatten,
      ∃ Y ∈ F.flatten, Y.id = X.id) := by
  obtain ⟨pre, post, h1, h2⟩ := flatten_ReplaceInstWithValue hd
  unfold uniqueIds at hu ⊢
  rw [h1] at hu
  simp only [List.map_append, List.map_cons] at hu
  have hsub : (pre.map Instruction.id ++ post.map Instruction.id).Sublist
      (pre.map Instruction.id ++ J.id :: post.map Instruction.id) :=
    List.Sublist.append (List.Sublist.refl _) (List.sublist_cons_self _ _)
  have hnot : J.id ∉ pre.map Instruction.id ++ post.map Instruction.id := by
    intro hm
    rw [List.nodup_append] at hu
    obtain ⟨_, hpost, hdis⟩ := hu
    rcases List.mem_append.mp hm with hp | hp
    · exact hdis hp (List.mem_cons_self _ _)
    · exact (List.nodup_cons.mp hpost).1 hp
  have hids : ((ReplaceInstWithValue F { block := b, pos := pos } v).flatten).map Instruction.id
      = pre.map Instruction.id ++ post.map Instruction.id := by
    rw [h2 v, map_id_map_replaceUsesOfWith, List.map_append]
  refine ⟨?_, ?_, ?_⟩
  · rw [hids]
    exact List.Nodup.sublist hsub hu
  · intro X hX e
    apply hnot
    rw [← hids, ← e]
    exact List.mem_map_of_mem _ hX
  · intro X hX
    have hm : X.id ∈ pre.map Instruction.id ++ post.map Instruction.id := by
      rw [← hids]; exact List.mem_map_of_mem _ hX
    have hm2 : X.id ∈ F.flatten.map Instruction.id := by
      rw [h1]
      simp only [List.map_append, List.map_cons]
      exact hsub.subset hm
    obtain ⟨Y, hY, e⟩ := List.mem_map.mp hm2
    exact ⟨Y, hY, e⟩

theorem eq_of_id_eq {F : Function} (hu : uniqueIds F) {I I0 : Instruction}
    (h1 : I ∈ F.flatten) (h2 : I0 ∈ F.flatten) (e : I.id = I0.id) : I = I0 :=
  List.inj_on_of_nodup_map hu h1 h2 e

theorem Folds_ids {F F1 : Function} (h : Folds F F1) (hu : uniqueIds F) :
    uniqueIds F1 ∧ ∀ X ∈ F1.flatten, ∃ Y ∈ F.flatten, Y.id = X.id := by
  induction h with
  | refl F => exact ⟨hu, fun X hX => ⟨X, hX, rfl⟩⟩
  | step b hs _ ih =>
    obtain ⟨pos, J, c, hd, _, rfl⟩ := hs
    obtain ⟨hu1, _, hsub⟩ := step_ids hd hu (.constantInt c)
    obtain ⟨hu2, hsub2⟩ := ih hu1
    refine ⟨hu2, fun X hX => ?_⟩
    obtain ⟨Y, hY, e⟩ := hsub2 X hX
    obtain ⟨Z, hZ, e2⟩ := hsub Y hY
    exact ⟨Z, hZ, e2.trans e⟩

theorem ReplaceInstWithValue_blockRel {F : Function} {b pos : Nat} {J : Instruction}
    (hd : deref F { block := b, pos := pos } = some J)
    (hk : isaBinaryOperator J = true ∨ isaICmpInst J = true) (c : ConstantInt) (k : Nat) :
    BlockRel [J.id] (getBlock F k)
      (getBlock (ReplaceInstWithValue F { block := b, pos := pos } (.constantInt c)) k) := by
  have hmem : (getBlock F b)[pos]? = some J := by
    rw [← deref_getBlock F { block := b, pos := pos }]; exact hd
  rw [getBlock_ReplaceInstWithValue F _ _ J hd k]
  by_cases e : k = b
  · subst e
    rw [if_pos rfl]
    exact BlockRel_erase_map c _ pos J hmem (List.mem_singleton.mpr rfl) hk
  · rw [if_neg e]
    exact BlockRel_map (List.mem_singleton.mpr rfl) c _

theorem Folds_rel_unique {F F1 : Function} (h : Folds F F1) (hu : uniqueIds F) :
    ∃ D : List Nat,
      (∀ k, BlockRel D (getBlock F k) (getBlock F1 k)) ∧
      (∀ d ∈ D, (∃ J ∈ F.flatten, J.id = d) ∧ ∀ J1 ∈ F1.flatten, J1.id ≠ d) := by
  induction h with
  | refl F => exact ⟨[], fun k => BlockRel_refl _ _, by simp⟩
  | @step F F1 F2 b hs hrest ih =>
    obtain ⟨pos, J, c, hd, hk, rfl⟩ := hs
    obtain ⟨hu1, hgone, hsub⟩ := step_ids hd hu (.constantInt c)
    obtain ⟨D, hrel2, hD⟩ := ih hu1
    have hJ : J ∈ F.flatten := by
      rw [deref_getBlock] at hd
      exact mem_flatten_iff_getBlock.mpr ⟨b, List.mem_iff_getElem?.mpr ⟨pos, hd⟩⟩
    have hids2 := (Folds_ids hrest hu1).2
    refine ⟨J.id :: D, ?_, ?_⟩
    · intro k
      exact BlockRel_trans
        (BlockRel_mono (fun x hx => by
          rw [List.mem_singleton.mp hx]; exact List.mem_cons_self _ _)
          (ReplaceInstWithValue_blockRel hd hk c k))
        (BlockRel_mono (fun x hx => List.mem_cons_of_mem _ hx) (hrel2 k))
    · intro d hdm
      rcases List.mem_cons.mp hdm with e | hm
      · subst e
        refine ⟨⟨J, hJ, rfl⟩, fun J1 hJ1 e1 => ?_⟩
        obtain ⟨Y, hY, eY⟩ := hids2 J1 hJ1
        exact hgone Y hY (eY.trans e1)
      · obtain ⟨⟨Y, hY, eY⟩, hno⟩ := hD d hm
        obtain ⟨Z, hZ, eZ⟩ := hsub Y hY
        exact ⟨⟨Z, hZ, eZ.trans eY⟩, hno⟩

theorem mem_getBlock_step {F : Function} {b pos : Nat} {J : Instruction}
    (hd : deref F { block := b, pos := pos } = some J) (v : Value) {k : Nat} {I : Instruction}
    (hI : I ∈ getBlock F k) (hne : I ≠ J) :
    I.replaceUsesOfWith J.id v ∈
      getBlock (ReplaceInstWithValue F { block := b, pos := pos } v) k := by
  rw [getBlock_ReplaceInstWithValue F _ _ J hd k]
  split
  · rename_i e
    apply List.mem_map_of_mem
    obtain ⟨p, hp⟩ := List.mem_iff_getElem?.mp hI
    rw [List.mem_eraseIdx_iff_getElem?]
    refine ⟨p, ?_, hp⟩
    intro ep
    rw [deref_getBlock] at hd
    simp only at e hd
    rw [ep, e, hd] at hp
    exact hne (Option.some.inj hp).symm
  · exact List.mem_map_of_mem _ hI

theorem replaceUsesOfWith_of_constants {I : Instruction}
    (h : ∀ v ∈ I.operands, isaConstantInt v = true) (d : Nat) (w : Value) :
    I.replaceUsesOfWith d w = I := by
  apply replaceUsesOfWith_eq_self
  intro hm
  have := h _ hm
  simp [isaConstantInt] at this

theorem FoldSeq_keeps_inert_constant {F F1 : Function} (h : FoldSeq F F1) {k : Nat}
    {I : Instruction} (hI : I ∈ getBlock F k)
    (hc : ∀ v ∈ I.operands, isaConstantInt v = true) (hn : classify I = some none) :
    I ∈ getBlock F1 k := by
  induction h with
  | refl => exact hI
  | step b hs _ ih =>
    obtain ⟨pos, J, c, hd, hcJ, rfl⟩ := hs
    apply ih
    have hne : I ≠ J := by
      intro e
      rw [e, hcJ] at hn
      cases hn
    have := mem_getBlock_step hd (.constantInt c) hI hne
    rwa [replaceUsesOfWith_of_constants hc] at this

theorem foldBinOpValue_unsupported {opcode : BinaryOps} (h : supportedOpcode opcode = false)
    (lhs rhs : ConstantInt) : foldBinOpValue opcode lhs rhs = some none := by
  cases opcode <;> simp [supportedOpcode] at h <;> rfl

theorem foldCompValue_unsupported {predicate : Predicate}
    (h : supportedPredicate predicate = false)
    (lhs rhs : ConstantInt) : foldCompValue predicate lhs rhs = some none := by
  cases predicate <;> simp [supportedPredicate] at h <;> rfl

theorem isUnsupportedConstOp_shape {I : Instruction} (h : isUnsupportedConstOp I = true) :
    ∃ lhs rhs, I.operands = [.constantInt lhs, .constantInt rhs] ∧
      ((∃ opcode, I.kind = .binaryOperator opcode ∧ supportedOpcode opcode = false) ∨
       (∃ predicate, I.kind = .iCmpInst predicate ∧ supportedPredicate predicate = false)) := by
  unfold isUnsupportedConstOp at h
  split at h
  · rename_i opcode lhs rhs hk hops
    exact ⟨lhs, rhs, hops, Or.inl ⟨opcode, hk, by simpa using h⟩⟩
  · rename_i predicate lhs rhs hk hops
    exact ⟨lhs, rhs, hops, Or.inr ⟨predicate, hk, by simpa using h⟩⟩
  · cases h

theorem isUnsupportedConstOp_inert {I : Instruction} (h : isUnsupportedConstOp I = true) :
    classify I = some none ∧ ∀ v ∈ I.operands, isaConstantInt v = true := by
  obtain ⟨lhs, rhs, hops, hk⟩ := isUnsupportedConstOp_shape h
  constructor
  · unfold classify
    rcases hk with ⟨opcode, hk, hs⟩ | ⟨predicate, hk, hs⟩
    · simp [hk, Instruction.getOperand, hops, foldBinOpValue_unsupported hs]
    · simp [hk, Instruction.getOperand, hops, foldCompValue_unsupported hs]
  · intro v hv
    rw [hops] at hv
    simp only [List.mem_cons, List.mem_singleton, List.not_mem_nil, or_false] at hv
    rcases hv with rfl | rfl <;> rfl

theorem forall₂_slotRel_getElem?_right {D : List Nat} {l l1 : List Value}
    (h : List.Forall₂ (slotRel D) l l1) (s : Nat) (v1 : Value) (hv : l1[s]? = some v1) :
    ∃ v, l[s]? = some v ∧ slotRel D v v1 := by
  induction h generalizing s with
  | nil => simp at hv
  | cons hx _ ih =>
    cases s with
    | zero =>
      simp only [List.getElem?_cons_zero, Option.some.injEq] at hv
      subst hv
      exact ⟨_, by simp, hx⟩
    | succ s =>
      simp only [List.getElem?_cons_succ] at hv ⊢
      exact ih s hv

theorem uses_preserved {F F1 : Function} (h : Folds F F1) (hu : uniqueIds F) {i : Nat}
    (hi : ∃ I1 ∈ F1.flatten, I1.id = i) :
    ∃ D : List Nat,
      (∀ k, BlockRel D (getBlock F k) (getBlock F1 k)) ∧
      (∀ d ∈ D, (∃ J ∈ F.flatten, J.id = d) ∧ ∀ J1 ∈ F1.flatten, J1.id ≠ d) ∧
      ∀ k2, ∀ J ∈ getBlock F k2, ∀ J1 ∈ getBlock F1 k2, J1.id = J.id →
        InstRel D J J1 ∧
        ∀ s : Nat, (J.operands[s]? = some (Value.instruction i) ↔
          J1.operands[s]? = some (Value.instruction i)) := by
  obtain ⟨D, hrel, hD⟩ := Folds_rel_unique h hu
  refine ⟨D, hrel, hD, ?_⟩
  have hiD : i ∉ D := by
    intro hm
    obtain ⟨I1, hI1, e⟩ := hi
    exact (hD i hm).2 I1 hI1 e
  intro k2 J hJ J1 hJ1 e
  obtain ⟨J0, hJ0, hr⟩ := BlockRel_mem_right (hrel k2) hJ1
  have e0 : J0 = J :=
    eq_of_id_eq hu (mem_flatten_iff_getBlock.mpr ⟨k2, hJ0⟩)
      (mem_flatten_iff_getBlock.mpr ⟨k2, hJ⟩) (by rw [← hr.1, e])
  subst e0
  refine ⟨hr, fun s => ⟨fun hs => ?_, fun hs => ?_⟩⟩
  · obtain ⟨v1, hv1, hsl⟩ := forall₂_slotRel_getElem? hr.2.2 s _ hs
    rcases hsl with e1 | ⟨j, c, hj, e1, _⟩
    · rw [hv1, e1]
    · cases e1; exact absurd hj hiD
  · obtain ⟨v, hv, hsl⟩ := forall₂_slotRel_getElem?_right hr.2.2 s _ hs
    rcases hsl with e1 | ⟨j, c, _, _, e2⟩
    · rw [hv, e1]
    · cases e2

/-- C12. On a binary operator with an unsupported opcode, or a comparison with an
unsupported predicate, whose two operands are integer constants, the `canFold` check says
yes, the fold function returns `false` and leaves the function as it was, and the loop body
falls through to the next instruction.  After a run of the pass that returns (identities
being unique), the instruction is in its block exactly as before, and an operand slot of a
surviving instruction references it afterwards exactly when it did before. -/
theorem unsupported_ops_are_skipped :
    (∀ (F : Function) (it : Iterator) (I : Instruction), deref F it = some I →
      isUnsupportedConstOp I = true →
      (isaBinaryOperator I = true →
        canFoldBinOp F it = some true ∧ foldBinOp F it = some (false, F)) ∧
      (isaICmpInst I = true →
        canFoldComp F it = some true ∧ foldComp F it = some (false, F)) ∧
      loopBody F it = .next F ∧
      ∀ n, scanFrom (n + 1) F it = scanFrom n F { block := it.block, pos := it.pos + 1 }) ∧
    (∀ (F : Function) (r : Bool) (F1 : Function), uniqueIds F →
      runOnFunction F = .ok (r, F1) →
      ∀ (k : Nat) (I : Instruction), I ∈ getBlock F k → isUnsupportedConstOp I = true →
        I ∈ getBlock F1 k ∧
        ∀ k2, ∀ J ∈ getBlock F k2, ∀ J1 ∈ getBlock F1 k2, J1.id = J.id →
          ∀ s : Nat, (J.operands[s]? = some (Value.instruction I.id) ↔
            J1.operands[s]? = some (Value.instruction I.id))) := by
  constructor
  · intro F it I hd hI
    obtain ⟨lhs, rhs, hops, hk⟩ := isUnsupportedConstOp_shape hI
    have h0 : I.getOperand 0 = some (.constantInt lhs) := by
      simp [Instruction.getOperand, hops]
    have h1 : I.getOperand 1 = some (.constantInt rhs) := by
      simp [Instruction.getOperand, hops]
    have hbody : loopBody F it = .next F := by
      rw [loopBody_eq_classify hd, (isUnsupportedConstOp_inert hI).1]
    refine ⟨?_, ?_, hbody, ?_⟩
    · intro hb
      rcases hk with ⟨opcode, hk, hs⟩ | ⟨predicate, hk, _⟩
      · refine ⟨(canFoldBinOp_true_iff F it).mpr ⟨I, opcode, lhs, rhs, hd, hk, h0, h1⟩, ?_⟩
        rw [foldBinOp_eq_of_shape hd hk h0 h1, foldBinOpValue_unsupported hs]
      · simp [isaBinaryOperator, hk] at hb
    · intro hb
      rcases hk with ⟨opcode, hk, _⟩ | ⟨predicate, hk, hs⟩
      · simp [isaICmpInst, hk] at hb
      · refine ⟨(canFoldComp_true_iff F it).mpr ⟨I, predicate, lhs, rhs, hd, hk, h0, h1⟩, ?_⟩
        rw [foldComp_eq_of_shape hd hk h0 h1, foldCompValue_unsupported hs]
    · intro n
      conv_lhs => unfold scanFrom
      rw [hbody]
  · intro F r F1 hu h k I hI hUn
    obtain ⟨hn, hc⟩ := isUnsupportedConstOp_inert hUn
    have hpres : I ∈ getBlock F1 k := FoldSeq_keeps_inert_constant (runOnFunction_foldSeq h) hI hc hn
    refine ⟨hpres, ?_⟩
    obtain ⟨D, _, _, huse⟩ := uses_preserved (runOnFunction_folds h) hu
      ⟨I, mem_flatten_iff_getBlock.mpr ⟨k, hpres⟩, rfl⟩
    intro k2 J hJ J1 hJ1 e s
    exact (huse k2 J hJ J1 hJ1 e).2 s

theorem getOperand_replaceUsesOfWith (I : Instruction) (d : Nat) (w : Value) (s : Nat) :
    (I.replaceUsesOfWith d w).getOperand s =
      (I.getOperand s).map (fun u => if u = Value.instruction d then w else u) := by
  simp [Instruction.replaceUsesOfWith, Instruction.getOperand, List.getElem?_map]

theorem FoldSeq_keeps_stuck {F F1 : Function} (h : FoldSeq F F1) (hu : uniqueIds F)
    {k : Nat} {I : Instruction} {s : Nat} {v : Value} (hI : I ∈ getBlock F k) (hs : s < 2)
    (hv : I.getOperand s = some v) (hnc : isaConstantInt v = false)
    (hnf : ∀ j, v = Value.instruction j → ¬ foldedAway F F1 j) :
    ∃ I1 ∈ getBlock F1 k, I1.id = I.id ∧ I1.getOperand s = some v := by
  induction h generalizing I with
  | refl => exact ⟨I, hI, rfl, hv⟩
  | @step F F1 F2 b hstep hrest ih =>
    obtain ⟨pos, J, c, hd, hcJ, rfl⟩ := hstep
    obtain ⟨hu1, hgone, hsub⟩ := step_ids hd hu (.constantInt c)
    have hne : I ≠ J := by
      intro e
      subst e
      obtain ⟨_, lhs, rhs, h0, h1⟩ := classify_kind hcJ
      have : s = 0 ∨ s = 1 := by omega
      rcases this with rfl | rfl
      · rw [h0] at hv; cases hv; simp [isaConstantInt] at hnc
      · rw [h1] at hv; cases hv; simp [isaConstantInt] at hnc
    have hJF : J ∈ F.flatten := by
      rw [deref_getBlock] at hd
      exact mem_flatten_iff_getBlock.mpr ⟨b, List.mem_iff_getElem?.mpr ⟨pos, hd⟩⟩
    have hids2 := (Folds_ids hrest.toFolds hu1).2
    have hvne : v ≠ Value.instruction J.id := by
      intro e
      apply hnf J.id e
      refine ⟨⟨J, hJF, rfl⟩, fun J1 hJ1 e1 => ?_⟩
      obtain ⟨Y, hY, eY⟩ := hids2 J1 hJ1
      exact hgone Y hY (eY.trans e1)
    have hmem := mem_getBlock_step hd (.constantInt c) hI hne
    have hop : (I.replaceUsesOfWith J.id (.constantInt c)).getOperand s = some v := by
      rw [getOperand_replaceUsesOfWith, hv]
      simp [hvne]
    have hnf1 : ∀ j, v = Value.instruction j →
        ¬ foldedAway (ReplaceInstWithValue F { block := b, pos := pos } (.constantInt c)) F2 j := by
      intro j e hfa
      apply hnf j e
      obtain ⟨⟨Y, hY, eY⟩, hno⟩ := hfa
      obtain ⟨Z, hZ, eZ⟩ := hsub Y hY
      exact ⟨⟨Z, hZ, eZ.trans eY⟩, hno⟩
    obtain ⟨I1, hI1, e1, hop1⟩ := ih hu1 hmem hop hnf1
    exact ⟨I1, hI1, e1, hop1⟩

/-- C13 (as amended). After a run of the pass that returns (identities being unique), an
instruction, in particular a binary operator or comparison, whose operand 0 or 1 is neither
an integer constant nor the result of an instruction that was folded is still in its block
with the same identity, class and number of operands; that operand is unchanged, every
other operand is unchanged or was the result of a folded instruction and now holds an
integer constant, and an operand slot of a surviving instruction references the
instruction afterwards exactly when it did before. -/
theorem partially_constant_is_kept (F : Function) (r : Bool) (F1 : Function)
    (hu : uniqueIds F) (h : runOnFunction F = .ok (r, F1))
    (k : Nat) (I : Instruction) (s : Nat) (v : Value) (hI : I ∈ getBlock F k) (hs : s < 2)
    (hv : I.getOperand s = some v) (hnc : isaConstantInt v = false)
    (hnf : ∀ j, v = Value.instruction j → ¬ foldedAway F F1 j) :
    ∃ I1 ∈ getBlock F1 k, I1.id = I.id ∧ I1.kind = I.kind ∧
      I1.operands.length = I.operands.length ∧ I1.getOperand s = some v ∧
      (∀ (s2 : Nat) (w : Value), I.operands[s2]? = some w →
        I1.operands[s2]? = some w ∨
        ∃ j c, w = Value.instruction j ∧ foldedAway F F1 j ∧
          I1.operands[s2]? = some (Value.constantInt c)) ∧
      (∀ k2, ∀ J ∈ getBlock F k2, ∀ J1 ∈ getBlock F1 k2, J1.id = J.id →
        ∀ s2 : Nat, (J.operands[s2]? = some (Value.instruction I.id) ↔
          J1.operands[s2]? = some (Value.instruction I.id))) := by
  obtain ⟨I1, hI1, e1, hop1⟩ := FoldSeq_keeps_stuck (runOnFunction_foldSeq h) hu hI hs hv hnc hnf
  obtain ⟨D, _, hD, huse⟩ := uses_preserved (runOnFunction_folds h) hu
    ⟨I1, mem_flatten_iff_getBlock.mpr ⟨k, hI1⟩, e1⟩
  obtain ⟨hr, _⟩ := huse k I hI I1 hI1 e1
  refine ⟨I1, hI1, e1, hr.2.1, (List.Forall₂.length_eq hr.2.2).symm, hop1, ?_, ?_⟩
  · intro s2 w hw
    obtain ⟨w1, hw1, hsl⟩ := forall₂_slotRel_getElem? hr.2.2 s2 w hw
    rcases hsl with e | ⟨j, c, hj, e2, e3⟩
    · left; rw [hw1, e]
    · right; exact ⟨j, c, e2, hD j hj, by rw [hw1, e3]⟩
  · intro k2 J hJ J1 hJ1 e s2
    exact (huse k2 J hJ J1 hJ1 e).2 s2

/-- C13 fails for "the same operands": in `t1 = add 2, 3; t2 = add t1, x; ret t2` the
operand `x` of `t2` is a function argument, but after the pass the other operand of
`t2` is the constant 5 instead of `t1`, so no instruction with the identity and the
operands of `t2` is left. -/
theorem partially_constant_operands_counterexample :
    runOnFunction partialExample = .ok (false, partialAfterPass) ∧
    ({ id := 2, kind := .binaryOperator .Add, operands := [.instruction 1, .other 7] } :
      Instruction) ∈ getBlock partialExample 0 ∧
    isaConstantInt (Value.other 7) = false ∧
    ¬ (∃ I1 ∈ getBlock partialAfterPass 0,
        I1.id = 2 ∧ I1.operands = [Value.instruction 1, Value.other 7]) ∧
    (∃ I1 ∈ getBlock partialAfterPass 0,
        I1.id = 2 ∧ I1.operands = [i32 5, Value.other 7]) := by
  decide

theorem partially_constant_is_kept_witness :
    uniqueIds partialExample ∧
    runOnFunction partialExample = .ok (false, partialAfterPass) ∧
    ∃ I1 ∈ getBlock partialAfterPass 0, I1.id = 2 ∧ I1.kind = .binaryOperator .Add ∧
      I1.getOperand 1 = some (Value.other 7) := by
  refine ⟨by decide, by decide, ?_⟩
  obtain ⟨I1, h1, h2, h3, _, h5, _⟩ :=
    partially_constant_is_kept partialExample false partialAfterPass (by decide) (by decide) 0
      { id := 2, kind := .binaryOperator .Add, operands := [.instruction 1, .other 7] }
      1 (.other 7) (by decide) (by decide) (by decide) (by decide)
      (fun j e => by cases e)
  exact ⟨I1, h1, h2, h3, h5⟩

theorem unsupported_ops_are_skipped_witness :
    uniqueIds unsupportedExample ∧
    runOnFunction unsupportedExample = .ok (false, unsupportedExample) ∧
    (({ id := 1, kind := .binaryOperator .And, operands := [i32 6, i32 3] } : Instruction)
        ∈ getBlock unsupportedExample 0) ∧
    loopBody unsupportedExample { block := 0, pos := 0 } = .next unsupportedExample :=
  ⟨by decide, by decide,
   (unsupported_ops_are_skipped.2 unsupportedExample false unsupportedExample (by decide)
      (by decide) 0 { id := 1, kind := .binaryOperator .And, operands := [i32 6, i32 3] }
      (by decide) (by decide)).1,
   (unsupported_ops_are_skipped.1 unsupportedExample { block := 0, pos := 0 }
      { id := 1, kind := .binaryOperator .And, operands := [i32 6, i32 3] }
      (by decide) (by decide)).2.2.1⟩

theorem operand_access_is_safe_witness :
    canFoldBinOp chainExample { block := 0, pos := 2 } = some false ∧
    canFoldBinOp chainExample { block := 0, pos := 0 } = some true ∧
    ∃ I opcode lhs rhs, deref chainExample { block := 0, pos := 0 } = some I ∧
      I.kind = .binaryOperator opcode ∧
      I.getOperand 0 = some (.constantInt lhs) ∧ I.getOperand 1 = some (.constantInt rhs) := by
  refine ⟨operand_access_is_safe.1 chainExample { block := 0, pos := 2 }
      { id := 3, kind := .other 1, operands := [.instruction 2] } (by decide) (by decide),
    by decide, ?_⟩
  obtain ⟨I, opcode, lhs, rhs, h1, h2, h3, h4, _⟩ :=
    operand_access_is_safe.2.2.2.1 chainExample { block := 0, pos := 0 } (by decide)
  exact ⟨I, opcode, lhs, rhs, h1, h2, h3, h4⟩

theorem usesOnly_spec {seen : List Nat} {I : Instruction} (h : usesOnly seen I = true)
    {j : Nat} (hj : Value.instruction j ∈ I.operands) : j ∈ seen := by
  unfold usesOnly at h
  rw [List.all_eq_true] at h
  have := h _ hj
  simpa using this

theorem definedBeforeUseFrom_spec {seen : List Nat} {B : BasicBlock}
    (h : definedBeforeUseFrom seen B = true) {m : Nat} {I : Instruction}
    (hI : B[m]? = some I) {j : Nat} (hj : Value.instruction j ∈ I.operands) :
    j ∈ seen ∨ ∃ n J, n < m ∧ B[n]? = some J ∧ J.id = j := by
  induction B generalizing seen m with
  | nil => simp at hI
  | cons X rest ih =>
    simp only [definedBeforeUseFrom, Bool.and_eq_true] at h
    cases m with
    | zero =>
      simp only [List.getElem?_cons_zero, Option.some.injEq] at hI
      subst hI
      exact Or.inl (usesOnly_spec h.1 hj)
    | succ m =>
      simp only [List.getElem?_cons_succ] at hI
      rcases ih h.2 hI with hs | ⟨n, J, hn, hJ, e⟩
      · rcases List.mem_cons.mp hs with e | hs2
        · exact Or.inr ⟨0, X, by omega, by simp, e.symm⟩
        · exact Or.inl hs2
      · exact Or.inr ⟨n + 1, J, by omega, by simpa using hJ, e⟩

theorem getElem?_inj_of_nodup_ids {B : BasicBlock} (hn : (B.map Instruction.id).Nodup)
    {n1 n2 : Nat} {J1 J2 : Instruction} (h1 : B[n1]? = some J1) (h2 : B[n2]? = some J2)
    (e : J1.id = J2.id) : n1 = n2 := by
  have g1 : (B.map Instruction.id)[n1]? = some J1.id := by rw [List.getElem?_map, h1]; rfl
  have g2 : (B.map Instruction.id)[n2]? = some J1.id := by rw [List.getElem?_map, h2, e]; rfl
  obtain ⟨l1, e1⟩ := List.getElem?_eq_some.mp g1
  obtain ⟨l2, e2⟩ := List.getElem?_eq_some.mp g2
  exact (List.Nodup.getElem_inj_iff hn).mp (e1.trans e2.symm)

theorem UsesFollowDefs_of_definedBeforeUse {B : BasicBlock} (h : definedBeforeUse B = true)
    (hn : (B.map Instruction.id).Nodup) : UsesFollowDefs B := by
  intro n m J I hJ hI hmem
  rcases definedBeforeUseFrom_spec h hI hmem with hs | ⟨n1, J1, hlt, hJ1, e⟩
  · cases hs
  · have := getElem?_inj_of_nodup_ids hn hJ1 hJ e
    omega

theorem scanFrom_skip {q : Nat} (n : Nat) {F : Function} {b p0 : Nat}
    (h : ∀ p, p0 ≤ p → p < p0 + q →
      ∃ I, deref F { block := b, pos := p } = some I ∧ classify I = some none) :
    scanFrom (q + n) F { block := b, pos := p0 } = scanFrom n F { block := b, pos := p0 + q } := by
  induction q generalizing p0 with
  | zero => simp
  | succ q ih =>
    obtain ⟨I, hd, hc⟩ := h p0 (le_refl _) (by omega)
    have e : q + 1 + n = (q + n) + 1 := by omega
    rw [e]
    conv_lhs => unfold scanFrom
    rw [loopBody_eq_classify hd, hc]
    simp only
    rw [ih (fun p h1 h2 => h p (by omega) (by omega))]
    congr 2
    omega

theorem mem_operands_of_replaceUsesOfWith {I : Instruction} {x d : Nat} {c : ConstantInt}
    (h : Value.instruction d ∈ (I.replaceUsesOfWith x (.constantInt c)).operands) :
    Value.instruction d ∈ I.operands := by
  simp only [Instruction.replaceUsesOfWith, List.mem_map] at h
  obtain ⟨u, hu, e⟩ := h
  by_cases hx : u = Value.instruction x
  · rw [if_pos hx] at e; cases e
  · rw [if_neg hx] at e; rw [← e]; exact hu

theorem getElem?_eraseIdx_map {B : BasicBlock} {pos n : Nat} {f : Instruction → Instruction}
    {X : Instruction} (h : ((B.eraseIdx pos).map f)[n]? = some X) :
    ∃ X0, B[if n < pos then n else n + 1]? = some X0 ∧ X = f X0 := by
  rw [List.getElem?_map, List.getElem?_eraseIdx] at h
  split at h
  · rename_i hlt
    rw [if_pos hlt]
    cases hB : B[n]? with
    | none => rw [hB] at h; cases h
    | some X0 => rw [hB] at h; exact ⟨X0, rfl, (Option.some.inj h).symm⟩
  · rename_i hlt
    rw [if_neg hlt]
    cases hB : B[n + 1]? with
    | none => rw [hB] at h; cases h
    | some X0 => rw [hB] at h; exact ⟨X0, rfl, (Option.some.inj h).symm⟩

theorem UsesFollowDefs_step {B : BasicBlock} (hK : UsesFollowDefs B) (pos x : Nat)
    (c : ConstantInt) :
    UsesFollowDefs ((B.eraseIdx pos).map (fun X => X.replaceUsesOfWith x (.constantInt c))) := by
  intro n m J I hJ hI hmem
  obtain ⟨J0, hJ0, eJ⟩ := getElem?_eraseIdx_map hJ
  obtain ⟨I0, hI0, eI⟩ := getElem?_eraseIdx_map hI
  rw [eJ, eI] at hmem
  have := hK _ _ J0 I0 hJ0 hI0 (mem_operands_of_replaceUsesOfWith hmem)
  split at this <;> split at this <;> omega

theorem prefix_unchanged_step {B : BasicBlock} (hK : UsesFollowDefs B) {pos : Nat}
    {J : Instruction} (hJ : B[pos]? = some J) (c : ConstantInt) {p : Nat} (hp : p < pos) :
    ((B.eraseIdx pos).map (fun X => X.replaceUsesOfWith J.id (.constantInt c)))[p]? = B[p]? := by
  rw [List.getElem?_map, List.getElem?_eraseIdx, if_pos hp]
  cases hB : B[p]? with
  | none => rfl
  | some X =>
    simp only [Option.map_some']
    congr 1
    apply replaceUsesOfWith_eq_self
    intro hmem
    have := hK pos p J X hJ hB hmem
    omega

theorem scanLoop_eq_sweepFrom (b : Nat) (m : Nat) :
    ∀ (F : Function) (pos fuel : Nat), UsesFollowDefs (getBlock F b) →
      (∀ p, p < pos → ∃ I, (getBlock F b)[p]? = some I ∧ classify I = some none) →
      (getBlock F b).length = pos + m → m ≤ fuel →
      scanLoop fuel F b = sweepFrom m F { block := b, pos := pos } := by
  induction m with
  | zero =>
    intro F pos fuel _ hpre hlen _
    have hin : ∀ I ∈ getBlock F b, classify I = some none := by
      intro I hI
      obtain ⟨p, hp⟩ := List.mem_iff_getElem?.mp hI
      have hlt : p < (getBlock F b).length := by
        by_contra hc
        rw [List.getElem?_eq_none (by omega)] at hp
        cases hp
      obtain ⟨I0, h0, hc⟩ := hpre p (by omega)
      rw [h0] at hp
      cases hp
      exact hc
    rw [scanLoop_of_inert fuel hin]
    rfl
  | succ m ih =>
    intro F pos fuel hK hpre hlen hfuel
    have hlt : pos < (getBlock F b).length := by omega
    have hI : (getBlock F b)[pos]? = some (getBlock F b)[pos] := List.getElem?_eq_getElem hlt
    generalize (getBlock F b)[pos] = I at hI
    have hd : deref F { block := b, pos := pos } = some I := by
      rw [deref_getBlock]; exact hI
    have hskip : scanFrom (blockSize F b) F { block := b, pos := 0 }
        = scanFrom (m + 1) F { block := b, pos := pos } := by
      rw [blockSize_eq, hlen]
      have := @scanFrom_skip pos (m + 1) F b 0
        (fun p _ h2 => by
          obtain ⟨X, hX, hc⟩ := hpre p (by omega)
          exact ⟨X, by rw [deref_getBlock]; exact hX, hc⟩)
      simpa using this
    have hbody := loopBody_eq_classify hd
    rcases hc : classify I with _ | _ | c
    · rw [hc] at hbody
      have e1 : scanLoop fuel F b = .abort := by
        cases fuel <;> (unfold scanLoop; rw [hskip]; unfold scanFrom; rw [hbody])
      rw [e1]
      unfold sweepFrom
      rw [hbody]
    · rw [hc] at hbody
      have e2 : sweepFrom (m + 1) F { block := b, pos := pos }
          = sweepFrom m F { block := b, pos := pos + 1 } := by
        conv_lhs => unfold sweepFrom
        rw [hbody]
      rw [e2]
      apply ih F (pos + 1) fuel hK _ (by omega) (by omega)
      intro p hp
      by_cases e : p = pos
      · subst e; exact ⟨I, hI, hc⟩
      · exact hpre p (by omega)
    · rw [hc] at hbody
      simp only at hbody
      have e2 : sweepFrom (m + 1) F { block := b, pos := pos }
          = sweepFrom m (ReplaceInstWithValue F { block := b, pos := pos } (.constantInt c))
              { block := b, pos := pos } := by
        conv_lhs => unfold sweepFrom
        rw [hbody]
      obtain ⟨fuel1, rfl⟩ : ∃ f, fuel = f + 1 := ⟨fuel - 1, by omega⟩
      have e1 : scanLoop (fuel1 + 1) F b
          = scanLoop fuel1 (ReplaceInstWithValue F { block := b, pos := pos } (.constantInt c)) b := by
        conv_lhs => unfold scanLoop
        rw [hskip]
        conv_lhs => unfold scanFrom
        rw [hbody]
      rw [e1, e2]
      have hblk := getBlock_ReplaceInstWithValue F { block := b, pos := pos } (.constantInt c) I hd b
      simp only [if_true] at hblk
      apply ih _ pos fuel1
      · rw [hblk]; exact UsesFollowDefs_step hK pos I.id c
      · intro p hp
        obtain ⟨X, hX, hcX⟩ := hpre p hp
        refine ⟨X, ?_, hcX⟩
        rw [hblk, prefix_unchanged_step hK hI c hp]
        exact hX
      · rw [hblk, List.length_map, List.length_eraseIdx, if_pos hlt]
        omega
      · omega

/-- C16. For a single-block function whose instructions have distinct identities and in
which every operand is a constant, an opaque value, or the result of an instruction earlier
in the block, the instruction loop with its restarts gives exactly the outcome of a single
forward sweep that folds at the cursor and goes on with the following instruction; so
`runOnFunction` leaves the block the sweep leaves. -/
theorem restart_equals_forward_sweep (B : BasicBlock) (hdef : definedBeforeUse B = true)
    (hn : (B.map Instruction.id).Nodup) :
    runOnBlock [B] 0 = forwardSweep [B] 0 ∧
    runOnFunction [B] =
      match forwardSweep [B] 0 with
      | .ok F1 => .ok (false, F1)
      | .abort => .abort
      | .outOfFuel => .outOfFuel := by
  have hK : UsesFollowDefs (getBlock [B] 0) := by
    rw [getBlock_cons_zero]
    exact UsesFollowDefs_of_definedBeforeUse hdef hn
  have h1 : runOnBlock [B] 0 = forwardSweep [B] 0 := by
    unfold runOnBlock forwardSweep
    rw [blockSize_eq]
    exact scanLoop_eq_sweepFrom 0 _ [B] 0 _ hK (fun p hp => absurd hp (Nat.not_lt_zero p))
      (by omega) (le_refl _)
  refine ⟨h1, ?_⟩
  unfold runOnFunction
  simp only [List.length_singleton]
  unfold runOnBlocks
  rw [h1]
  cases forwardSweep [B] 0 <;> rfl

theorem restart_equals_forward_sweep_witness :
    definedBeforeUse
      [{ id := 1, kind := .binaryOperator .Add, operands := [i32 2, i32 3] },
       { id := 2, kind := .binaryOperator .Mul, operands := [.instruction 1, i32 4] },
       { id := 3, kind := .other 1, operands := [.instruction 2] }] = true ∧
    forwardSweep chainExample 0 = .ok chainAfterPass ∧
    runOnBlock chainExample 0 = forwardSweep chainExample 0 :=
  ⟨by decide, by decide,
   (restart_equals_forward_sweep
      [{ id := 1, kind := .binaryOperator .Add, operands := [i32 2, i32 3] },
       { id := 2, kind := .binaryOperator .Mul, operands := [.instruction 1, i32 4] },
       { id := 3, kind := .other 1, operands := [.instruction 2] }]
      (by decide) (by decide)).1⟩

theorem getSExtValue_eq {c : ConstantInt} {a : Int} (h : c.getSExtValue = some a) :
    a = c.signedValue := by
  unfold ConstantInt.getSExtValue at h
  split at h
  · exact (Option.some.inj h).symm
  · cases h

theorem getSigned_wrap64 (w : Nat) (hw : w ≤ 64) (x : Int) :
    getSigned w (wrap64 x) = getSigned w x := by
  unfold ConstantInt.getSigned
  rw [emod_wrap64 w hw x]

theorem sdiv64_eq_some {a b q : Int} (h : sdiv64 a b = some q) : b ≠ 0 ∧ q = Int.tdiv a b := by
  unfold sdiv64 at h
  split at h
  · cases h
  · rename_i hb
    split at h
    · cases h
    · exact ⟨hb, (Option.some.inj h).symm⟩

theorem foldBinOpValue_sem (σ : Interp) {opcode : BinaryOps} {lhs rhs c : ConstantInt}
    (h : foldBinOpValue opcode lhs rhs = some (some c)) (hw : lhs.width ≤ 64) :
    semBinOp σ opcode lhs rhs = some c ∧ c.width ≤ 64 := by
  cases opcode <;> simp only [foldBinOpValue] at h <;> try (cases h)
  all_goals
    cases ha : lhs.getSExtValue with
    | none => rw [ha] at h; cases h
    | some a =>
      cases hb : rhs.getSExtValue with
      | none => rw [ha, hb] at h; cases h
      | some b =>
        rw [ha, hb] at h
        have ea := getSExtValue_eq ha
        have eb := getSExtValue_eq hb
        subst ea eb
        simp only at h
        first
        | (simp only [Option.some.injEq] at h
           subst h
           refine ⟨?_, hw⟩
           simp only [semBinOp]
           rw [getSigned_wrap64 _ hw])
        | (cases hq : sdiv64 lhs.signedValue rhs.signedValue with
           | none => rw [hq] at h; cases h
           | some q =>
             rw [hq] at h
             simp only [Option.some.injEq] at h
             subst h
             obtain ⟨hb0, rfl⟩ := sdiv64_eq_some hq
             refine ⟨?_, hw⟩
             simp only [semBinOp]
             rw [if_neg hb0])

theorem foldCompValue_sem (σ : Interp) {predicate : Predicate} {lhs rhs : ConstantInt} {r : Bool}
    (h : foldCompValue predicate lhs rhs = some (some r)) :
    semICmp σ predicate lhs rhs =
      some (if r then ConstantInt.getTrue else ConstantInt.getFalse) := by
  cases predicate <;> simp only [foldCompValue] at h <;> try (cases h)
  all_goals
    cases ha : lhs.getSExtValue with
    | none => rw [ha] at h; cases h
    | some a =>
      cases hb : rhs.getSExtValue with
      | none => rw [ha, hb] at h; cases h
      | some b =>
        rw [ha, hb] at h
        have ea := getSExtValue_eq ha
        have eb := getSExtValue_eq hb
        subst ea eb
        simp only [Option.some.injEq] at h
        subst h
        simp [semICmp]

theorem constantsFit64_spec {F : Function} (h : constantsFit64 F = true) : AllFit64 F.flatten := by
  intro I hI c hc
  obtain ⟨B, hB, hIB⟩ := List.mem_flatten.mp hI
  unfold constantsFit64 at h
  rw [List.all_eq_true] at h
  have h1 := h B hB
  rw [List.all_eq_true] at h1
  have h2 := h1 I hIB
  rw [List.all_eq_true] at h2
  have h3 := h2 _ hc
  simpa using h3

theorem mem_operands_of_getOperand {I : Instruction} {s : Nat} {v : Value}
    (h : I.getOperand s = some v) : v ∈ I.operands := by
  unfold Instruction.getOperand at h
  exact List.mem_iff_getElem?.mpr ⟨s, h⟩

theorem classify_sem (σ : Interp) {J : Instruction} {c : ConstantInt}
    (h : classify J = some (some c))
    (hw : ∀ c0 : ConstantInt, Value.constantInt c0 ∈ J.operands → c0.width ≤ 64) :
    (∀ env : Env, semInst σ env J = some c) ∧ c.width ≤ 64 := by
  unfold classify at h
  split at h
  · cases h
  · cases h
  · rename_i opcode lhs rhs hk h0 h1
    obtain ⟨hs, hc⟩ := foldBinOpValue_sem σ h (hw lhs (mem_operands_of_getOperand h0))
    refine ⟨fun env => ?_, hc⟩
    simp [semInst, hk, operandValue, h0, h1, evalOperand, hs]
  · cases h
  · cases h
  · cases h
  · rename_i predicate lhs rhs hk h0 h1
    cases hv : foldCompValue predicate lhs rhs with
    | none => rw [hv] at h; cases h
    | some o =>
      cases o with
      | none => rw [hv] at h; cases h
      | some r =>
        rw [hv] at h
        simp only [Option.some.injEq] at h
        subst h
        have hs := foldCompValue_sem σ hv
        refine ⟨fun env => ?_, by split <;> decide⟩
        simp [semInst, hk, operandValue, h0, h1, evalOperand, hs]
  · cases h
  · cases h

theorem evalOperand_replace (σ : Interp) {env env1 : Env} {d : Nat} {c : ConstantInt}
    (hagree : ∀ x, x ≠ d → env1 x = env x) (hd : env d = some c) (v : Value) :
    evalOperand σ env1 (if v = Value.instruction d then Value.constantInt c else v) =
      evalOperand σ env v := by
  by_cases e : v = Value.instruction d
  · rw [if_pos e, e]
    simp [evalOperand, hd]
  · rw [if_neg e]
    cases v with
    | instruction j =>
      have : j ≠ d := fun h => e (by rw [h])
      simp [evalOperand, hagree j this]
    | _ => rfl

theorem operandValue_replace (σ : Interp) {env env1 : Env} {d : Nat} {c : ConstantInt}
    (hagree : ∀ x, x ≠ d → env1 x = env x) (hd : env d = some c) (I : Instruction) (s : Nat) :
    operandValue σ env1 (I.replaceUsesOfWith d (.constantInt c)) s = operandValue σ env I s := by
  unfold operandValue
  rw [getOperand_replaceUsesOfWith]
  cases I.getOperand s with
  | none => rfl
  | some v => exact evalOperand_replace σ hagree hd v

theorem semInst_replace (σ : Interp) {env env1 : Env} {d : Nat} {c : ConstantInt}
    (hagree : ∀ x, x ≠ d → env1 x = env x) (hd : env d = some c) (I : Instruction) :
    semInst σ env1 (I.replaceUsesOfWith d (.constantInt c)) = semInst σ env I := by
  unfold semInst
  rw [operandValue_replace σ hagree hd I 0, operandValue_replace σ hagree hd I 1]
  rfl

theorem evalInsts_append (σ : Interp) (env : Env) (l1 l2 : List Instruction) :
    evalInsts σ env (l1 ++ l2) = evalInsts σ (evalInsts σ env l1) l2 := by
  induction l1 generalizing env with
  | nil => rfl
  | cons X xs ih => simp only [List.cons_append, evalInsts]; exact ih _

theorem evalInsts_replace (σ : Interp) {d : Nat} {c : ConstantInt} (post : List Instruction)
    (hid : ∀ X ∈ post, X.id ≠ d) :
    ∀ (env env1 : Env), (∀ x, x ≠ d → env1 x = env x) → env d = some c →
      ∀ x, x ≠ d →
        evalInsts σ env1 (post.map (fun X => X.replaceUsesOfWith d (.constantInt c))) x =
          evalInsts σ env post x := by
  induction post with
  | nil => intro env env1 hagree _ x hx; exact hagree x hx
  | cons X rest ih =>
    intro env env1 hagree hd x hx
    simp only [List.map_cons, evalInsts]
    have hXd : X.id ≠ d := hid X (List.mem_cons_self _ _)
    apply ih (fun Y hY => hid Y (List.mem_cons_of_mem _ hY))
    · intro y hy
      show (if y = X.id then _ else env1 y) = (if y = X.id then _ else env y)
      by_cases e : y = X.id
      · rw [if_pos e, if_pos e]
        exact semInst_replace σ hagree hd X
      · rw [if_neg e, if_neg e]
        exact hagree y hy
    · show (if d = X.id then _ else env d) = some c
      rw [if_neg (fun e => hXd e.symm)]
      exact hd
    · exact hx

theorem eraseIdx_append_length (pre post : List Instruction) (J : Instruction) :
    (pre ++ J :: post).eraseIdx pre.length = pre ++ post := by
  induction pre with
  | nil => rfl
  | cons X xs ih => simp only [List.cons_append, List.length_cons, List.eraseIdx_cons_succ, ih]

theorem step_sem (σ : Interp) {F : Function} {b pos : Nat} {J : Instruction} {c : ConstantInt}
    (hd : deref F { block := b, pos := pos } = some J) (hc : classify J = some (some c))
    (hu : uniqueIds F) (hK : UsesFollowDefs F.flatten) (hw : AllFit64 F.flatten) :
    (∀ x, x ≠ J.id →
      evalFunction σ (ReplaceInstWithValue F { block := b, pos := pos } (.constantInt c)) x =
        evalFunction σ F x) ∧
    UsesFollowDefs (ReplaceInstWithValue F { block := b, pos := pos } (.constantInt c)).flatten ∧
    AllFit64 (ReplaceInstWithValue F { block := b, pos := pos } (.constantInt c)).flatten := by
  obtain ⟨pre, post, h1, h2⟩ := flatten_ReplaceInstWithValue hd
  have hJmem : J ∈ F.flatten := by rw [h1]; simp
  obtain ⟨hsem, hcw⟩ := classify_sem σ hc (fun c0 hc0 => hw J hJmem c0 hc0)
  have hJat : (F.flatten)[pre.length]? = some J := by
    rw [h1, List.getElem?_append_right (le_refl _)]
    simp
  have hpre : pre.map (fun X => X.replaceUsesOfWith J.id (.constantInt c)) = pre := by
    conv_rhs => rw [← List.map_id pre]
    apply List.map_congr_left
    intro X hX
    apply replaceUsesOfWith_eq_self
    intro hmem
    obtain ⟨n, hn⟩ := List.mem_iff_getElem?.mp hX
    have hlt : n < pre.length := by
      by_contra hcon
      rw [List.getElem?_eq_none (by omega)] at hn
      cases hn
    have hXat : (F.flatten)[n]? = some X := by
      rw [h1, List.getElem?_append_left hlt]; exact hn
    have := hK pre.length n J X hJat hXat hmem
    omega
  have hpost : ∀ X ∈ post, X.id ≠ J.id := by
    intro X hX e
    unfold uniqueIds at hu
    rw [h1] at hu
    simp only [List.map_append, List.map_cons] at hu
    rw [List.nodup_append] at hu
    exact (List.nodup_cons.mp hu.2.1).1 (by rw [← e]; exact List.mem_map_of_mem _ hX)
  refine ⟨?_, ?_, ?_⟩
  · intro x hx
    unfold evalFunction
    rw [h2, h1, List.map_append, hpre, evalInsts_append, evalInsts_append]
    simp only [evalInsts]
    apply evalInsts_replace σ post hpost _ _ _ _ x hx
    · intro y hy
      rw [if_neg hy]
    · rw [if_pos rfl]
      exact hsem _
  · rw [h2, ← eraseIdx_append_length pre post J, ← h1]
    exact UsesFollowDefs_step hK _ _ _
  · rw [h2]
    intro X hX c0 hc0
    obtain ⟨X0, hX0, rfl⟩ := List.mem_map.mp hX
    simp only [Instruction.replaceUsesOfWith, List.mem_map] at hc0
    obtain ⟨u, hu0, e⟩ := hc0
    have hX0F : X0 ∈ F.flatten := by
      rw [h1]
      rcases List.mem_append.mp hX0 with hp | hp
      · exact List.mem_append_left _ hp
      · exact List.mem_append_right _ (List.mem_cons_of_mem _ hp)
    by_cases hx : u = Value.instruction J.id
    · rw [if_pos hx] at e
      cases e
      exact hcw
    · rw [if_neg hx] at e
      rw [e] at hu0
      exact hw X0 hX0F c0 hu0

theorem FoldSeq_sem (σ : Interp) {F F1 : Function} (h : FoldSeq F F1) (hu : uniqueIds F)
    (hK : UsesFollowDefs F.flatten) (hw : AllFit64 F.flatten) :
    ∀ I1 ∈ F1.flatten, evalFunction σ F1 I1.id = evalFunction σ F I1.id := by
  induction h with
  | refl => intro I1 _; rfl
  | @step F F1 F2 b hstep hrest ih =>
    obtain ⟨pos, J, c, hd, hc, rfl⟩ := hstep
    obtain ⟨hu1, hgone, _⟩ := step_ids hd hu (.constantInt c)
    obtain ⟨hsem, hK1, hw1⟩ := step_sem σ hd hc hu hK hw
    intro I1 hI1
    rw [ih hu1 hK1 hw1 I1 hI1]
    apply hsem
    obtain ⟨Y, hY, eY⟩ := (Folds_ids hrest.toFolds hu1).2 I1 hI1
    rw [← eY]
    exact hgone Y hY

/-- C15 (as amended). For a function with unique instruction identities in which every
operand that is the result of an instruction is the result of an earlier instruction (in
the order of the block list) and every integer constant has a bit width of at most 64:
if the pass returns, every instruction that is left has, under two's-complement semantics
in the bit width of its left operand (signed comparisons yielding 1-bit booleans), the
value it had in the original function, for every assignment of the opaque inputs and
every meaning of the operations the pass does not evaluate. -/
theorem runOnFunction_preserves_values (σ : Interp) (F : Function) (r : Bool) (F1 : Function)
    (hu : uniqueIds F) (hdef : definedBeforeUse F.flatten = true)
    (hw : constantsFit64 F = true) (h : runOnFunction F = .ok (r, F1)) :
    ∀ I1 ∈ F1.flatten, evalFunction σ F1 I1.id = evalFunction σ F I1.id :=
  FoldSeq_sem σ (runOnFunction_foldSeq h) hu (UsesFollowDefs_of_definedBeforeUse hdef hu)
    (constantsFit64_spec hw)

/-- C15 fails for bit widths above 64: in `s = add i65 (2^63 - 1), 1; t = add i65 s, x`
with `x = 0` the instruction `t` has the value `2^63` in the original function, but the
pass folds `s` to `-2^63`, and `t`, which survives, then has the value `-2^63`. -/
theorem runOnFunction_changes_value_counterexample :
    uniqueIds wideSemanticsExample ∧
    definedBeforeUse wideSemanticsExample.flatten = true ∧
    runOnFunction wideSemanticsExample = .ok (false, wideSemanticsAfterPass) ∧
    (∃ I1 ∈ wideSemanticsAfterPass.flatten, I1.id = 2) ∧
    evalFunction zeroInterp65 wideSemanticsExample 2 = some (getSigned 65 (2 ^ 63)) ∧
    evalFunction zeroInterp65 wideSemanticsAfterPass 2 = some (getSigned 65 (-(2 ^ 63))) ∧
    evalFunction zeroInterp65 wideSemanticsAfterPass 2 ≠
      evalFunction zeroInterp65 wideSemanticsExample 2 := by
  decide

theorem runOnFunction_preserves_values_witness :
    uniqueIds partialExample ∧ definedBeforeUse partialExample.flatten = true ∧
    constantsFit64 partialExample = true ∧
    runOnFunction partialExample = .ok (false, partialAfterPass) ∧
    evalFunction tenInterp32 partialExample 2 = some (getSigned 32 15) ∧
    ∀ I1 ∈ partialAfterPass.flatten,
      evalFunction tenInterp32 partialAfterPass I1.id = evalFunction tenInterp32 partialExample I1.id :=
  ⟨by decide, by decide, by decide, by decide, by decide,
   runOnFunction_preserves_values tenInterp32 partialExample false partialAfterPass
     (by decide) (by decide) (by decide) (by decide)⟩

theorem getBlock_append_length (done rest : Function) (B : BasicBlock) :
    getBlock (done ++ B :: rest) done.length = B := by
  unfold getBlock
  rw [List.getElem?_append_right (le_refl _)]
  simp

theorem set_append_length (done rest : Function) (B X : BasicBlock) :
    (done ++ B :: rest).set done.length X = done ++ X :: rest := by
  rw [List.set_append, if_neg (Nat.lt_irrefl _)]
  simp

theorem deref_append_length (done rest : Function) (B : BasicBlock) (p : Nat) :
    deref (done ++ B :: rest) { block := done.length, pos := p } = B[p]? := by
  rw [deref_getBlock, getBlock_append_length]

theorem loopBody_abort_of_deref_none {F : Function} {it : Iterator} (h : deref F it = none) :
    loopBody F it = .abort := by
  unfold loopBody canFoldBinOp
  rw [h]

theorem blockSize_append_length (done rest : Function) (B : BasicBlock) :
    blockSize (done ++ B :: rest) done.length = B.length := by
  rw [blockSize_eq, getBlock_append_length]

theorem findFold_some {n : Nat} {B : BasicBlock} {p q j : Nat} {c : ConstantInt}
    (h : findFold n B p = some (some (q, j, c))) :
    ∃ J, B[q]? = some J ∧ J.id = j ∧ classify J = some (some c) := by
  induction n generalizing p with
  | zero => unfold findFold at h; cases h
  | succ n ih =>
    unfold findFold at h
    cases hJ : B[p]? with
    | none => rw [hJ] at h; cases h
    | some J =>
      rw [hJ] at h
      simp only at h
      rcases hc : classify J with _ | _ | c1
      · rw [hc] at h; cases h
      · rw [hc] at h; exact ih h
      · rw [hc] at h
        simp only [Option.some.injEq, Prod.mk.injEq] at h
        obtain ⟨rfl, rfl, rfl⟩ := h
        exact ⟨J, hJ, rfl, hc⟩

theorem ReplaceInstWithValue_context (done rest : Function) (B : BasicBlock) (p : Nat)
    (J : Instruction) (hJ : B[p]? = some J) (v : Value) :
    ReplaceInstWithValue (done ++ B :: rest) { block := done.length, pos := p } v =
      done.map (List.map (fun X => X.replaceUsesOfWith J.id v)) ++
        ((B.eraseIdx p).map (fun X => X.replaceUsesOfWith J.id v)) ::
        rest.map (List.map (fun X => X.replaceUsesOfWith J.id v)) := by
  have hd : deref (done ++ B :: rest) { block := done.length, pos := p } = some J := by
    rw [deref_append_length]; exact hJ
  rw [ReplaceInstWithValue_eq_map_set hd v]
  simp only
  rw [getBlock_append_length, set_append_length, List.map_append, List.map_cons]

theorem scanFrom_context (done rest : Function) (B : BasicBlock) (n : Nat) :
    ∀ (p : Nat),
      scanFrom n (done ++ B :: rest) { block := done.length, pos := p } =
        match findFold n B p with
        | none => .abort
        | some none => .finished (done ++ B :: rest)
        | some (some (q, j, c)) =>
          .restart (done.map (List.map (fun X => X.replaceUsesOfWith j (.constantInt c))) ++
            ((B.eraseIdx q).map (fun X => X.replaceUsesOfWith j (.constantInt c))) ::
            rest.map (List.map (fun X => X.replaceUsesOfWith j (.constantInt c)))) := by
  induction n with
  | zero => intro p; rfl
  | succ n ih =>
    intro p
    unfold scanFrom findFold
    cases hJ : B[p]? with
    | none =>
      rw [loopBody_abort_of_deref_none (by rw [deref_append_length]; exact hJ)]
    | some J =>
      rw [loopBody_eq_classify (by rw [deref_append_length]; exact hJ)]
      dsimp only
      rcases hc : classify J with _ | _ | c
      · rfl
      · dsimp only
        exact ih (p + 1)
      · dsimp only
        rw [ReplaceInstWithValue_context done rest B p J hJ]

theorem substFolds_nil (I : Instruction) : substFolds [] I = I := rfl

theorem substFolds_cons (e : Nat × ConstantInt) (σ : List (Nat × ConstantInt)) (I : Instruction) :
    substFolds (e :: σ) I = substFolds σ (I.replaceUsesOfWith e.1 (.constantInt e.2)) := rfl

theorem substFolds_append (σ τ : List (Nat × ConstantInt)) (I : Instruction) :
    substFolds (σ ++ τ) I = substFolds τ (substFolds σ I) := by
  unfold substFolds
  rw [List.foldl_append]

theorem map_substFolds_nil (B : BasicBlock) : B.map (substFolds []) = B := by
  conv_rhs => rw [← List.map_id B]
  exact List.map_congr_left (fun _ _ => rfl)

theorem map_map_substFolds_nil (F : Function) : F.map (List.map (substFolds [])) = F := by
  conv_rhs => rw [← List.map_id F]
  exact List.map_congr_left (fun B _ => map_substFolds_nil B)

theorem map_substFolds_cons (e : Nat × ConstantInt) (σ : List (Nat × ConstantInt))
    (B : BasicBlock) :
    B.map (substFolds (e :: σ)) =
      (B.map (fun X => X.replaceUsesOfWith e.1 (.constantInt e.2))).map (substFolds σ) := by
  rw [List.map_map]
  exact List.map_congr_left (fun _ _ => rfl)

theorem map_map_substFolds_cons (e : Nat × ConstantInt) (σ : List (Nat × ConstantInt))
    (F : Function) :
    F.map (List.map (substFolds (e :: σ))) =
      (F.map (List.map (fun X => X.replaceUsesOfWith e.1 (.constantInt e.2)))).map
        (List.map (substFolds σ)) := by
  rw [List.map_map]
  exact List.map_congr_left (fun B _ => map_substFolds_cons e σ B)

theorem map_substFolds_append (σ τ : List (Nat × ConstantInt)) (B : BasicBlock) :
    B.map (substFolds (σ ++ τ)) = (B.map (substFolds σ)).map (substFolds τ) := by
  rw [List.map_map]
  exact List.map_congr_left (fun I _ => substFolds_append σ τ I)

theorem map_map_substFolds_append (σ τ : List (Nat × ConstantInt)) (F : Function) :
    F.map (List.map (substFolds (σ ++ τ))) =
      (F.map (List.map (substFolds σ))).map (List.map (substFolds τ)) := by
  rw [List.map_map]
  exact List.map_congr_left (fun B _ => map_substFolds_append σ τ B)

theorem scanLoop_context (fuel : Nat) :
    ∀ (done rest : Function) (B : BasicBlock),
      scanLoop fuel (done ++ B :: rest) done.length =
        match foldLoop fuel B with
        | .ok (σ, B1) =>
          .ok (done.map (List.map (substFolds σ)) ++ B1 :: rest.map (List.map (substFolds σ)))
        | .abort => .abort
        | .outOfFuel => .outOfFuel := by
  induction fuel with
  | zero =>
    intro done rest B
    unfold scanLoop foldLoop
    rw [blockSize_append_length, scanFrom_context done rest B B.length 0]
    rcases hf : findFold B.length B 0 with _ | _ | ⟨q, j, c⟩
    · rfl
    · dsimp only
      rw [map_map_substFolds_nil, map_map_substFolds_nil]
    · rfl
  | succ fuel ih =>
    intro done rest B
    unfold scanLoop foldLoop
    rw [blockSize_append_length, scanFrom_context done rest B B.length 0]
    rcases hf : findFold B.length B 0 with _ | _ | ⟨q, j, c⟩
    · rfl
    · dsimp only
      rw [map_map_substFolds_nil, map_map_substFolds_nil]
    · dsimp only
      have h := ih (done.map (List.map (fun X => X.replaceUsesOfWith j (.constantInt c))))
        (rest.map (List.map (fun X => X.replaceUsesOfWith j (.constantInt c))))
        ((B.eraseIdx q).map (fun X => X.replaceUsesOfWith j (.constantInt c)))
      rw [List.length_map] at h
      rw [h]
      generalize foldLoop fuel
        ((B.eraseIdx q).map (fun X => X.replaceUsesOfWith j (.constantInt c))) = o
      rcases o with ⟨σ, B1⟩ | _ | _
      · dsimp only
        rw [map_map_substFolds_cons (j, c) σ done, map_map_substFolds_cons (j, c) σ rest]
      · rfl
      · rfl

theorem runOnBlock_context (done rest : Function) (B : BasicBlock) :
    runOnBlock (done ++ B :: rest) done.length =
      match foldLoop B.length B with
      | .ok (σ, B1) =>
        .ok (done.map (List.map (substFolds σ)) ++ B1 :: rest.map (List.map (substFolds σ)))
      | .abort => .abort
      | .outOfFuel => .outOfFuel := by
  unfold runOnBlock
  rw [blockSize_append_length, scanLoop_context]

theorem foldLoop_ne_outOfFuel (B : BasicBlock) : foldLoop B.length B ≠ .outOfFuel := by
  intro h
  have h1 := runOnBlock_context [] [] B
  rw [h] at h1
  exact runOnBlock_ne_outOfFuel _ _ h1

theorem replaceUsesOfWith_comm (I : Instruction) {j k : Nat} (h : j ≠ k) (c d : ConstantInt) :
    (I.replaceUsesOfWith j (.constantInt c)).replaceUsesOfWith k (.constantInt d) =
      (I.replaceUsesOfWith k (.constantInt d)).replaceUsesOfWith j (.constantInt c) := by
  cases I with
  | mk id kind ops =>
    simp only [Instruction.replaceUsesOfWith, List.map_map, Instruction.mk.injEq, true_and]
    apply List.map_congr_left
    intro u _
    simp only [Function.comp]
    by_cases h1 : u = Value.instruction j
    · subst h1
      have hne : Value.instruction j ≠ Value.instruction k := fun e => h (Value.instruction.inj e)
      simp [hne]
    · by_cases h2 : u = Value.instruction k
      · subst h2
        simp [h1]
      · simp [h1, h2]

theorem substFolds_replace_comm (τ : List (Nat × ConstantInt)) (j : Nat) (c : ConstantInt)
    (h : ∀ e ∈ τ, e.1 ≠ j) (I : Instruction) :
    substFolds τ (I.replaceUsesOfWith j (.constantInt c)) =
      (substFolds τ I).replaceUsesOfWith j (.constantInt c) := by
  induction τ generalizing I with
  | nil => rfl
  | cons e τ ih =>
    rw [substFolds_cons, substFolds_cons,
      replaceUsesOfWith_comm I (h e (List.mem_cons_self _ _)).symm c e.2]
    exact ih (fun x hx => h x (List.mem_cons_of_mem _ hx)) _

theorem substFolds_eq_self (σ : List (Nat × ConstantInt)) (I : Instruction)
    (h : ∀ e ∈ σ, Value.instruction e.1 ∉ I.operands) : substFolds σ I = I := by
  induction σ with
  | nil => rfl
  | cons e σ ih =>
    rw [substFolds_cons, replaceUsesOfWith_eq_self _ (h e (List.mem_cons_self _ _))]
    exact ih (fun x hx => h x (List.mem_cons_of_mem _ hx))

theorem mem_operands_of_substFolds (σ : List (Nat × ConstantInt)) {I : Instruction} {d : Nat}
    (h : Value.instruction d ∈ (substFolds σ I).operands) : Value.instruction d ∈ I.operands := by
  induction σ generalizing I with
  | nil => exact h
  | cons e σ ih =>
    rw [substFolds_cons] at h
    exact mem_operands_of_replaceUsesOfWith (ih h)

theorem not_mem_operands_substFolds (σ : List (Nat × ConstantInt)) (I : Instruction)
    {e : Nat × ConstantInt} (he : e ∈ σ) : Value.instruction e.1 ∉ (substFolds σ I).operands := by
  induction σ generalizing I with
  | nil => cases he
  | cons x σ ih =>
    rw [substFolds_cons]
    rcases List.mem_cons.mp he with rfl | hm
    · intro hmem
      exact not_mem_operands_replaceUsesOfWith I e.1 e.2 (mem_operands_of_substFolds σ hmem)
    · exact ih _ hm

theorem substFolds_id (σ : List (Nat × ConstantInt)) (I : Instruction) :
    (substFolds σ I).id = I.id := by
  induction σ generalizing I with
  | nil => rfl
  | cons e σ ih => rw [substFolds_cons, ih]; rfl

theorem substFolds_kind (σ : List (Nat × ConstantInt)) (I : Instruction) :
    (substFolds σ I).kind = I.kind := by
  induction σ generalizing I with
  | nil => rfl
  | cons e σ ih => rw [substFolds_cons, ih]; rfl

theorem isa_substFolds (σ : List (Nat × ConstantInt)) (I : Instruction) :
    isaBinaryOperator (substFolds σ I) = isaBinaryOperator I ∧
    isaICmpInst (substFolds σ I) = isaICmpInst I := by
  unfold isaBinaryOperator isaICmpInst
  rw [substFolds_kind]
  exact ⟨rfl, rfl⟩

theorem substFolds_perm {σ τ : List (Nat × ConstantInt)} (hp : σ.Perm τ)
    (hn : (σ.map Prod.fst).Nodup) (I : Instruction) : substFolds σ I = substFolds τ I := by
  unfold substFolds
  apply List.Perm.foldl_eq' hp
  intro x hx y hy z
  by_cases e : x = y
  · rw [e]
  · have hne : x.1 ≠ y.1 := by
      intro e1
      exact e (List.inj_on_of_nodup_map hn hx hy e1)
    exact replaceUsesOfWith_comm z hne x.2 y.2

theorem classify_substFolds (τ : List (Nat × ConstantInt)) (J : Instruction)
    (h : (isaBinaryOperator J = true ∨ isaICmpInst J = true) →
      ∀ e ∈ τ, Value.instruction e.1 ∉ J.operands) :
    classify (substFolds τ J) = classify J := by
  by_cases hk : isaBinaryOperator J = true ∨ isaICmpInst J = true
  · rw [substFolds_eq_self τ J (h hk)]
  · rw [classify_of_other_class hk]
    apply classify_of_other_class
    rw [(isa_substFolds τ J).1, (isa_substFolds τ J).2]
    exact hk

theorem findFold_subst {τ : List (Nat × ConstantInt)} {B : BasicBlock} (h : FoldsAvoid τ B)
    (n : Nat) : ∀ p, findFold n (B.map (substFolds τ)) p = findFold n B p := by
  induction n with
  | zero => intro p; rfl
  | succ n ih =>
    intro p
    unfold findFold
    rw [List.getElem?_map]
    cases hJ : B[p]? with
    | none => rfl
    | some J =>
      dsimp only [Option.map]
      have hJB : J ∈ B := List.mem_iff_getElem?.mpr ⟨p, hJ⟩
      rw [classify_substFolds τ J (fun hk e he => (h J hJB hk e he).2), substFolds_id, ih (p + 1)]

theorem FoldsAvoid_step {τ : List (Nat × ConstantInt)} {B : BasicBlock} (h : FoldsAvoid τ B)
    (q j : Nat) (c : ConstantInt) :
    FoldsAvoid τ ((B.eraseIdx q).map (fun X => X.replaceUsesOfWith j (.constantInt c))) := by
  intro I1 hI1 hk e he
  obtain ⟨I, hI, rfl⟩ := List.mem_map.mp hI1
  have := h I (List.mem_of_mem_eraseIdx hI) hk e he
  exact ⟨this.1, fun hm => this.2 (mem_operands_of_replaceUsesOfWith hm)⟩

theorem foldLoop_subst {τ : List (Nat × ConstantInt)} (fuel : Nat) :
    ∀ (B : BasicBlock), FoldsAvoid τ B →
      foldLoop fuel (B.map (substFolds τ)) =
        match foldLoop fuel B with
        | .ok (σ, B1) => .ok (σ, B1.map (substFolds τ))
        | .abort => .abort
        | .outOfFuel => .outOfFuel := by
  induction fuel with
  | zero =>
    intro B h
    unfold foldLoop
    rw [List.length_map, findFold_subst h]
    rcases hf : findFold B.length B 0 with _ | _ | ⟨q, j, c⟩ <;> rfl
  | succ fuel ih =>
    intro B h
    unfold foldLoop
    rw [List.length_map, findFold_subst h]
    rcases hf : findFold B.length B 0 with _ | _ | ⟨q, j, c⟩
    · rfl
    · rfl
    · dsimp only
      obtain ⟨J, hJ, hid, hc⟩ := findFold_some hf
      have hJB : J ∈ B := List.mem_iff_getElem?.mpr ⟨q, hJ⟩
      have hfresh : ∀ e ∈ τ, e.1 ≠ j := fun e he => by
        rw [← hid]; exact (h J hJB (classify_kind hc).1 e he).1
      have hB : ((B.map (substFolds τ)).eraseIdx q).map
            (fun X => X.replaceUsesOfWith j (.constantInt c)) =
          ((B.eraseIdx q).map (fun X => X.replaceUsesOfWith j (.constantInt c))).map
            (substFolds τ) := by
        rw [map_eraseIdx_comm, List.map_map, List.map_map]
        apply List.map_congr_left
        intro I _
        exact (substFolds_replace_comm τ j c hfresh I).symm
      rw [hB, ih _ (FoldsAvoid_step h q j c)]
      generalize foldLoop fuel
        ((B.eraseIdx q).map (fun X => X.replaceUsesOfWith j (.constantInt c))) = o
      rcases o with ⟨σ, B1⟩ | _ | _ <;> rfl

theorem foldLoop_keys {fuel : Nat} :
    ∀ {B : BasicBlock} {σ : List (Nat × ConstantInt)} {B1 : BasicBlock},
      foldLoop fuel B = .ok (σ, B1) →
      (∀ e ∈ σ, ∃ J ∈ B, (isaBinaryOperator J = true ∨ isaICmpInst J = true) ∧ J.id = e.1) ∧
      ((B.map Instruction.id).Nodup → (σ.map Prod.fst).Nodup) ∧
      ∀ I1 ∈ B1, ∃ I ∈ B, I1 = substFolds σ I := by
  induction fuel with
  | zero =>
    intro B σ B1 h
    unfold foldLoop at h
    rcases hf : findFold B.length B 0 with _ | _ | ⟨q, j, c⟩
    · rw [hf] at h; cases h
    · rw [hf] at h
      cases h
      exact ⟨fun e he => (by cases he), fun _ => List.nodup_nil, fun I hI => ⟨I, hI, rfl⟩⟩
    · rw [hf] at h; cases h
  | succ fuel ih =>
    intro B σ B1 h
    unfold foldLoop at h
    rcases hf : findFold B.length B 0 with _ | _ | ⟨q, j, c⟩
    · rw [hf] at h; cases h
    · rw [hf] at h
      cases h
      exact ⟨fun e he => (by cases he), fun _ => List.nodup_nil, fun I hI => ⟨I, hI, rfl⟩⟩
    · rw [hf] at h
      dsimp only at h
      obtain ⟨J, hJ, hid, hc⟩ := findFold_some hf
      have hJB : J ∈ B := List.mem_iff_getElem?.mpr ⟨q, hJ⟩
      cases ho : foldLoop fuel
          ((B.eraseIdx q).map (fun X => X.replaceUsesOfWith j (.constantInt c))) with
      | abort => rw [ho] at h; cases h
      | outOfFuel => rw [ho] at h; cases h
      | ok r =>
        obtain ⟨σ1, B2⟩ := r
        rw [ho] at h
        cases h
        obtain ⟨h1, h2, h3⟩ := ih ho
        have hsub : ∀ e ∈ σ1, ∃ J0 ∈ B.eraseIdx q,
            (isaBinaryOperator J0 = true ∨ isaICmpInst J0 = true) ∧ J0.id = e.1 := by
          intro e he
          obtain ⟨J1, hJ1, hk, hi⟩ := h1 e he
          obtain ⟨J0, hJ0, rfl⟩ := List.mem_map.mp hJ1
          exact ⟨J0, hJ0, hk, hi⟩
        refine ⟨?_, ?_, ?_⟩
        · intro e he
          rcases List.mem_cons.mp he with rfl | hm
          · exact ⟨J, hJB, (classify_kind hc).1, hid⟩
          · obtain ⟨J0, hJ0, hk, hi⟩ := hsub e hm
            exact ⟨J0, List.mem_of_mem_eraseIdx hJ0, hk, hi⟩
        · intro hn
          rw [List.map_cons, List.nodup_cons]
          constructor
          · intro hmem
            obtain ⟨e, he, hej⟩ := List.mem_map.mp hmem
            obtain ⟨J0, hJ0, _, hi⟩ := hsub e he
            obtain ⟨i, hiq, hBi⟩ := List.mem_eraseIdx_iff_getElem?.mp hJ0
            have := getElem?_inj_of_nodup_ids hn hBi hJ (by rw [hi, hej, hid])
            exact hiq this
          · apply h2
            rw [List.map_map]
            have e1 : (Instruction.id ∘ fun X => X.replaceUsesOfWith j (Value.constantInt c)) =
                Instruction.id := rfl
            rw [e1, ← map_eraseIdx_comm]
            exact List.Nodup.eraseIdx q hn
        · intro I1 hI1
          obtain ⟨I2, hI2, rfl⟩ := h3 I1 hI1
          obtain ⟨I, hI, rfl⟩ := List.mem_map.mp hI2
          exact ⟨I, List.mem_of_mem_eraseIdx hI, rfl⟩

theorem foldLoop_own_folds {fuel : Nat} {B : BasicBlock} {σ : List (Nat × ConstantInt)}
    {B1 : BasicBlock} (h : foldLoop fuel B = .ok (σ, B1)) (τ : List (Nat × ConstantInt)) :
    (B1.map (substFolds τ)).map (substFolds σ) = B1.map (substFolds τ) := by
  conv_rhs => rw [← List.map_id (B1.map (substFolds τ))]
  apply List.map_congr_left
  intro X hX
  obtain ⟨I1, hI1, rfl⟩ := List.mem_map.mp hX
  obtain ⟨I, _, rfl⟩ := (foldLoop_keys h).2.2 I1 hI1
  apply substFolds_eq_self
  intro e he hm
  exact not_mem_operands_substFolds σ I he (mem_operands_of_substFolds τ hm)

theorem blockFolds_spec {B : BasicBlock} {σ : List (Nat × ConstantInt)} {B1 : BasicBlock}
    (h : foldLoop B.length B = .ok (σ, B1)) :
    blockFolds B = σ ∧ blockResult B = B1 ∧ blockReturns B = true := by
  unfold blockFolds blockResult blockReturns
  rw [h]
  exact ⟨rfl, rfl, rfl⟩

theorem blockReturns_of_abort {B : BasicBlock} (h : foldLoop B.length B = .abort) :
    blockReturns B = false := by
  unfold blockReturns
  rw [h]

theorem blockFolds_keys (B : BasicBlock) :
    (∀ e ∈ blockFolds B, ∃ J ∈ B, (isaBinaryOperator J = true ∨ isaICmpInst J = true) ∧
      J.id = e.1) ∧
    ((B.map Instruction.id).Nodup → ((blockFolds B).map Prod.fst).Nodup) := by
  cases h : foldLoop B.length B with
  | ok r =>
    obtain ⟨σ, B1⟩ := r
    rw [(blockFolds_spec h).1]
    exact ⟨(foldLoop_keys h).1, (foldLoop_keys h).2.1⟩
  | abort =>
    unfold blockFolds
    rw [h]
    exact ⟨fun e he => (by cases he), fun _ => List.nodup_nil⟩
  | outOfFuel =>
    unfold blockFolds
    rw [h]
    exact ⟨fun e he => (by cases he), fun _ => List.nodup_nil⟩

theorem FoldsAvoid_nil (B : BasicBlock) : FoldsAvoid [] B :=
  fun _ _ _ e he => (by cases he)

theorem FoldsAvoid_append {τ σ : List (Nat × ConstantInt)} {B : BasicBlock}
    (h1 : FoldsAvoid τ B) (h2 : FoldsAvoid σ B) : FoldsAvoid (τ ++ σ) B := by
  intro I hI hk e he
  rcases List.mem_append.mp he with h | h
  · exact h1 I hI hk e h
  · exact h2 I hI hk e h

theorem FoldsAvoid_blockFolds {B B2 : BasicBlock} (h : SeparateBlocks B B2) :
    FoldsAvoid (blockFolds B) B2 := by
  intro I hI hk e he
  obtain ⟨J, hJ, hkJ, hid⟩ := (blockFolds_keys B).1 e he
  rw [← hid]
  exact ⟨h.2 J hJ I hI, (usesNoFoldableOf_iff B2 B).mp h.1.2 I hI J hJ hk hkJ⟩

theorem SeparateBlocks_symm {B B2 : BasicBlock} (h : SeparateBlocks B B2) :
    SeparateBlocks B2 B :=
  ⟨⟨h.1.2, h.1.1⟩, fun I hI J hJ e => h.2 J hJ I hI e.symm⟩

theorem runOnBlocks_context (todo : Function) :
    ∀ (done : Function) (τ : List (Nat × ConstantInt)),
      todo.Pairwise SeparateBlocks → (∀ B ∈ todo, FoldsAvoid τ B) →
      runOnBlocks todo.length done.length (done ++ todo.map (List.map (substFolds τ))) =
        if todo.all blockReturns = true then
          .ok (done.map (List.map (substFolds (todo.flatMap blockFolds))) ++
            todo.map (fun B => (blockResult B).map (substFolds (τ ++ todo.flatMap blockFolds))))
        else .abort := by
  induction todo with
  | nil =>
    intro done τ _ _
    simp [runOnBlocks, map_map_substFolds_nil]
  | cons B rest ih =>
    intro done τ hpw hav
    obtain ⟨hB, hrest⟩ := List.pairwise_cons.mp hpw
    simp only [List.length_cons, List.map_cons, List.all_cons, List.flatMap_cons]
    unfold runOnBlocks
    rw [runOnBlock_context, List.length_map, foldLoop_subst _ B (hav B (List.mem_cons_self _ _))]
    cases hf : foldLoop B.length B with
    | abort =>
      dsimp only
      rw [blockReturns_of_abort hf]
      simp
    | outOfFuel => exact absurd hf (foldLoop_ne_outOfFuel B)
    | ok res =>
      obtain ⟨σ, B1⟩ := res
      obtain ⟨e1, e2, e3⟩ := blockFolds_spec hf
      dsimp only
      rw [e1, e2, e3]
      have hav2 : ∀ X ∈ rest, FoldsAvoid (τ ++ σ) X := by
        intro X hX
        apply FoldsAvoid_append (hav X (List.mem_cons_of_mem _ hX))
        rw [← e1]
        exact FoldsAvoid_blockFolds (hB X hX)
      have h := ih (done.map (List.map (substFolds σ)) ++ [B1.map (substFolds τ)]) (τ ++ σ)
        hrest hav2
      simp only [List.length_append, List.length_map, List.length_singleton,
        List.append_assoc, List.singleton_append] at h
      rw [← map_map_substFolds_append, h]
      simp only [Bool.true_and]
      by_cases hall : rest.all blockReturns = true
      · rw [if_pos hall, if_pos hall]
        congr 1
        rw [List.map_append, ← map_map_substFolds_append, List.map_cons, List.map_nil,
          List.append_assoc, List.singleton_append]
        congr 2
        rw [map_substFolds_append τ, map_substFolds_append σ, foldLoop_own_folds hf τ]
      · rw [if_neg hall, if_neg hall]

theorem runOnFunction_eq_map {F : Function} (hs : F.Pairwise SeparateBlocks) :
    runOnFunction F =
      if F.all blockReturns = true then
        .ok (false, F.map (fun B => (blockResult B).map (substFolds (F.flatMap blockFolds))))
      else .abort := by
  have h := runOnBlocks_context F [] [] hs (fun B _ => FoldsAvoid_nil B)
  simp only [List.length_nil, List.nil_append, List.map_nil, map_map_substFolds_nil] at h
  unfold runOnFunction
  rw [h]
  by_cases hall : F.all blockReturns = true
  · rw [if_pos hall, if_pos hall]
  · rw [if_neg hall, if_neg hall]

theorem pairwise_separate {F : Function} (hu : uniqueIds F) (hind : blocksIndependent F) :
    F.Pairwise SeparateBlocks := by
  unfold uniqueIds at hu
  rw [List.map_flatten, List.nodup_flatten, List.pairwise_map] at hu
  refine (List.Pairwise.and hind hu.2).imp ?_
  intro B B2 h
  refine ⟨h.1, fun I hI J hJ e => ?_⟩
  exact h.2 (List.mem_map_of_mem _ hI) (by rw [e]; exact List.mem_map_of_mem _ hJ)

theorem nodup_keys_blockFolds {F : Function} (hu : uniqueIds F) :
    ((F.flatMap blockFolds).map Prod.fst).Nodup := by
  induction F with
  | nil => simp
  | cons B rest ih =>
    unfold uniqueIds at hu
    rw [List.flatten_cons, List.map_append, List.nodup_append] at hu
    rw [List.flatMap_cons, List.map_append, List.nodup_append]
    refine ⟨(blockFolds_keys B).2 hu.1, ih hu.2.1, ?_⟩
    intro k hk1 hk2
    obtain ⟨e, he, rfl⟩ := List.mem_map.mp hk1
    obtain ⟨J, hJ, _, hid⟩ := (blockFolds_keys B).1 e he
    obtain ⟨e2, he2, hk⟩ := List.mem_map.mp hk2
    obtain ⟨B2, hB2, he3⟩ := List.mem_flatMap.mp he2
    obtain ⟨J2, hJ2, _, hid2⟩ := (blockFolds_keys B2).1 e2 he3
    apply hu.2.2 (List.mem_map_of_mem Instruction.id hJ)
    rw [hid, ← hk, ← hid2]
    exact List.mem_map_of_mem _ (List.mem_flatten.mpr ⟨B2, hB2, hJ2⟩)

theorem zip_map_self {α β : Type} (f : α → β) (l : List α) :
    l.zip (l.map f) = l.map (fun x => (x, f x)) := by
  induction l with
  | nil => rfl
  | cons x xs ih => simp [ih]

end Optimizer
